import Mathlib

/-!
# Sudokura: the puzzle core (`src/core/game.c`, `src/core/game.h`)

A shallow embedding of the Sudoku engine: the constraint checker, the
Fisher-Yates shuffle, the MRV backtracking search (`rec_first`,
`count_limit`), the solved-grid generator, the clue digger and the session
operations, followed by the properties established about them.  Of the copy
of the core in `sudokura_sdl.c` the generator `make_solved` and the session
constructor `new_game` are embedded as `sdl_make_solved` and `sdl_new_game`.

Modelling conventions.
* A C `int[81]` grid is a map `Nat → Int` from the cell index to the cell
  value; only the indices `0..80` are ever read or written.  A store
  `a[i] = v` is `Function.update a i v`, `memcpy` of a whole grid is the grid
  itself.
* Row, column and cell indices are natural numbers (the code only ever forms
  them from loop counters in range); cell values are integers.
* `rand()` is an arbitrary stream `rnd : Nat → Nat` of non-negative values
  together with the number of values consumed so far.
* The two recursive searches take a recursion budget; `unique_solution` calls
  them with `NN + 1`, and `rec_first_total` / `count_limit_total` show that
  this budget is never exhausted.
-/

namespace Sudokura

/-! ## Data model -/

/-- Board side, `SUDOKU_SIZE`. -/
def SUDOKU_SIZE : Nat := 9

/-- Number of cells, `SUDOKU_CELLS` (`NN` in game.c). -/
def NN : Nat := 81

/-- Row-major cell index, `GAME_IDX(r, c)`. -/
def GAME_IDX (r c : Nat) : Nat := r * 9 + c

/-- An `int[81]` grid. -/
abbrev Board := Nat → Int

/-- The `Game` record of game.h: four parallel arrays of 81 entries. -/
structure Game where
  puzzle : Nat → Int
  solution : Nat → Int
  fixed : Nat → Nat
  notes : Nat → Nat

/-! ## Constraint checker -/

/-- Checker `row_has`: some cell of row `row` holds `value`. -/
def row_has (board : Board) (row : Nat) (value : Int) : Bool :=
  (List.range 9).any (fun c => board (GAME_IDX row c) == value)

/-- Checker `col_has`: some cell of column `col` holds `value`. -/
def col_has (board : Board) (col : Nat) (value : Int) : Bool :=
  (List.range 9).any (fun r => board (GAME_IDX r col) == value)

/-- Checker `box_has`: some cell of the 3x3 box containing `(row, col)` holds `value`. -/
def box_has (board : Board) (row col : Nat) (value : Int) : Bool :=
  let br := (row / 3) * 3
  let bc := (col / 3) * 3
  (List.range 3).any (fun rr =>
    (List.range 3).any (fun cc => board (GAME_IDX (br + rr) (bc + cc)) == value))

/-- Checker `can_place_local`: `value` occurs nowhere in the row, column and box. -/
def can_place_local (board : Board) (row col : Nat) (value : Int) : Bool :=
  !row_has board row value && !col_has board col value && !box_has board row col value

/-! ## Shuffle -/

/-- The loop of `shuffle`, for the loop counter running from `i` down to 1:
`j = rand() % (i + 1); t = a[i]; a[i] = a[j]; a[j] = t`.  Returns the array
and the number of `rand()` values consumed so far. -/
def shuffle_loop {α : Type} (rnd : Nat → Nat) : Nat → (Nat → α) → Nat → (Nat → α) × Nat
  | 0, a, k => (a, k)
  | i + 1, a, k =>
    let j := rnd k % (i + 1 + 1)
    let t := a (i + 1)
    let a1 := Function.update a (i + 1) (a j)
    let a2 := Function.update a1 j t
    shuffle_loop rnd i a2 (k + 1)

/-- Fisher-Yates `shuffle(a, n)`; the loop starts at `i = n - 1`. -/
def shuffle {α : Type} (a : Nat → α) (n : Nat) (rnd : Nat → Nat) (k : Nat) : (Nat → α) × Nat :=
  shuffle_loop rnd (n - 1) a k

/-! ## Search engine -/

/-- The values tried for a cell, in ascending order. -/
def digits : List Int := [1, 2, 3, 4, 5, 6, 7, 8, 9]

/-- The `options[]` array filled by the loop `for value = 1..9` of `rec_first`
and `count_limit`; its length is the `count` computed in `find_mrv`. -/
def candidates (board : Board) (row col : Nat) : List Int :=
  digits.filter (fun value => can_place_local board row col value)

/-- The scan of `find_mrv` over the remaining cell indices, carrying `best`
and `best_count`; it stops at the first empty cell with exactly one candidate. -/
def find_mrv_loop (board : Board) : List Nat → Int → Nat → Int
  | [], best, _ => best
  | i :: rest, best, best_count =>
    if board i ≠ 0 then find_mrv_loop board rest best best_count
    else
      let count := (candidates board (i / 9) (i % 9)).length
      if count < best_count then
        if count = 1 then (i : Int)
        else find_mrv_loop board rest (i : Int) count
      else find_mrv_loop board rest best best_count

/-- Search `find_mrv`: index of the empty cell with the fewest candidates, -1 if none. -/
def find_mrv (board : Board) : Int :=
  find_mrv_loop board (List.range NN) (-1) 10

/-- The loop `for k < count` of `rec_first` over the remaining options, with
the recursive call passed as `self`.  The result is the returned flag, the
board and `out` after the call. -/
def rec_first_loop (self : Board → Board → Option (Bool × Board × Board)) (idx : Nat) :
    List Int → Board → Board → Option (Bool × Board × Board)
  | [], board, out => some (false, board, out)
  | v :: vs, board, out =>
    match self (Function.update board idx v) out with
    | none => none
    | some (true, board1, out1) => some (true, board1, out1)
    | some (false, board1, out1) =>
      rec_first_loop self idx vs (Function.update board1 idx 0) out1

/-- Search `rec_first` with a recursion budget (`none` when it runs out). -/
def rec_first : Nat → Board → Board → Option (Bool × Board × Board)
  | 0, _, _ => none
  | fuel + 1, board, out =>
    let idx := find_mrv board
    if idx < 0 then some (true, board, board)
    else
      rec_first_loop (rec_first fuel) idx.toNat
        (candidates board (idx.toNat / 9) (idx.toNat % 9)) board out

/-- The loop `for k < count` of `count_limit` over the remaining options,
carrying `total`; the recursive call is passed as `self`. -/
def count_limit_loop (self : Board → Int → Option (Int × Board)) (idx : Nat) (limit : Int) :
    List Int → Int → Board → Option (Int × Board)
  | [], total, board => some (total, board)
  | v :: vs, total, board =>
    match self (Function.update board idx v) (limit - total) with
    | none => none
    | some (got, board1) =>
      if total + got ≥ limit then some (total + got, Function.update board1 idx 0)
      else count_limit_loop self idx limit vs (total + got) (Function.update board1 idx 0)

/-- Search `count_limit` with a recursion budget: the count and the board after the call. -/
def count_limit : Nat → Board → Int → Option (Int × Board)
  | 0, _, _ => none
  | fuel + 1, board, limit =>
    let idx := find_mrv board
    if idx < 0 then some (1, board)
    else
      count_limit_loop (count_limit fuel) idx.toNat limit
        (candidates board (idx.toNat / 9) (idx.toNat % 9)) 0 board

/-- Search `unique_solution`: the flag and `out_solution` after the call.  Both
searches run on a private copy `tmp` of `puzzle`. -/
def unique_solution (puzzle : Board) (out_solution : Board) : Option (Bool × Board) :=
  match rec_first (NN + 1) puzzle out_solution with
  | none => none
  | some (false, _, out1) => some (false, out1)
  | some (true, _, out1) =>
    match count_limit (NN + 1) puzzle 2 with
    | none => none
    | some (n, _) => some (n == 1, out1)

/-! ## Solved-grid generator -/

/-- The loop `for b0 < 3` of `make_solved` filling `rows` (and, second time,
`cols`): shuffle line group `band[b0]` and append its three lines.  The inner
loop `rows[p++] = rin[bi][i]` for `i = 0, 1, 2` is written out. -/
def fill_lines (rnd : Nat → Nat) (band : Nat → Nat) :
    List Nat → (Nat → Nat → Nat) → (Nat → Nat) → Nat → Nat → (Nat → Nat) × Nat
  | [], _, rows, _, k => (rows, k)
  | b0 :: bs, rin, rows, p, k =>
    let bi := band b0
    let sh := shuffle (rin bi) 3 rnd k
    let rin1 := Function.update rin bi sh.1
    let rows1 := Function.update rows p (rin1 bi 0)
    let rows2 := Function.update rows1 (p + 1) (rin1 bi 1)
    let rows3 := Function.update rows2 (p + 1 + 1) (rin1 bi 2)
    fill_lines rnd band bs rin1 rows3 (p + 3) sh.2

/-- Generator `make_solved`, started after `k` values of `rand()` were consumed:
the grid written to `out` and the new number of consumed values.  The final
double loop writes cell `GAME_IDX(r, c)` with `nums[(r2*3 + r2/3 + c2) % 9]`. -/
def make_solved (rnd : Nat → Nat) (k : Nat) : Board × Nat :=
  let nums : Nat → Int := fun i => (i : Int) + 1
  let band := shuffle (fun i => i) 3 rnd k
  let rows := fill_lines rnd band.1 [0, 1, 2] (fun b i => 3 * b + i) (fun i => i) 0 band.2
  let stack_ := shuffle (fun i => i) 3 rnd rows.2
  let cols := fill_lines rnd stack_.1 [0, 1, 2] (fun b i => 3 * b + i) (fun i => i) 0 stack_.2
  let nums1 := shuffle nums 9 rnd cols.2
  (fun idx =>
      let r2 := rows.1 (idx / 9)
      let c2 := cols.1 (idx % 9)
      nums1.1 ((r2 * 3 + r2 / 3 + c2) % 9),
    nums1.2)

/-! ## Clue removal -/

/-- The loop `for k < NN` of `remove_to_medium` over the remaining values of
`k`, carrying the grid, `clues` and the number of consumed `rand()` values.
`scratch` is the content of the uninitialised local `solution`. -/
def remove_loop (rnd : Nat → Nat) (scratch : Board) (pos : Nat → Nat) :
    List Nat → Board → Int → Nat → Option Board
  | [], grid, _, _ => some grid
  | k :: ks, grid, clues, s =>
    let i := pos k
    let r := i / 9
    let c := i % 9
    let j := GAME_IDX (9 - 1 - r) (9 - 1 - c)
    if grid i = 0 ∧ grid j = 0 then remove_loop rnd scratch pos ks grid clues s
    else
      let bi := grid i
      let bj := grid j
      let grid1 := Function.update grid i 0
      let grid2 := if j ≠ i then Function.update grid1 j 0 else grid1
      match unique_solution grid2 scratch with
      | none => none
      | some (ok, _) =>
        let delta : Int := if j = i then 1 else 2
        if !ok || decide (clues - delta < 32) then
          let grid3 := Function.update grid2 i bi
          let grid4 := if j ≠ i then Function.update grid3 j bj else grid3
          remove_loop rnd scratch pos ks grid4 clues s
        else if clues - delta ≤ 38 then
          if rnd s % 3 = 0 then some grid2
          else remove_loop rnd scratch pos ks grid2 (clues - delta) (s + 1)
        else remove_loop rnd scratch pos ks grid2 (clues - delta) s

/-- Digger `remove_to_medium`, started after `k` values of `rand()` were consumed. -/
def remove_to_medium (grid : Board) (rnd : Nat → Nat) (k : Nat) (scratch : Board) :
    Option Board :=
  let pos := shuffle (fun i => i) NN rnd k
  remove_loop rnd scratch pos.1 (List.range NN) grid 81 pos.2

/-! ## Session creation -/

/-- The fallback literal `safe` of `game_new`. -/
def safe : Board := fun i =>
  [5, 3, 0, 0, 7, 0, 0, 0, 0,
   6, 0, 0, 1, 9, 5, 0, 0, 0,
   0, 9, 8, 0, 0, 0, 0, 6, 0,
   8, 0, 0, 0, 6, 0, 0, 0, 3,
   4, 0, 0, 8, 0, 3, 0, 0, 1,
   7, 0, 0, 0, 2, 0, 0, 0, 6,
   0, 6, 0, 0, 0, 0, 2, 8, 0,
   0, 0, 0, 4, 1, 9, 0, 0, 5,
   0, 0, 0, 0, 8, 0, 0, 7, 9].getD i 0

/-- The final loop of `game_new`, filling the four arrays of the session. -/
def fill_game (puzzle final_solution : Board) : Game where
  puzzle := puzzle
  solution := final_solution
  fixed := fun i => if puzzle i ≠ 0 then 1 else 0
  notes := fun _ => 0

/-- Session `game_new`.  `rnd` is the stream `rand()` yields once seeded and
`uninit` the content of the uninitialised stack arrays (`final_solution`, and
`solution` inside `remove_to_medium`). -/
def game_new (rnd : Nat → Nat) (uninit : Board) : Option Game :=
  let solved := make_solved rnd 0
  match remove_to_medium solved.1 rnd solved.2 uninit with
  | none => none
  | some puzzle =>
    match unique_solution puzzle uninit with
    | none => none
    | some (true, final_solution) => some (fill_game puzzle final_solution)
    | some (false, final_solution) =>
      match unique_solution safe final_solution with
      | none => none
      | some (_, final_solution1) => some (fill_game safe final_solution1)

/-! ## The copy of the core in `sudokura_sdl.c` -/

/-- The loop `for (b = 0; b < 3; b++) shuffle(rin[b], 3)` of `make_solved` in
`sudokura_sdl.c`: the line groups are shuffled in index order, before any line
is appended. -/
def sdl_shuffle_groups (rnd : Nat → Nat) :
    List Nat → (Nat → Nat → Nat) → Nat → (Nat → Nat → Nat) × Nat
  | [], rin, k => (rin, k)
  | b :: bs, rin, k =>
    let sh := shuffle (rin b) 3 rnd k
    sdl_shuffle_groups rnd bs (Function.update rin b sh.1) sh.2

/-- The loop `for b0 < 3` of `make_solved` in `sudokura_sdl.c` that appends the
three lines of group `band[b0]` to `rows` (and, second time, to `cols`). -/
def sdl_fill_lines (band : Nat → Nat) (rin : Nat → Nat → Nat) :
    List Nat → (Nat → Nat) → Nat → (Nat → Nat)
  | [], rows, _ => rows
  | b0 :: bs, rows, p =>
    let bi := band b0
    let rows1 := Function.update rows p (rin bi 0)
    let rows2 := Function.update rows1 (p + 1) (rin bi 1)
    let rows3 := Function.update rows2 (p + 1 + 1) (rin bi 2)
    sdl_fill_lines band rin bs rows3 (p + 3)

/-- Generator `make_solved` of `sudokura_sdl.c`, started after `k` values of
`rand()` were consumed.  Its `shuffle` is, statement for statement, the
`shuffle` of `core/game.c`. -/
def sdl_make_solved (rnd : Nat → Nat) (k : Nat) : Board × Nat :=
  let nums : Nat → Int := fun i => (i : Int) + 1
  let band := shuffle (fun i => i) 3 rnd k
  let rin := sdl_shuffle_groups rnd [0, 1, 2] (fun b i => 3 * b + i) band.2
  let rows := sdl_fill_lines band.1 rin.1 [0, 1, 2] (fun i => i) 0
  let stack_ := shuffle (fun i => i) 3 rnd rin.2
  let cin := sdl_shuffle_groups rnd [0, 1, 2] (fun b i => 3 * b + i) stack_.2
  let cols := sdl_fill_lines stack_.1 cin.1 [0, 1, 2] (fun i => i) 0
  let nums1 := shuffle nums 9 rnd cin.2
  (fun idx =>
      let r2 := rows (idx / 9)
      let c2 := cols (idx % 9)
      nums1.1 ((r2 * 3 + r2 / 3 + c2) % 9),
    nums1.2)

/-- Session `new_game` of `sudokura_sdl.c`.  Its `remove_to_medium`,
`unique_solution` and literal `safe` are, statement for statement, those of
`core/game.c`, so their embeddings are shared. -/
def sdl_new_game (rnd : Nat → Nat) (uninit : Board) : Option Game :=
  let solved := sdl_make_solved rnd 0
  match remove_to_medium solved.1 rnd solved.2 uninit with
  | none => none
  | some puzzle =>
    match unique_solution puzzle uninit with
    | none => none
    | some (true, finalSol) => some (fill_game puzzle finalSol)
    | some (false, finalSol) =>
      match unique_solution safe finalSol with
      | none => none
      | some (_, finalSol1) => some (fill_game safe finalSol1)

/-! ## Session operations -/

/-- Session `game_is_solved`: every cell is filled and equals the solution. -/
def game_is_solved (game : Game) : Bool :=
  (List.range NN).all (fun i => !(game.puzzle i == 0) && game.puzzle i == game.solution i)

/-- Session `game_place`: the returned flag and the session after the call. -/
def game_place (game : Game) (row col : Nat) (value : Int) (strict : Bool) : Bool × Game :=
  let idx := GAME_IDX row col
  if game.fixed idx ≠ 0 then (false, game)
  else if value = 0 then
    (true, { game with puzzle := Function.update game.puzzle idx 0,
                       notes := Function.update game.notes idx 0 })
  else if strict && !can_place_local game.puzzle row col value then (false, game)
  else
    (true, { game with puzzle := Function.update game.puzzle idx value,
                       notes := Function.update game.notes idx 0 })

/-- Session `game_give_hint`: the returned flag and the session after the call. -/
def game_give_hint (game : Game) (row col : Nat) : Bool × Game :=
  let idx := GAME_IDX row col
  if game.fixed idx ≠ 0 then (false, game)
  else
    let correct := game.solution idx
    if game.puzzle idx = correct then (false, game)
    else
      (true, { game with puzzle := Function.update game.puzzle idx correct,
                         notes := Function.update game.notes idx 0 })

/-- Session `game_has_conflict`: `value` occurs in a cell other than `(row, col)`
of the row, the column or the box of `(row, col)`; false for value 0. -/
def game_has_conflict (game : Game) (row col : Nat) (value : Int) : Bool :=
  if value = 0 then false
  else if (List.range 9).any (fun c => c != col && game.puzzle (GAME_IDX row c) == value) then true
  else if (List.range 9).any (fun r => r != row && game.puzzle (GAME_IDX r col) == value) then true
  else
    let br := (row / 3) * 3
    let bc := (col / 3) * 3
    (List.range 3).any (fun r => (List.range 3).any (fun c =>
      !(br + r == row && bc + c == col) && game.puzzle (GAME_IDX (br + r) (bc + c)) == value))

/-- Session `game_count_conflicts`: the double loop over rows and columns,
carrying `cnt`. -/
def game_count_conflicts (game : Game) : Int :=
  (List.range 9).foldl (fun cnt r =>
    (List.range 9).foldl (fun cnt c =>
      let value := game.puzzle (GAME_IDX r c)
      if value ≠ 0 ∧ game_has_conflict game r c value = true then cnt + 1 else cnt) cnt) 0

/-! ## Specification vocabulary -/

/-- Cells `i` and `j` share a row, a column or a 3x3 box. -/
def sameUnit (i j : Nat) : Prop :=
  i / 9 = j / 9 ∨ i % 9 = j % 9 ∨ (i / 27 = j / 27 ∧ i % 9 / 3 = j % 9 / 3)

instance sameUnit_decidable (i j : Nat) : Decidable (sameUnit i j) := by
  unfold sameUnit
  infer_instance

/-- The filled cells of a grid are consistent: every cell is in 0..9 and no
two cells of one row, column or box hold the same non-zero value. -/
def Consistent (b : Board) : Prop :=
  (∀ i, i < 81 → 0 ≤ b i ∧ b i ≤ 9) ∧
    ∀ i, i < 81 → ∀ j, j < 81 → i ≠ j → sameUnit i j → b i ≠ 0 → b i ≠ b j

/-- No cell of the grid is empty. -/
def Full (b : Board) : Prop := ∀ i, i < 81 → b i ≠ 0

/-- Grid `s` keeps every filled cell of `b`. -/
def Extends (b s : Board) : Prop := ∀ i, i < 81 → b i ≠ 0 → s i = b i

/-- The cell indices of row `r`. -/
def rowCells (r : Nat) : List Nat := (List.range 9).map (fun c => r * 9 + c)

/-- The cell indices of column `c`. -/
def colCells (c : Nat) : List Nat := (List.range 9).map (fun r => r * 9 + c)

/-- The cell indices of the box in box-row `br` and box-column `bc`. -/
def boxCells (br bc : Nat) : List Nat :=
  [0, 1, 2].flatMap (fun rr => [0, 1, 2].map (fun cc => (br * 3 + rr) * 9 + (bc * 3 + cc)))

/-- The shape of a unit: nine distinct cells that pairwise share a unit. -/
def IsUnit (cells : List Nat) : Prop :=
  cells.Nodup ∧ cells.length = 9 ∧ (∀ i, i ∈ cells → i < 81) ∧
    ∀ i, i ∈ cells → ∀ j, j ∈ cells → sameUnit i j

instance isUnit_decidable (cells : List Nat) : Decidable (IsUnit cells) := by
  unfold IsUnit
  infer_instance

/-- How many of the given cells hold the value `v`. -/
def occurrences (b : Board) (cells : List Nat) (v : Int) : Nat :=
  cells.countP (fun i => b i == v)

/-- Every row, column and box contains each of 1..9 exactly once. -/
def Latin (b : Board) : Prop :=
  (∀ r, r < 9 → ∀ v, v ∈ digits → occurrences b (rowCells r) v = 1) ∧
  (∀ c, c < 9 → ∀ v, v ∈ digits → occurrences b (colCells c) v = 1) ∧
  (∀ br, br < 3 → ∀ bc, bc < 3 → ∀ v, v ∈ digits → occurrences b (boxCells br bc) v = 1)

/-- Number of empty cells of the grid. -/
def emptyCount (b : Board) : Nat := (List.range 81).countP (fun i => b i == 0)

/-- Number of non-zero cells (clues) of the grid. -/
def clueCount (b : Board) : Nat := (List.range 81).countP (fun i => b i != 0)

/-- What a call `rec_first` on `b` with `out` delivers: a result; on `false`
board and `out` are untouched; on `true` the board is a full grid that keeps
the filled cells of `b`, is consistent if `b` was, and was copied to `out`. -/
def RecFirstPost (b out : Board) (res : Option (Bool × Board × Board)) : Prop :=
  ∃ f b1 o1, res = some (f, b1, o1) ∧
    (f = false → b1 = b ∧ o1 = out) ∧
    (f = true → o1 = b1 ∧ Extends b b1 ∧ Full b1 ∧ (Consistent b → Consistent b1))

/-- What a call `count_limit` on `b` delivers: a count, and the board as it was. -/
def CountLimitPost (b : Board) (res : Option (Int × Board)) : Prop :=
  ∃ n, res = some (n, b)

/-- Array `a1` is array `a` with its first `n` entries rearranged. -/
def IsShuffleOf {α : Type} (n : Nat) (a a1 : Nat → α) : Prop :=
  ∃ σ : Nat → Nat, Function.Injective σ ∧ (∀ m, n ≤ m → σ m = m) ∧ a1 = a ∘ σ

/-- Every line group `rin[b]` is a rearrangement of the lines `3b, 3b+1, 3b+2`. -/
def LineGroups (rin : Nat → Nat → Nat) : Prop :=
  ∀ b, IsShuffleOf 3 (fun i => 3 * b + i) (rin b)

/-- The array `rows` (or `cols`) permutes 0..8 and maps bands onto bands. -/
def LinePerm (rows : Nat → Nat) : Prop :=
  (∀ r, r < 9 → rows r < 9) ∧
  (∀ r, r < 9 → ∀ r1, r1 < 9 → rows r = rows r1 → r = r1) ∧
  (∀ r, r < 9 → ∀ r1, r1 < 9 → r / 3 = r1 / 3 → rows r / 3 = rows r1 / 3)

/-- What the digger loop delivers from a given state: a grid that differs from
the incoming one only by emptied cells, that is the incoming grid or passed
the uniqueness test, and that keeps at least 32 clues if the counter `clues`
was at least 32 and not above the number of clues. -/
def RemovePost (scratch grid : Board) (clues : Int) (res : Option Board) : Prop :=
  ∃ g, res = some g ∧
    (∀ m, g m = 0 ∨ g m = grid m) ∧
    (g = grid ∨ ∃ out, unique_solution g scratch = some (true, out)) ∧
    (clues ≤ clueCount grid → 32 ≤ clues → (32 : Int) ≤ clueCount g)

/-- A grid as a finite object: one entry 0..9 for each of the 81 cells. -/
abbrev Filling := Fin 81 → Fin 10

/-- The grid described by a filling. -/
def toBoard (s : Filling) : Board := fun i => if h : i < 81 then ((s ⟨i, h⟩).val : Int) else 0

/-- The filling that agrees with a grid whose cells are in 0..9. -/
def ofBoard (b : Board) : Filling := fun i => ⟨(b i.val).toNat % 10, Nat.mod_lt _ (by decide)⟩

/-- Grid `s` is a valid completion of `b`: full, consistent (so each row,
column and box holds 1..9 once) and equal to `b` on the filled cells of `b`. -/
def IsCompletion (b s : Board) : Prop := Full s ∧ Consistent s ∧ Extends b s

/-- The valid completions of a grid; their number is `(completions b).ncard`. -/
def completions (b : Board) : Set Filling := {s | IsCompletion b (toBoard s)}

/-- The grid whose 81 cells are the decimal digits of `n`, first cell first. -/
def gridOf (n : Nat) : Board := fun i => ((n / 10 ^ (80 - i) % 10 : Nat) : Int)

/-- Grid `g` with the cells listed in `removed` emptied. -/
def mask (g : Board) (removed : List Nat) : Board := fun i => if i ∈ removed then 0 else g i

/-- The 27 units: nine rows, nine columns, nine boxes. -/
def allUnits : List (List Nat) :=
  (List.range 9).map rowCells ++ (List.range 9).map colCells ++
    (List.range 3).flatMap (fun br => (List.range 3).map (fun bc => boxCells br bc))

/-- Every unit of the grid contains every digit. -/
def latinB (s : Board) : Bool :=
  allUnits.all (fun u => digits.all (fun v => u.any (fun i => s i == v)))

/-- Boolean form of `Extends`. -/
def extendsB (b s : Board) : Bool := (List.range 81).all (fun i => b i == 0 || s i == b i)

/-- A search tree certifying the number of completions of a grid: `full` for a
grid without empty cell, `node idx k1 .. k9` for branching on the empty cell
`idx` with one subtree per digit (`skip` where the digit is no candidate). -/
inductive Cert where
  | full : Cert
  | skip : Cert
  | node : Nat → Cert → Cert → Cert → Cert → Cert → Cert → Cert → Cert → Cert → Cert

/-- One branch of a certificate node: digit `v` at cell `idx`, counted by `r`
if `v` is a candidate and contributing nothing otherwise. -/
def certStep (b : Board) (idx : Nat) (v : Int) (r : Board → Option Nat) : Option Nat :=
  if can_place_local b (idx / 9) (idx % 9) v then r (Function.update b idx v) else some 0

/-- Sum of two optional counts. -/
def optAdd : Option Nat → Option Nat → Option Nat
  | some a, some b => some (a + b)
  | _, _ => none

/-- The number of completions a certificate establishes for a grid, `none` if
the certificate does not fit the grid. -/
def certCount : Cert → Board → Option Nat
  | .full, b => if (List.range 81).all (fun i => b i != 0) then some 1 else none
  | .skip, _ => none
  | .node idx k1 k2 k3 k4 k5 k6 k7 k8 k9, b =>
    if idx < 81 ∧ b idx = 0 then
      optAdd (certStep b idx 1 (certCount k1)) (optAdd (certStep b idx 2 (certCount k2))
      (optAdd (certStep b idx 3 (certCount k3)) (optAdd (certStep b idx 4 (certCount k4))
      (optAdd (certStep b idx 5 (certCount k5)) (optAdd (certStep b idx 6 (certCount k6))
      (optAdd (certStep b idx 7 (certCount k7)) (optAdd (certStep b idx 8 (certCount k8))
      (certStep b idx 9 (certCount k9)))))))))
    else none

/-- The digger cannot remove the pair of cell `i` from `sol` minus `removed`:
the pair is already empty, or `alt i` is a second completion of the grid with
the pair removed. -/
def stuckAt (sol : Board) (removed : List Nat) (alt : Nat → Board) (i : Nat) : Bool :=
  (decide (i ∈ removed) && decide (GAME_IDX (9 - 1 - i / 9) (9 - 1 - i % 9) ∈ removed)) ||
    (latinB (alt i) &&
      extendsB (mask sol (GAME_IDX (9 - 1 - i / 9) (9 - 1 - i % 9) :: i :: removed)) (alt i) &&
      (alt i i != sol i || alt i (GAME_IDX (9 - 1 - i / 9) (9 - 1 - i % 9))
        != sol (GAME_IDX (9 - 1 - i / 9) (9 - 1 - i % 9))))

/-- Cell `i` is filled and its value also stands in another cell of its row,
column or box. -/
def InConflict (b : Board) (i : Nat) : Prop :=
  b i ≠ 0 ∧ ∃ j, j < 81 ∧ j ≠ i ∧ sameUnit i j ∧ b j = b i

instance inConflict_decidable (b : Board) (i : Nat) : Decidable (InConflict b i) := by
  unfold InConflict
  infer_instance

/-- The session invariant on givens: a fixed cell holds its solution value,
which is not 0. -/
def FixedOK (g : Game) : Prop :=
  ∀ i, i < 81 → g.fixed i ≠ 0 → g.puzzle i = g.solution i ∧ g.puzzle i ≠ 0

/-- The sessions of a play session: the one made by `game_new`, and every
session obtained from a reachable one by a `game_place` or `game_give_hint`
call on a cell of the board. -/
inductive Reachable (rnd : Nat → Nat) (uninit : Board) : Game → Prop where
  | created (g : Game) : game_new rnd uninit = some g → Reachable rnd uninit g
  | placed (g : Game) (r c : Nat) (v : Int) (strict : Bool) :
      Reachable rnd uninit g → r < 9 → c < 9 → Reachable rnd uninit (game_place g r c v strict).2
  | hinted (g : Game) (r c : Nat) :
      Reachable rnd uninit g → r < 9 → c < 9 → Reachable rnd uninit (game_give_hint g r c).2

/-- Boolean form of `Consistent`. -/
def consistentB (b : Board) : Bool :=
  (List.range 81).all (fun i => decide (0 ≤ b i) && decide (b i ≤ 9)) &&
  (List.range 81).all (fun i => (List.range 81).all (fun j =>
    i == j || !decide (sameUnit i j) || b i == 0 || b i != b j))

/-- The values `rand()` yields from position `k` on make a `shuffle` of `n`
entries swap every entry with itself: the draw for entry `i` is `i` modulo
`i + 1`, for `i = n - 1` down to 1. -/
def IdentityDraws (rnd : Nat → Nat) (k n : Nat) : Prop :=
  ∀ m, m + 1 < n → rnd (k + m) % (n - m) = n - 1 - m

/-- All ten shuffles of `make_solved`, started after `k` draws, are the
identity: eight shuffles of 3 entries (`band`, three `rin`, `stack`, three
`cin`), two draws each, then the shuffle of the 9 entries of `nums`. -/
def AllIdentity (rnd : Nat → Nat) (k : Nat) : Prop :=
  (∀ t, t < 8 → IdentityDraws rnd (k + 2 * t) 3) ∧ IdentityDraws rnd (k + 16) 9

/-- The clue pattern of the grid is point-symmetric: cell `i` is empty if and
only if cell `80 - i`, the cell at `(8 - row, 8 - col)`, is empty. -/
def PointSymmetric (g : Board) : Prop := ∀ i, i < 81 → (g i = 0 ↔ g (80 - i) = 0)

/-- The givens of a session: the puzzle restricted to its fixed cells. -/
def givens (g : Game) : Board := fun i => if g.fixed i ≠ 0 then g.puzzle i else 0

/-- The digger cannot remove cell `p` together with its partner `80 - p`: both
are empty already, or the grid with the two cells cleared does not have
exactly one completion. -/
def PairStuck (g : Board) (p : Nat) : Prop :=
  (g p = 0 ∧ g (80 - p) = 0) ∨
    (completions (if 80 - p ≠ p then Function.update (Function.update g p 0) (80 - p) 0
      else Function.update g p 0)).ncard ≠ 1

/-! ## Concrete data -/

/-- A stream of `rand()` values for which the digger gets stuck at 39 clues:
24 values for `make_solved`, then 80 values for the shuffle of `pos`. -/
def rnd39 : Nat → Nat := fun k =>
  [0, 1, 0, 0, 0, 1, 1, 1, 0, 0, 0, 1, 2, 1, 0, 0, 8, 7, 6, 5, 4, 3, 2, 1, 80, 79, 78, 77, 76,
   75, 74, 73, 72, 71, 70, 69, 68, 67, 66, 65, 64, 63, 62, 61, 60, 59, 58, 57, 56, 55, 54, 53,
   52, 51, 50, 49, 48, 47, 46, 45, 44, 43, 42, 41, 40, 39, 38, 36, 32, 29, 26, 25, 23, 20, 18,
   16, 15, 9, 7, 6, 5, 3, 2, 1, 3, 16, 7, 6, 3, 7, 7, 9, 5, 2, 1, 3, 6, 7, 3, 5, 2, 1, 1, 1].getD k 0

/-- The solved grid `make_solved` produces from `rnd39`. -/
def solved39 : Board :=
  gridOf 219345786543678129876912453432567918198234675765891342654789231321456897987123564

/-- The puzzle the digger leaves for `rnd39`, with 39 clues. -/
def puzzle39 : Board :=
  gridOf 19305780500000120806002053002007000108234605000800300650700201021000007087103560

/-- The cells that are empty in `puzzle39`. -/
def removed39 : List Nat :=
  [0, 4, 8, 10, 11, 12, 13, 14, 17, 19, 21, 22, 24, 27, 28, 30, 31, 33, 34, 35, 37, 43, 45, 46,
   47, 49, 50, 52, 53, 56, 58, 59, 61, 63, 66, 67, 68, 69, 70, 72, 76, 80]

/-- The visiting order `pos` the shuffle produces from `rnd39`: first one cell
of each of the 21 removed pairs, then the other 60 cells. -/
def order39 : Nat → Nat := fun k =>
  [0, 4, 8, 10, 11, 12, 13, 14, 17, 19, 21, 22, 24, 27, 28, 30, 31, 33, 34, 35, 37, 1, 2, 3, 5,
   6, 7, 9, 15, 16, 18, 20, 23, 25, 26, 29, 32, 36, 38, 39, 40, 41, 42, 43, 44, 45, 46, 47, 48,
   49, 50, 51, 52, 53, 54, 55, 56, 57, 58, 59, 60, 61, 62, 63, 64, 65, 66, 67, 68, 69, 70, 71,
   72, 73, 74, 75, 76, 77, 78, 79, 80].getD k 0

/-- A search tree showing that `puzzle39` has exactly one completion. -/
def cert39 : Cert :=
  (.node 0 .skip (.node 4 .skip .skip .skip (.node 8 .skip .skip .skip .skip .skip (.node 21
    .skip .skip .skip .skip .skip .skip .skip .skip (.node 12 .skip .skip .skip .skip .skip
    (.node 14 .skip .skip .skip .skip .skip .skip .skip (.node 13 .skip .skip .skip .skip
    .skip .skip (.node 22 (.node 24 .skip .skip .skip (.node 17 .skip .skip .skip .skip .skip
    .skip .skip .skip (.node 19 .skip .skip .skip .skip .skip .skip (.node 30 .skip .skip
    .skip .skip (.node 37 .skip .skip .skip .skip .skip .skip .skip .skip (.node 43 .skip
    .skip .skip .skip .skip .skip (.node 59 .skip .skip .skip .skip .skip .skip .skip .skip
    (.node 58 .skip .skip .skip .skip .skip .skip .skip (.node 66 .skip .skip .skip (.node 68
    .skip .skip .skip .skip .skip (.node 50 (.node 67 .skip .skip .skip .skip (.node 76 .skip
    (.node 80 .skip .skip .skip (.node 35 .skip .skip .skip .skip .skip .skip .skip (.node 33
    .skip .skip .skip .skip .skip .skip .skip .skip (.node 31 .skip .skip .skip .skip .skip
    (.node 49 .skip .skip .skip .skip .skip .skip .skip .skip (.node 52 .skip .skip .skip
    (.node 34 (.node 45 .skip .skip .skip .skip .skip .skip (.node 46 .skip .skip .skip .skip
    .skip (.node 47 .skip .skip .skip .skip (.node 53 .skip (.node 61 .skip .skip (.node 56
    .skip .skip .skip (.node 11 .skip .skip (.node 10 .skip .skip .skip (.node 28 .skip .skip
    (.node 27 .skip .skip .skip (.node 69 .skip .skip .skip .skip .skip .skip .skip (.node 70
    .skip .skip .skip .skip .skip .skip .skip .skip (.node 63 .skip .skip (.node 72 .skip
    .skip .skip .skip .skip .skip .skip .skip .full) .skip .skip .skip .skip .skip .skip))
    .skip) .skip .skip .skip .skip .skip) .skip .skip .skip .skip .skip .skip) .skip .skip
    .skip .skip .skip) .skip .skip .skip .skip .skip .skip) .skip .skip .skip .skip .skip)
    .skip .skip .skip .skip .skip .skip) .skip .skip .skip .skip .skip .skip .skip) .skip
    .skip .skip .skip) .skip .skip .skip) .skip .skip) .skip .skip .skip .skip .skip .skip
    .skip .skip) .skip .skip .skip .skip .skip)) .skip .skip .skip)) .skip) .skip .skip .skip
    .skip .skip) .skip .skip .skip .skip .skip .skip .skip) .skip .skip .skip .skip) .skip
    .skip .skip .skip .skip .skip .skip .skip) .skip .skip .skip) .skip .skip .skip .skip
    .skip) .skip)) .skip .skip)) .skip .skip .skip .skip) .skip .skip)) .skip .skip .skip
    .skip .skip) .skip .skip .skip .skip .skip .skip .skip .skip) .skip .skip) .skip) .skip
    .skip .skip)) .skip .skip .skip) .skip (.node 8 .skip .skip .skip (.node 24 .skip .skip
    .skip .skip .skip .skip .skip .skip (.node 17 .skip .skip .skip .skip .skip (.node 21
    .skip .skip .skip (.node 12 .skip .skip .skip .skip .skip .skip .skip .skip (.node 14
    .skip .skip .skip .skip .skip .skip .skip (.node 13 .skip .skip .skip .skip .skip .skip
    (.node 19 .skip .skip .skip .skip .skip .skip (.node 22 (.node 37 .skip .skip .skip .skip
    .skip .skip .skip .skip (.node 43 .skip .skip .skip .skip .skip .skip (.node 59 .skip
    .skip .skip .skip .skip .skip .skip .skip (.node 68 .skip .skip .skip .skip .skip (.node
    50 (.node 66 .skip .skip .skip .skip (.node 30 .skip .skip .skip .skip .skip (.node 80
    .skip .skip .skip .skip .skip .skip .skip .skip (.node 35 .skip .skip .skip .skip .skip
    .skip .skip (.node 33 .skip .skip .skip (.node 27 .skip .skip (.node 28 .skip .skip .skip
    .skip .skip .skip .skip .skip .skip) .skip .skip .skip .skip .skip .skip) .skip .skip
    .skip .skip .skip) .skip)) .skip .skip .skip) .skip .skip .skip .skip) .skip .skip .skip
    .skip .skip .skip .skip .skip) .skip .skip .skip)) .skip .skip)) .skip .skip .skip .skip
    .skip .skip .skip .skip) .skip .skip) .skip .skip) .skip)) .skip .skip .skip .skip .skip)
    .skip .skip .skip)) .skip .skip .skip .skip .skip) .skip .skip .skip) .skip (.node 4 .skip
    .skip .skip .skip .skip (.node 8 .skip .skip .skip .skip .skip .skip .skip .skip .skip)
    .skip .skip .skip) .skip .skip .skip .skip .skip)

/-- For each clue cell of `puzzle39`, a second completion of the puzzle with
that cell and its point-symmetric partner removed. -/
def alt39 : Nat → Board := fun i => gridOf
  ([0, 249315786573468129816972453432657918198234675765891342654789231321546897987123564,
    214395786539678124876412953362957418198234675745861392653789241921546837487123569,
    219345786543678129876912453432567918198234675765891342654783291921456837387129564, 0,
    219356784534978126876412953362597418198234675745861392653789241921645837487123569,
    219375486573468129846912753432657918198234675765891342654789231321546897987123564,
    219385746534976128876412953362597814198234675745861392653749281921658437487123569, 0,
    219365784345978126876412953532697418198234675764851392653789241921546837487123569, 0, 0, 0,
    0, 0, 219345786573618429846972153432567918198234675765891342654789231321456897987123564,
    219345786534678192876912453342567918198234675765891324653789241921456837487123569, 0,
    219365784534978126876412953342657891198234675765891342653749218921586437487123569, 0,
    219345786536978124874612953362597418198234675745861392653789241921456837487123569, 0, 0,
    219345786534786129876912453342567918198234675765891342653478291421659837987123564, 0,
    219365784543978126876412953352697418198234675764851392635789241921546837487123569,
    219345786534678129876912453342567918198234675765891342453786291621459837987123564, 0, 0,
    219345786543678129876912453462597318198234675735861942654789231321456897987123564, 0, 0,
    219345786543678129876912453732561948198234675465897312654789231321456897987123564, 0, 0, 0,
    219345786543678129876912453132567948798234615465891372654789231321456897987123564, 0,
    219345786543678129876912453432597618168234975795861342654789231321456897987123564,
    219345786534678129876912453362457918148239675795861342653784291421596837987123564,
    219345786543678129876912453462537918138294675795861342654789231321456897987123564,
    219345786534678129876912453362457918148239675795861342653784291421596837987123564,
    219345786543678129876912453432597618168234975795861342654789231321456897987123564, 0,
    219345786543678129876912453132567948798234615465891372654789231321456897987123564, 0, 0, 0,
    219345786543678129876912453732561948198234675465897312654789231321456897987123564, 0, 0,
    219345786543678129876912453462597318198234675735861942654789231321456897987123564, 0, 0,
    219345786534678129876912453342567918198234675765891342453786291621459837987123564,
    219365784543978126876412953352697418198234675764851392635789241921546837487123569, 0,
    219345786534786129876912453342567918198234675765891342653478291421659837987123564, 0, 0,
    219345786536978124874612953362597418198234675745861392653789241921456837487123569, 0,
    219365784534978126876412953342657891198234675765891342653749218921586437487123569, 0,
    219345786534678192876912453342567918198234675765891324653789241921456837487123569,
    219345786573618429846972153432567918198234675765891342654789231321456897987123564, 0, 0, 0,
    0, 0, 219365784345978126876412953532697418198234675764851392653789241921546837487123569, 0,
    219385746534976128876412953362597814198234675745861392653749281921658437487123569,
    219375486573468129846912753432657918198234675765891342654789231321546897987123564,
    219356784534978126876412953362597418198234675745861392653789241921645837487123569, 0,
    219345786543678129876912453432567918198234675765891342654783291921456837387129564,
    214395786539678124876412953362957418198234675745861392653789241921546837487123569,
    249315786573468129816972453432657918198234675765891342654789231321546897987123564, 0].getD i 0)

/-- A grid whose only filled cell is cell 0, holding 5. -/
def selfBoard : Board := fun i => if i = 0 then 5 else 0

/-- The grid with a 1 in every cell: full, but with every unit in conflict. -/
def onesBoard : Board := fun _ => 1

/-- The empty grid. -/
def emptyBoard : Board := fun _ => 0

/-- A consistent grid without completion: row 0 starts 1..8 and the 9 needed
in its last cell already stands below it, in cell 17. -/
def deadBoard : Board := fun i => if i < 8 then (i : Int) + 1 else if i = 17 then 9 else 0

/-- A session with a conflict: two 5s in row 0 (cells 0 and 1), a 3 in cell 80. -/
def clashGame : Game where
  puzzle := fun i => if i = 0 then 5 else if i = 1 then 5 else if i = 80 then 3 else 0
  solution := fun _ => 1
  fixed := fun _ => 0
  notes := fun _ => 0

/-- The stream that yields 2519 forever; 2519 is `i` modulo `i + 1` for every
`i` from 1 to 9. -/
def rndId : Nat → Nat := fun _ => 2519

/-- A search tree showing that the fallback literal `safe` has exactly one
completion; every node has a single candidate. -/
def certSafe : Cert :=
  (.node 40 .skip .skip .skip .skip (.node 37 .skip (.node 43 .skip .skip .skip .skip .skip
    .skip .skip .skip (.node 38 .skip .skip .skip .skip .skip (.node 42 .skip .skip .skip .skip
    .skip .skip (.node 48 .skip .skip .skip .skip .skip .skip .skip .skip (.node 30 .skip .skip
    .skip .skip .skip .skip (.node 58 .skip .skip (.node 22 .skip .skip .skip (.node 23 .skip
    (.node 3 .skip .skip .skip .skip .skip (.node 5 .skip .skip .skip .skip .skip .skip .skip
    (.node 18 (.node 21 .skip .skip (.node 24 .skip .skip .skip .skip (.node 26 .skip .skip
    .skip .skip .skip .skip (.node 33 .skip .skip .skip (.node 32 (.node 28 .skip .skip .skip
    .skip (.node 29 .skip .skip .skip .skip .skip .skip .skip .skip (.node 34 .skip (.node 46
    (.node 47 .skip .skip (.node 50 .skip .skip .skip (.node 51 .skip .skip .skip .skip .skip
    .skip .skip (.node 15 .skip .skip (.node 16 .skip .skip .skip (.node 7 (.node 6 .skip .skip
    .skip .skip .skip .skip .skip .skip (.node 8 .skip (.node 2 .skip .skip .skip (.node 10
    .skip .skip .skip .skip .skip .skip (.node 11 .skip (.node 17 .skip .skip .skip .skip .skip
    .skip .skip (.node 52 .skip .skip .skip .skip (.node 54 .skip .skip .skip .skip .skip .skip
    .skip .skip (.node 57 .skip .skip .skip .skip (.node 59 .skip .skip .skip .skip .skip .skip
    (.node 56 (.node 62 .skip .skip .skip (.node 64 .skip .skip .skip .skip .skip .skip .skip
    (.node 65 .skip .skip .skip .skip .skip .skip (.node 69 .skip .skip .skip .skip .skip (.node
    70 .skip .skip (.node 63 .skip (.node 72 .skip .skip (.node 73 .skip .skip .skip (.node 74
    .skip .skip .skip .skip (.node 75 .skip (.node 77 .skip .skip .skip .skip .skip (.node 78
    .full .skip .skip .skip .skip .skip .skip .skip .skip) .skip .skip .skip) .skip .skip .skip
    .skip .skip .skip .skip) .skip .skip .skip .skip) .skip .skip .skip .skip .skip) .skip .skip
    .skip .skip .skip .skip) .skip .skip .skip .skip .skip .skip .skip) .skip .skip .skip .skip
    .skip .skip) .skip .skip .skip) .skip .skip) .skip) .skip .skip .skip .skip .skip) .skip
    .skip .skip .skip .skip .skip .skip .skip) .skip .skip) .skip .skip .skip .skip)) .skip
    .skip .skip .skip) .skip) .skip .skip .skip .skip .skip .skip .skip) .skip .skip) .skip
    .skip .skip .skip .skip) .skip .skip .skip .skip .skip .skip .skip)) .skip .skip .skip .skip
    .skip .skip .skip .skip) .skip .skip .skip .skip .skip) .skip .skip .skip .skip .skip .skip)
    .skip) .skip .skip .skip .skip .skip) .skip .skip .skip .skip .skip .skip) .skip .skip .skip
    .skip .skip .skip .skip .skip) .skip .skip .skip .skip .skip .skip .skip)) .skip .skip .skip
    .skip) .skip .skip .skip .skip .skip .skip .skip .skip) .skip .skip .skip .skip .skip) .skip
    .skip) .skip .skip .skip .skip) .skip .skip .skip .skip .skip .skip) .skip .skip .skip .skip
    .skip .skip .skip .skip) .skip) .skip .skip .skip) .skip .skip .skip .skip .skip .skip
    .skip) .skip .skip .skip .skip .skip) .skip .skip .skip .skip .skip .skip) .skip .skip))
    .skip .skip) .skip .skip .skip)) .skip .skip .skip .skip .skip .skip .skip) .skip .skip
    .skip .skip)

/-- A grid in which cell 80 is empty and has no candidate (row 8 holds 1..8,
column 8 holds 9) while the empty cell 0 has the single candidate 9. -/
def mrvBoard : Board :=
  gridOf 12345678000000000000000000000000000000000009000000000000000000000000000234567810

/-- A stream of `rand()` values on which the two generators differ: the band
shuffle swaps bands 0 and 1, the following shuffle swaps two lines, all other
shuffles are the identity. -/
def rndSdl : Nat → Nat := fun k =>
  [2, 0, 2, 0, 2, 1, 2, 1, 2, 1, 2, 1, 2, 1, 2, 1, 8, 7, 6, 5, 4, 3, 2, 1].getD k 0

/-- A solved session: the grid `solved39` as puzzle and solution, every cell fixed. -/
def solvedGame : Game where
  puzzle := solved39
  solution := solved39
  fixed := fun _ => 1
  notes := fun _ => 0

/-- A small concrete session used to exercise the session operations:
row 0 starts `0 5 0 ...`, the solution has a 7 in cell 0, nothing is fixed. -/
def demoGame : Game where
  puzzle := fun i => if i = 1 then 5 else 0
  solution := fun i => if i = 0 then 7 else if i = 1 then 5 else 1
  fixed := fun _ => 0
  notes := fun i => if i = 0 then 6 else 0

/-- The same session with cell 1 marked as a given. -/
def demoFixed : Game := { demoGame with fixed := fun i => if i = 1 then 1 else 0 }

/-! ## The cell scan `find_mrv` -/

theorem candidates_length_le (board : Board) (row col : Nat) :
    (candidates board row col).length ≤ 9 := by
  unfold candidates
  exact (List.length_filter_le _ _).trans (by simp [digits])

theorem candidates_mem (board : Board) (row col : Nat) (v : Int)
    (h : v ∈ candidates board row col) :
    v ∈ digits ∧ can_place_local board row col v = true := by
  unfold candidates at h
  simpa [List.mem_filter] using h

theorem digits_range (v : Int) (h : v ∈ digits) : 1 ≤ v ∧ v ≤ 9 := by
  simp only [digits, List.mem_cons, List.mem_singleton, List.not_mem_nil, or_false] at h
  omega

theorem mem_digits_of_range (v : Int) (h1 : 1 ≤ v) (h9 : v ≤ 9) : v ∈ digits := by
  have : v = 1 ∨ v = 2 ∨ v = 3 ∨ v = 4 ∨ v = 5 ∨ v = 6 ∨ v = 7 ∨ v = 8 ∨ v = 9 := by omega
  simpa [digits] using this

/-- The scan returns the incoming `best` or an empty cell of the scanned list. -/
theorem find_mrv_loop_cases (board : Board) (cells : List Nat) :
    ∀ (best : Int) (bc : Nat),
      find_mrv_loop board cells best bc = best ∨
        ∃ i, i ∈ cells ∧ find_mrv_loop board cells best bc = (i : Int) ∧ board i = 0 := by
  induction cells with
  | nil => intro best bc; left; rfl
  | cons i rest ih =>
    intro best bc
    unfold find_mrv_loop
    by_cases hne : board i ≠ 0
    · rw [if_pos hne]
      rcases ih best bc with h | ⟨k, hk, hres, hz⟩
      · left; exact h
      · right; exact ⟨k, List.mem_cons_of_mem _ hk, hres, hz⟩
    · have hz : board i = 0 := not_not.mp hne
      rw [if_neg hne]
      by_cases hlt : (candidates board (i / 9) (i % 9)).length < bc
      · rw [if_pos hlt]
        by_cases h1 : (candidates board (i / 9) (i % 9)).length = 1
        · rw [if_pos h1]
          right; exact ⟨i, List.mem_cons_self _ _, rfl, hz⟩
        · rw [if_neg h1]
          rcases ih (i : Int) (candidates board (i / 9) (i % 9)).length with h | ⟨k, hk, hres, hz2⟩
          · right; exact ⟨i, List.mem_cons_self _ _, h, hz⟩
          · right; exact ⟨k, List.mem_cons_of_mem _ hk, hres, hz2⟩
      · rw [if_neg hlt]
        rcases ih best bc with h | ⟨k, hk, hres, hz2⟩
        · left; exact h
        · right; exact ⟨k, List.mem_cons_of_mem _ hk, hres, hz2⟩

/-- With `best_count` above 9, the scan finds an empty cell whenever there is one. -/
theorem find_mrv_loop_found (board : Board) (cells : List Nat) :
    ∀ (best : Int) (bc : Nat), 9 < bc → (∃ i, i ∈ cells ∧ board i = 0) →
      ∃ i, i ∈ cells ∧ find_mrv_loop board cells best bc = (i : Int) ∧ board i = 0 := by
  induction cells with
  | nil => intro best bc _ h; rcases h with ⟨i, hi, _⟩; cases hi
  | cons i rest ih =>
    intro best bc hbc hex
    unfold find_mrv_loop
    by_cases hne : board i ≠ 0
    · rw [if_pos hne]
      have hex2 : ∃ k, k ∈ rest ∧ board k = 0 := by
        rcases hex with ⟨k, hk, hz⟩
        rcases List.mem_cons.mp hk with rfl | hk2
        · exact absurd hz hne
        · exact ⟨k, hk2, hz⟩
      rcases ih best bc hbc hex2 with ⟨k, hk, hres, hz⟩
      exact ⟨k, List.mem_cons_of_mem _ hk, hres, hz⟩
    · have hz : board i = 0 := not_not.mp hne
      rw [if_neg hne]
      have hlt : (candidates board (i / 9) (i % 9)).length < bc :=
        lt_of_le_of_lt (candidates_length_le _ _ _) hbc
      rw [if_pos hlt]
      by_cases h1 : (candidates board (i / 9) (i % 9)).length = 1
      · rw [if_pos h1]
        exact ⟨i, List.mem_cons_self _ _, rfl, hz⟩
      · rw [if_neg h1]
        rcases find_mrv_loop_cases board rest (i : Int)
            (candidates board (i / 9) (i % 9)).length with h | ⟨k, hk, hres, hz2⟩
        · exact ⟨i, List.mem_cons_self _ _, h, hz⟩
        · exact ⟨k, List.mem_cons_of_mem _ hk, hres, hz2⟩

/-- On a grid without empty cell `find_mrv` returns -1. -/
theorem find_mrv_full (board : Board) (h : Full board) : find_mrv board = -1 := by
  unfold find_mrv
  rcases find_mrv_loop_cases board (List.range NN) (-1) 10 with h1 | ⟨i, hi, _, hz⟩
  · exact h1
  · exact absurd hz (h i (by simpa [NN] using hi))

/-- A negative result of `find_mrv` means that no cell is empty. -/
theorem find_mrv_neg (board : Board) (h : find_mrv board < 0) : Full board := by
  intro i hi hz
  have hz0 : board i = 0 := hz
  rcases find_mrv_loop_found board (List.range NN) (-1) 10 (by decide)
      ⟨i, by simpa [NN] using hi, hz0⟩ with ⟨k, _, hres, _⟩
  unfold find_mrv at h
  rw [hres] at h
  omega

/-- A non-negative result of `find_mrv` is the index of an empty cell. -/
theorem find_mrv_nonneg (board : Board) (h : ¬ find_mrv board < 0) :
    (find_mrv board).toNat < 81 ∧ board (find_mrv board).toNat = 0 := by
  unfold find_mrv at h ⊢
  rcases find_mrv_loop_cases board (List.range NN) (-1) 10 with h1 | ⟨i, hi, hres, hz⟩
  · rw [h1] at h; omega
  · rw [hres]
    simp only [Int.toNat_ofNat]
    exact ⟨by simpa [NN] using hi, hz⟩

/-! ## Counting cells -/

/-- Changing a predicate at one position of a duplicate-free list changes
its count by at most one. -/
theorem countP_le_succ_of_differ (p q : Nat → Bool) (idx : Nat) (l : List Nat)
    (hl : l.Nodup) (hpq : ∀ i, i ≠ idx → q i = p i) :
    l.countP p ≤ l.countP q + 1 := by
  induction l with
  | nil => simp
  | cons a l ih =>
    have hnd := List.nodup_cons.mp hl
    by_cases ha : a = idx
    · subst ha
      have heq : l.countP p = l.countP q := by
        apply List.countP_congr
        intro x hx
        have hxa : x ≠ a := fun h => hnd.1 (h ▸ hx)
        rw [hpq x hxa]
      rw [List.countP_cons, List.countP_cons, heq]
      split <;> split <;> omega
    · have := ih hnd.2
      rw [List.countP_cons, List.countP_cons, hpq a ha]
      split <;> omega

/-- Switching a predicate off at one member of a duplicate-free list lowers
its count by exactly one. -/
theorem countP_succ_of_switch (p q : Nat → Bool) (idx : Nat) (l : List Nat)
    (hl : l.Nodup) (hmem : idx ∈ l) (hp : p idx = true) (hq : q idx = false)
    (hpq : ∀ i, i ≠ idx → q i = p i) :
    l.countP q + 1 = l.countP p := by
  induction l with
  | nil => cases hmem
  | cons a l ih =>
    have hnd := List.nodup_cons.mp hl
    by_cases ha : a = idx
    · subst ha
      have heq : l.countP p = l.countP q := by
        apply List.countP_congr
        intro x hx
        have hxa : x ≠ a := fun h => hnd.1 (h ▸ hx)
        rw [hpq x hxa]
      rw [List.countP_cons, List.countP_cons, heq, hp, hq]
      simp
    · have hmem2 : idx ∈ l := by
        rcases List.mem_cons.mp hmem with h | h
        · exact absurd h.symm ha
        · exact h
      have := ih hnd.2 hmem2
      rw [List.countP_cons, List.countP_cons, hpq a ha]
      split <;> omega

/-- Filling an empty cell with a non-zero value removes one empty cell. -/
theorem emptyCount_update (b : Board) (idx : Nat) (v : Int) (hidx : idx < 81)
    (hz : b idx = 0) (hv : v ≠ 0) :
    emptyCount (Function.update b idx v) + 1 = emptyCount b := by
  unfold emptyCount
  apply countP_succ_of_switch _ _ idx _ (List.nodup_range 81) (List.mem_range.mpr hidx)
  · simp [hz]
  · simp [hv]
  · intro i hi
    simp [Function.update_noteq hi]

theorem emptyCount_le (b : Board) : emptyCount b ≤ 81 := by
  unfold emptyCount
  exact (List.countP_le_length _).trans (by simp)

/-- Emptying one cell removes at most one clue. -/
theorem clueCount_update_zero (b : Board) (idx : Nat) :
    clueCount b ≤ clueCount (Function.update b idx 0) + 1 := by
  unfold clueCount
  apply countP_le_succ_of_differ _ _ idx _ (List.nodup_range 81)
  intro i hi
  simp [Function.update_noteq hi]

/-! ## The constraint checker in terms of units -/

theorem row_has_iff (b : Board) (r : Nat) (v : Int) :
    row_has b r v = true ↔ ∃ c, c < 9 ∧ b (r * 9 + c) = v := by
  simp [row_has, GAME_IDX, List.any_eq_true]

theorem col_has_iff (b : Board) (c : Nat) (v : Int) :
    col_has b c v = true ↔ ∃ r, r < 9 ∧ b (r * 9 + c) = v := by
  simp [col_has, GAME_IDX, List.any_eq_true]

theorem box_has_iff (b : Board) (r c : Nat) (v : Int) :
    box_has b r c v = true ↔
      ∃ rr, rr < 3 ∧ ∃ cc, cc < 3 ∧ b ((r / 3 * 3 + rr) * 9 + (c / 3 * 3 + cc)) = v := by
  simp [box_has, GAME_IDX, List.any_eq_true]

/-- The checker `can_place_local` accepts `v` at cell `idx` exactly when no cell
of the row, column and box of `idx` (the cell itself included) holds `v`. -/
theorem can_place_local_iff (b : Board) (idx : Nat) (v : Int) (hidx : idx < 81) :
    can_place_local b (idx / 9) (idx % 9) v = true ↔
      ∀ j, j < 81 → sameUnit idx j → b j ≠ v := by
  unfold can_place_local
  simp only [Bool.and_eq_true, Bool.not_eq_true', ← Bool.not_eq_true, row_has_iff, col_has_iff,
    box_has_iff]
  constructor
  · rintro ⟨⟨hrow, hcol⟩, hbox⟩ j hj hsame hbj
    rcases hsame with h | h | ⟨h1, h2⟩
    · apply hrow
      refine ⟨j % 9, by omega, ?_⟩
      have : idx / 9 * 9 + j % 9 = j := by omega
      rw [this]; exact hbj
    · apply hcol
      refine ⟨j / 9, by omega, ?_⟩
      have : j / 9 * 9 + idx % 9 = j := by omega
      rw [this]; exact hbj
    · apply hbox
      refine ⟨j / 9 % 3, by omega, j % 9 % 3, by omega, ?_⟩
      have : (idx / 9 / 3 * 3 + j / 9 % 3) * 9 + (idx % 9 / 3 * 3 + j % 9 % 3) = j := by omega
      rw [this]; exact hbj
  · intro h
    refine ⟨⟨?_, ?_⟩, ?_⟩
    · rintro ⟨c, hc, hb⟩
      exact h (idx / 9 * 9 + c) (by omega) (Or.inl (by omega)) hb
    · rintro ⟨r, hr, hb⟩
      exact h (r * 9 + idx % 9) (by omega) (Or.inr (Or.inl (by omega))) hb
    · rintro ⟨rr, hrr, cc, hcc, hb⟩
      exact h ((idx / 9 / 3 * 3 + rr) * 9 + (idx % 9 / 3 * 3 + cc)) (by omega)
        (Or.inr (Or.inr ⟨by omega, by omega⟩)) hb

theorem sameUnit_symm (i j : Nat) (h : sameUnit i j) : sameUnit j i := by
  unfold sameUnit at h ⊢
  omega

/-- Writing an accepted digit into an empty cell keeps the grid consistent. -/
theorem consistent_update (b : Board) (idx : Nat) (v : Int) (hidx : idx < 81)
    (hv : v ∈ digits) (hcan : can_place_local b (idx / 9) (idx % 9) v = true)
    (hb : Consistent b) : Consistent (Function.update b idx v) := by
  have hrange := digits_range v hv
  have hfree := (can_place_local_iff b idx v hidx).mp hcan
  refine ⟨?_, ?_⟩
  · intro i hi
    by_cases h : i = idx
    · subst h; simp only [Function.update_same]; omega
    · rw [Function.update_noteq h]; exact hb.1 i hi
  · intro i hi j hj hij hsame hnz
    by_cases h1 : i = idx
    · subst h1
      have hji : j ≠ i := fun h => hij h.symm
      rw [Function.update_same, Function.update_noteq hji]
      exact fun h => hfree j hj hsame h.symm
    · rw [Function.update_noteq h1] at hnz ⊢
      by_cases h2 : j = idx
      · subst h2
        rw [Function.update_same]
        exact hfree i hi (sameUnit_symm _ _ hsame)
      · rw [Function.update_noteq h2]
        exact hb.2 i hi j hj hij hsame hnz

/-! ## The first-solution search `rec_first` -/

theorem rec_first_loop_post (self : Board → Board → Option (Bool × Board × Board))
    (b : Board) (idx : Nat) (hidx : idx < 81) (hz : b idx = 0)
    (hself : ∀ v out, v ∈ digits → RecFirstPost (Function.update b idx v) out
      (self (Function.update b idx v) out)) :
    ∀ (vs : List Int) (out : Board),
      (∀ v, v ∈ vs → v ∈ digits ∧ can_place_local b (idx / 9) (idx % 9) v = true) →
      RecFirstPost b out (rec_first_loop self idx vs b out) := by
  intro vs
  induction vs with
  | nil =>
    intro out _
    exact ⟨false, b, out, rfl, fun _ => ⟨rfl, rfl⟩, fun h => by cases h⟩
  | cons v vs ih =>
    intro out hvs
    have hv := hvs v (List.mem_cons_self _ _)
    rcases hself v out hv.1 with ⟨f, b1, o1, hres, hfalse, htrue⟩
    unfold rec_first_loop
    rw [hres]
    cases f with
    | true =>
      rcases htrue rfl with ⟨ho, hext, hfull, hcons⟩
      refine ⟨true, b1, o1, rfl, fun h => (by cases h), fun _ => ⟨ho, ?_, hfull, ?_⟩⟩
      · intro i hi hnz
        have hne : i ≠ idx := fun h => hnz (h ▸ hz)
        have := hext i hi (by rw [Function.update_noteq hne]; exact hnz)
        rw [this, Function.update_noteq hne]
      · intro hb
        exact hcons (consistent_update b idx v hidx hv.1 hv.2 hb)
    | false =>
      rcases hfalse rfl with ⟨hb1, ho1⟩
      have hback : Function.update b1 idx 0 = b := by
        rw [hb1, Function.update_idem, ← hz, Function.update_eq_self]
      simp only [hback, ho1]
      exact ih out (fun w hw => hvs w (List.mem_cons_of_mem _ hw))

/-- The search `rec_first` returns whenever its budget exceeds the number of
empty cells, with the effect described by `RecFirstPost`. -/
theorem rec_first_post (fuel : Nat) :
    ∀ (b out : Board), emptyCount b < fuel → RecFirstPost b out (rec_first fuel b out) := by
  induction fuel with
  | zero => intro b out h; omega
  | succ fuel ih =>
    intro b out hfuel
    unfold rec_first
    by_cases hneg : find_mrv b < 0
    · simp only [hneg, if_true]
      refine ⟨true, b, b, rfl, fun h => (by cases h), fun _ => ⟨rfl, ?_, find_mrv_neg b hneg, id⟩⟩
      intro i _ _; rfl
    · simp only [hneg, if_false]
      have hidx := find_mrv_nonneg b hneg
      apply rec_first_loop_post (rec_first fuel) b _ hidx.1 hidx.2
      · intro v out2 hv
        apply ih
        have := emptyCount_update b _ v hidx.1 hidx.2 (by have := digits_range v hv; omega)
        omega
      · intro v hv
        exact candidates_mem b _ _ v hv

/-- Totality of `rec_first` at the budget used by `unique_solution`. -/
theorem rec_first_total (b out : Board) :
    RecFirstPost b out (rec_first (NN + 1) b out) :=
  rec_first_post (NN + 1) b out (by have := emptyCount_le b; simp only [NN]; omega)

/-! ## The counting search `count_limit` -/

theorem count_limit_loop_post (self : Board → Int → Option (Int × Board))
    (b : Board) (idx : Nat) (limit : Int) (hz : b idx = 0)
    (hself : ∀ v lim, v ∈ digits → CountLimitPost (Function.update b idx v)
      (self (Function.update b idx v) lim)) :
    ∀ (vs : List Int) (total : Int), (∀ v, v ∈ vs → v ∈ digits) →
      CountLimitPost b (count_limit_loop self idx limit vs total b) := by
  intro vs
  induction vs with
  | nil => intro total _; exact ⟨total, rfl⟩
  | cons v vs ih =>
    intro total hvs
    rcases hself v (limit - total) (hvs v (List.mem_cons_self _ _)) with ⟨got, hres⟩
    have hback : Function.update (Function.update b idx v) idx 0 = b := by
      rw [Function.update_idem, ← hz, Function.update_eq_self]
    unfold count_limit_loop
    rw [hres]
    simp only [hback]
    by_cases hge : total + got ≥ limit
    · rw [if_pos hge]; exact ⟨total + got, rfl⟩
    · rw [if_neg hge]
      exact ih (total + got) (fun w hw => hvs w (List.mem_cons_of_mem _ hw))

/-- The search `count_limit` returns whenever its budget exceeds the number of
empty cells, and leaves the board as it found it. -/
theorem count_limit_post (fuel : Nat) :
    ∀ (b : Board) (limit : Int), emptyCount b < fuel →
      CountLimitPost b (count_limit fuel b limit) := by
  induction fuel with
  | zero => intro b limit h; omega
  | succ fuel ih =>
    intro b limit hfuel
    unfold count_limit
    by_cases hneg : find_mrv b < 0
    · simp only [hneg, if_true]
      exact ⟨1, rfl⟩
    · simp only [hneg, if_false]
      have hidx := find_mrv_nonneg b hneg
      apply count_limit_loop_post (count_limit fuel) b _ limit hidx.2
      · intro v lim hv
        apply ih
        have := emptyCount_update b _ v hidx.1 hidx.2 (by have := digits_range v hv; omega)
        omega
      · intro v hv
        exact (candidates_mem b _ _ v hv).1

/-- Totality of `count_limit` at the budget used by `unique_solution`. -/
theorem count_limit_total (b : Board) (limit : Int) :
    CountLimitPost b (count_limit (NN + 1) b limit) :=
  count_limit_post (NN + 1) b limit (by have := emptyCount_le b; simp only [NN]; omega)

/-! ## Full consistent grids are Latin -/

theorem rowCells_isUnit : ∀ r, r < 9 → IsUnit (rowCells r) := by decide

theorem colCells_isUnit : ∀ c, c < 9 → IsUnit (colCells c) := by decide

theorem boxCells_isUnit : ∀ br, br < 3 → ∀ bc, bc < 3 → IsUnit (boxCells br bc) := by decide

theorem digits_count (v : Int) (hv : v ∈ digits) : digits.count v = 1 := by
  simp only [digits, List.mem_cons, List.mem_singleton, List.not_mem_nil, or_false] at hv
  rcases hv with h | h | h | h | h | h | h | h | h <;> subst h <;> decide

/-- In a full consistent grid every unit holds each digit exactly once. -/
theorem occurrences_unit (b : Board) (cells : List Nat) (hu : IsUnit cells)
    (hb : Consistent b) (hfull : Full b) (v : Int) (hv : v ∈ digits) :
    occurrences b cells v = 1 := by
  obtain ⟨hnd, hlen, hin, hsame⟩ := hu
  have hLnd : (cells.map b).Nodup := by
    apply List.Nodup.map_on _ hnd
    intro x hx y hy hxy
    by_contra hne
    exact hb.2 x (hin x hx) y (hin y hy) hne (hsame x hx y hy) (hfull x (hin x hx)) hxy
  have hsub : cells.map b ⊆ digits := by
    intro x hx
    rcases List.mem_map.mp hx with ⟨i, hi, rfl⟩
    have h1 := hb.1 i (hin i hi)
    have h2 := hfull i (hin i hi)
    exact mem_digits_of_range _ (by omega) h1.2
  have hperm : (cells.map b).Perm digits :=
    (List.subperm_of_subset hLnd hsub).perm_of_length_le (by simp [digits, hlen])
  have hcount : (cells.map b).count v = 1 := by
    rw [hperm.count_eq, digits_count v hv]
  unfold occurrences
  rw [← hcount, List.count, List.countP_map]
  rfl

/-- A full consistent grid satisfies the Latin property. -/
theorem latin_of_full_consistent (b : Board) (hb : Consistent b) (hfull : Full b) :
    Latin b :=
  ⟨fun r hr v hv => occurrences_unit b _ (rowCells_isUnit r hr) hb hfull v hv,
   fun c hc v hv => occurrences_unit b _ (colCells_isUnit c hc) hb hfull v hv,
   fun br hbr bc hbc v hv => occurrences_unit b _ (boxCells_isUnit br hbr bc hbc) hb hfull v hv⟩

/-! ## The shuffle rearranges -/

theorem update_swap_eq {α : Type} (a : Nat → α) (i j : Nat) :
    Function.update (Function.update a i (a j)) j (a i) = a ∘ (Equiv.swap i j) := by
  funext m
  by_cases h1 : m = j
  · subst h1; simp
  · by_cases h2 : m = i
    · subst h2
      rw [Function.update_noteq h1, Function.update_same, Function.comp_apply,
        Equiv.swap_apply_left]
    · rw [Function.update_noteq h1, Function.update_noteq h2, Function.comp_apply,
        Equiv.swap_apply_of_ne_of_ne h2 h1]

theorem shuffle_loop_isShuffleOf {α : Type} (rnd : Nat → Nat) :
    ∀ (i : Nat) (a : Nat → α) (k : Nat), IsShuffleOf (i + 1) a (shuffle_loop rnd i a k).1 := by
  intro i
  induction i with
  | zero => intro a k; exact ⟨id, Function.injective_id, fun _ _ => rfl, rfl⟩
  | succ i ih =>
    intro a k
    unfold shuffle_loop
    simp only
    rw [update_swap_eq]
    rcases ih (a ∘ (Equiv.swap (i + 1) (rnd k % (i + 1 + 1)))) (k + 1) with ⟨σ, hinj, hfix, heq⟩
    refine ⟨(Equiv.swap (i + 1) (rnd k % (i + 1 + 1))) ∘ σ,
      (Equiv.injective _).comp hinj, ?_, ?_⟩
    · intro m hm
      have hj : rnd k % (i + 1 + 1) < i + 1 + 1 := Nat.mod_lt _ (by omega)
      rw [Function.comp_apply, hfix m (by omega)]
      exact Equiv.swap_apply_of_ne_of_ne (by omega) (by omega)
    · rw [heq]; rfl

theorem shuffle_isShuffleOf {α : Type} (a : Nat → α) (n : Nat) (hn : 1 ≤ n)
    (rnd : Nat → Nat) (k : Nat) : IsShuffleOf n a (shuffle a n rnd k).1 := by
  have h := shuffle_loop_isShuffleOf rnd (n - 1) a k
  have hn1 : n - 1 + 1 = n := by omega
  rw [hn1] at h
  exact h

theorem isShuffleOf_trans {α : Type} (n : Nat) (a a1 a2 : Nat → α)
    (h1 : IsShuffleOf n a a1) (h2 : IsShuffleOf n a1 a2) : IsShuffleOf n a a2 := by
  rcases h1 with ⟨σ1, hi1, hf1, he1⟩
  rcases h2 with ⟨σ2, hi2, hf2, he2⟩
  refine ⟨σ1 ∘ σ2, hi1.comp hi2, ?_, ?_⟩
  · intro m hm
    rw [Function.comp_apply, hf2 m hm, hf1 m hm]
  · rw [he2, he1]; rfl

/-- An injective map that fixes everything from `n` on maps `0..n-1` into itself. -/
theorem lt_of_injective_fix (σ : Nat → Nat) (n : Nat) (hinj : Function.Injective σ)
    (hfix : ∀ m, n ≤ m → σ m = m) (m : Nat) (hm : m < n) : σ m < n := by
  by_contra hge
  have h1 : σ (σ m) = σ m := hfix (σ m) (by omega)
  have h2 : σ m = m := hinj h1
  omega

/-! ## The generator `make_solved` -/

theorem lineGroups_update (rin : Nat → Nat → Nat) (hrin : LineGroups rin) (bi : Nat)
    (rnd : Nat → Nat) (k : Nat) :
    LineGroups (Function.update rin bi (shuffle (rin bi) 3 rnd k).1) := by
  intro b
  by_cases hb : b = bi
  · subst hb
    rw [Function.update_same]
    exact isShuffleOf_trans 3 _ _ _ (hrin b) (shuffle_isShuffleOf _ 3 (by omega) rnd k)
  · rw [Function.update_noteq hb]
    exact hrin b

/-- Entries of a line group: `rin[b][t]` is `3b + σ t` for a rearrangement σ of 0..2. -/
theorem lineGroups_entry (rin : Nat → Nat → Nat) (hrin : LineGroups rin) (b : Nat) :
    ∃ σ : Nat → Nat, Function.Injective σ ∧ (∀ t, t < 3 → σ t < 3) ∧
      ∀ t, rin b t = 3 * b + σ t := by
  rcases hrin b with ⟨σ, hinj, hfix, heq⟩
  exact ⟨σ, hinj, fun t ht => lt_of_injective_fix σ 3 hinj hfix t ht, fun t => by rw [heq]; rfl⟩

/-- The loop `fill_lines` leaves the entries below `p` alone and writes group
`band[bs[q]]`, rearranged, to the entries `p + 3q .. p + 3q + 2`. -/
theorem fill_lines_spec (rnd : Nat → Nat) (band : Nat → Nat) :
    ∀ (bs : List Nat) (rin : Nat → Nat → Nat) (rows : Nat → Nat) (p k : Nat),
      LineGroups rin →
      (∀ m, m < p → (fill_lines rnd band bs rin rows p k).1 m = rows m) ∧
      (∀ q (hq : q < bs.length), ∃ σ : Nat → Nat, Function.Injective σ ∧
        (∀ t, t < 3 → σ t < 3) ∧
        ∀ t, t < 3 → (fill_lines rnd band bs rin rows p k).1 (p + 3 * q + t)
          = 3 * band (bs.get ⟨q, hq⟩) + σ t) := by
  intro bs
  induction bs with
  | nil =>
    intro rin rows p k _
    exact ⟨fun m _ => rfl, fun q hq => absurd hq (by simp)⟩
  | cons b0 bs ih =>
    intro rin rows p k hrin
    have hrin1 := lineGroups_update rin hrin (band b0) rnd k
    obtain ⟨ihlow, ihgrp⟩ := ih (Function.update rin (band b0) (shuffle (rin (band b0)) 3 rnd k).1)
      (Function.update (Function.update (Function.update rows p
        (Function.update rin (band b0) (shuffle (rin (band b0)) 3 rnd k).1 (band b0) 0)) (p + 1)
        (Function.update rin (band b0) (shuffle (rin (band b0)) 3 rnd k).1 (band b0) 1))
        (p + 1 + 1)
        (Function.update rin (band b0) (shuffle (rin (band b0)) 3 rnd k).1 (band b0) 2))
      (p + 3) (shuffle (rin (band b0)) 3 rnd k).2 hrin1
    unfold fill_lines
    simp only
    constructor
    · intro m hm
      rw [ihlow m (by omega)]
      rw [Function.update_noteq (by omega), Function.update_noteq (by omega),
        Function.update_noteq (by omega)]
    · intro q hq
      cases q with
      | zero =>
        obtain ⟨σ, hinj, hlt, hent⟩ := lineGroups_entry _ hrin1 (band b0)
        refine ⟨σ, hinj, hlt, ?_⟩
        intro t ht
        rw [ihlow (p + 3 * 0 + t) (by omega)]
        simp only [List.get_eq_getElem, List.getElem_cons_zero]
        have ht3 : t = 0 ∨ t = 1 ∨ t = 2 := by omega
        rcases ht3 with h | h | h <;> subst h
        · rw [Function.update_noteq (by omega), Function.update_noteq (by omega)]
          simp only [Nat.mul_zero, Nat.add_zero, Function.update_same]
          simpa using hent 0
        · rw [Function.update_noteq (by omega)]
          simp only [Nat.mul_zero, Nat.add_zero, Function.update_same]
          simpa using hent 1
        · simp only [Nat.mul_zero, Nat.add_zero, Function.update_same]
          simpa using hent 2
      | succ q =>
        have hq1 : q < bs.length := by simpa using hq
        obtain ⟨σ, hinj, hlt, hent⟩ := ihgrp q hq1
        refine ⟨σ, hinj, hlt, ?_⟩
        intro t ht
        have := hent t ht
        have hidx : p + 3 * (q + 1) + t = p + 3 + 3 * q + t := by ring
        rw [hidx, this]
        simp

/-- The line array built by `fill_lines` from a shuffled `band` is a band-respecting
permutation of 0..8. -/
theorem fill_lines_linePerm (rnd : Nat → Nat) (band : Nat → Nat)
    (hband : IsShuffleOf 3 (fun i => i) band) (k : Nat) :
    LinePerm (fill_lines rnd band [0, 1, 2] (fun b i => 3 * b + i) (fun i => i) 0 k).1 := by
  have hrin0 : LineGroups (fun b i => 3 * b + i) :=
    fun b => ⟨id, Function.injective_id, fun _ _ => rfl, rfl⟩
  obtain ⟨_, hgrp⟩ := fill_lines_spec rnd band [0, 1, 2] (fun b i => 3 * b + i) (fun i => i) 0 k
    hrin0
  rcases hband with ⟨τ, hτinj, hτfix, hτeq⟩
  have hbandlt : ∀ q, q < 3 → band q < 3 := by
    intro q hq; rw [hτeq]; exact lt_of_injective_fix τ 3 hτinj hτfix q hq
  have hbandinj : ∀ q q1, band q = band q1 → q = q1 := by
    intro q q1 h; rw [hτeq] at h; exact hτinj h
  -- entry formula for every row index below 9
  have hentry : ∀ r, r < 9 → ∃ σ : Nat → Nat, Function.Injective σ ∧ (∀ t, t < 3 → σ t < 3) ∧
      ∀ t, t < 3 → (fill_lines rnd band [0, 1, 2] (fun b i => 3 * b + i) (fun i => i) 0 k).1
        (3 * (r / 3) + t) = 3 * band (r / 3) + σ t := by
    intro r hr
    have hq : r / 3 < ([0, 1, 2] : List Nat).length := by simp; omega
    obtain ⟨σ, hinj, hlt, hent⟩ := hgrp (r / 3) hq
    refine ⟨σ, hinj, hlt, ?_⟩
    intro t ht
    have h := hent t ht
    have hget : ([0, 1, 2] : List Nat).get ⟨r / 3, hq⟩ = r / 3 := by
      have h3 : r / 3 = 0 ∨ r / 3 = 1 ∨ r / 3 = 2 := by omega
      rcases h3 with h0 | h0 | h0 <;> simp [h0]
    rw [hget] at h
    simpa using h
  have hval : ∀ r, r < 9 → ∃ σ : Nat → Nat, Function.Injective σ ∧ (∀ t, t < 3 → σ t < 3) ∧
      ∀ r1, r1 < 9 → r1 / 3 = r / 3 →
        (fill_lines rnd band [0, 1, 2] (fun b i => 3 * b + i) (fun i => i) 0 k).1 r1
          = 3 * band (r / 3) + σ (r1 % 3) := by
    intro r hr
    obtain ⟨σ, hinj, hlt, hent⟩ := hentry r hr
    refine ⟨σ, hinj, hlt, ?_⟩
    intro r1 hr1 hdiv
    have h := hent (r1 % 3) (Nat.mod_lt _ (by omega))
    have hidx : 3 * (r / 3) + r1 % 3 = r1 := by omega
    rw [hidx] at h
    exact h
  refine ⟨?_, ?_, ?_⟩
  · intro r hr
    obtain ⟨σ, _, hlt, hv⟩ := hval r hr
    rw [hv r hr rfl]
    have := hlt (r % 3) (Nat.mod_lt _ (by omega))
    have := hbandlt (r / 3) (by omega)
    omega
  · intro r hr r1 hr1 heq
    obtain ⟨σ, hinj, hlt, hv⟩ := hval r hr
    obtain ⟨σ1, _, hlt1, hv1⟩ := hval r1 hr1
    rw [hv r hr rfl, hv1 r1 hr1 rfl] at heq
    have h1 := hlt (r % 3) (Nat.mod_lt _ (by omega))
    have h2 := hlt1 (r1 % 3) (Nat.mod_lt _ (by omega))
    have hb : band (r / 3) = band (r1 / 3) := by omega
    have hdiv : r / 3 = r1 / 3 := hbandinj _ _ hb
    have heq2 := hv r1 hr1 hdiv.symm
    rw [hv1 r1 hr1 rfl, hb] at heq2
    have hs : σ (r % 3) = σ (r1 % 3) := by omega
    have hmod : r % 3 = r1 % 3 := hinj hs
    omega
  · intro r hr r1 hr1 hdiv
    obtain ⟨σ, _, hlt, hv⟩ := hval r hr
    rw [hv r hr rfl, hv r1 hr1 hdiv.symm]
    have h1 := hlt (r % 3) (Nat.mod_lt _ (by omega))
    have h2 := hlt (r1 % 3) (Nat.mod_lt _ (by omega))
    omega

/-- The base pattern separates the cells of a unit: two line pairs that agree
in the row, in the column, or in band and stack, get different pattern values. -/
theorem base_pattern_ne (r2 c2 r3 c3 : Nat) (hr2 : r2 < 9) (hc2 : c2 < 9) (hr3 : r3 < 9)
    (hc3 : c3 < 9) (hne : r2 ≠ r3 ∨ c2 ≠ c3)
    (hunit : r2 = r3 ∨ c2 = c3 ∨ (r2 / 3 = r3 / 3 ∧ c2 / 3 = c3 / 3)) :
    (r2 * 3 + r2 / 3 + c2) % 9 ≠ (r3 * 3 + r3 / 3 + c3) % 9 := by
  interval_cases r2 <;> interval_cases r3 <;> omega

/-- The grid written by `make_solved` is full and consistent, for every stream
of `rand()` values. -/
theorem make_solved_full_consistent (rnd : Nat → Nat) (k : Nat) :
    Full (make_solved rnd k).1 ∧ Consistent (make_solved rnd k).1 := by
  unfold make_solved
  simp only
  generalize hband : shuffle (fun i => i) 3 rnd k = band
  have hbandS : IsShuffleOf 3 (fun i => i) band.1 := by
    rw [← hband]; exact shuffle_isShuffleOf _ 3 (by omega) rnd k
  have hrowsP := fill_lines_linePerm rnd band.1 hbandS band.2
  generalize hrows : fill_lines rnd band.1 [0, 1, 2] (fun b i => 3 * b + i) (fun i => i) 0
    band.2 = rows at hrowsP ⊢
  generalize hstack : shuffle (fun i => i) 3 rnd rows.2 = stack_
  have hstackS : IsShuffleOf 3 (fun i => i) stack_.1 := by
    rw [← hstack]; exact shuffle_isShuffleOf _ 3 (by omega) rnd rows.2
  have hcolsP := fill_lines_linePerm rnd stack_.1 hstackS stack_.2
  generalize hcols : fill_lines rnd stack_.1 [0, 1, 2] (fun b i => 3 * b + i) (fun i => i) 0
    stack_.2 = cols at hcolsP ⊢
  obtain ⟨σ, hσinj, hσfix, hσeq⟩ :=
    shuffle_isShuffleOf (fun i : Nat => (i : Int) + 1) 9 (by omega) rnd cols.2
  rw [hσeq]
  have hσlt : ∀ m, m < 9 → σ m < 9 := fun m hm => lt_of_injective_fix σ 9 hσinj hσfix m hm
  obtain ⟨hrlt, hrinj, hrband⟩ := hrowsP
  obtain ⟨hclt, hcinj, hcband⟩ := hcolsP
  have hval : ∀ i, i < 81 →
      1 ≤ ((σ ((rows.1 (i / 9) * 3 + rows.1 (i / 9) / 3 + cols.1 (i % 9)) % 9) : Nat) : Int) + 1
      ∧ ((σ ((rows.1 (i / 9) * 3 + rows.1 (i / 9) / 3 + cols.1 (i % 9)) % 9) : Nat) : Int) + 1
        ≤ 9 := by
    intro i _
    have := hσlt ((rows.1 (i / 9) * 3 + rows.1 (i / 9) / 3 + cols.1 (i % 9)) % 9)
      (Nat.mod_lt _ (by omega))
    omega
  refine ⟨?_, ?_, ?_⟩
  · intro i hi
    have := hval i hi
    simp only [Function.comp_apply]
    omega
  · intro i hi
    have := hval i hi
    simp only [Function.comp_apply]
    omega
  · intro i hi j hj hij hsame _
    simp only [Function.comp_apply]
    intro heq
    have hσeq2 : σ ((rows.1 (i / 9) * 3 + rows.1 (i / 9) / 3 + cols.1 (i % 9)) % 9)
        = σ ((rows.1 (j / 9) * 3 + rows.1 (j / 9) / 3 + cols.1 (j % 9)) % 9) := by
      omega
    have hbase := hσinj hσeq2
    have hi9 : i / 9 < 9 := by omega
    have hj9 : j / 9 < 9 := by omega
    have hi9m : i % 9 < 9 := by omega
    have hj9m : j % 9 < 9 := by omega
    refine base_pattern_ne (rows.1 (i / 9)) (cols.1 (i % 9)) (rows.1 (j / 9)) (cols.1 (j % 9))
      (hrlt _ hi9) (hclt _ hi9m) (hrlt _ hj9) (hclt _ hj9m) ?_ ?_ hbase
    · by_cases hrow : i / 9 = j / 9
      · right
        intro hc
        have := hcinj _ hi9m _ hj9m hc
        omega
      · left
        intro hr
        exact hrow (hrinj _ hi9 _ hj9 hr)
    · rcases hsame with h | h | ⟨h1, h2⟩
      · left; rw [h]
      · right; left; rw [h]
      · right; right
        exact ⟨hrband _ hi9 _ hj9 (by omega), hcband _ hi9m _ hj9m h2⟩

/-! ## A larger recursion budget changes nothing -/

theorem count_limit_loop_mono (self self1 : Board → Int → Option (Int × Board))
    (hself : ∀ b lim r, self b lim = some r → self1 b lim = some r) (idx : Nat) (limit : Int) :
    ∀ (vs : List Int) (total : Int) (board : Board) (r : Int × Board),
      count_limit_loop self idx limit vs total board = some r →
      count_limit_loop self1 idx limit vs total board = some r := by
  intro vs
  induction vs with
  | nil => intro total board r h; exact h
  | cons v vs ih =>
    intro total board r h
    unfold count_limit_loop at h ⊢
    cases hs : self (Function.update board idx v) (limit - total) with
    | none => rw [hs] at h; cases h
    | some res =>
      rw [hs] at h
      rw [hself _ _ _ hs]
      simp only at h ⊢
      by_cases hge : total + res.1 ≥ limit
      · rw [if_pos hge] at h ⊢; exact h
      · rw [if_neg hge] at h ⊢; exact ih _ _ _ h

theorem count_limit_succ (fuel : Nat) :
    ∀ (b : Board) (limit : Int) (r : Int × Board),
      count_limit fuel b limit = some r → count_limit (fuel + 1) b limit = some r := by
  induction fuel with
  | zero => intro b limit r h; cases h
  | succ fuel ih =>
    intro b limit r h
    unfold count_limit at h ⊢
    by_cases hneg : find_mrv b < 0
    · simp only [hneg, if_true] at h ⊢; exact h
    · simp only [hneg, if_false] at h ⊢
      exact count_limit_loop_mono _ _ ih _ _ _ _ _ _ h

/-- Once `count_limit` returns within a budget, every larger budget gives the
same result. -/
theorem count_limit_fuel_mono (fuel fuel1 : Nat) (hle : fuel ≤ fuel1) (b : Board)
    (limit : Int) (r : Int × Board) (h : count_limit fuel b limit = some r) :
    count_limit fuel1 b limit = some r := by
  induction fuel1 with
  | zero =>
    have : fuel = 0 := by omega
    subst this; exact h
  | succ n ih =>
    by_cases hn : fuel ≤ n
    · exact count_limit_succ n b limit r (ih hn)
    · have : fuel = n + 1 := by omega
      subst this; exact h

theorem rec_first_loop_mono (self self1 : Board → Board → Option (Bool × Board × Board))
    (hself : ∀ b o r, self b o = some r → self1 b o = some r) (idx : Nat) :
    ∀ (vs : List Int) (board out : Board) (r : Bool × Board × Board),
      rec_first_loop self idx vs board out = some r →
      rec_first_loop self1 idx vs board out = some r := by
  intro vs
  induction vs with
  | nil => intro board out r h; exact h
  | cons v vs ih =>
    intro board out r h
    unfold rec_first_loop at h ⊢
    cases hs : self (Function.update board idx v) out with
    | none => rw [hs] at h; cases h
    | some res =>
      rw [hs] at h
      rw [hself _ _ _ hs]
      obtain ⟨f, b1, o1⟩ := res
      cases f with
      | true => exact h
      | false => exact ih _ _ _ h

theorem rec_first_succ (fuel : Nat) :
    ∀ (b out : Board) (r : Bool × Board × Board),
      rec_first fuel b out = some r → rec_first (fuel + 1) b out = some r := by
  induction fuel with
  | zero => intro b out r h; cases h
  | succ fuel ih =>
    intro b out r h
    unfold rec_first at h ⊢
    by_cases hneg : find_mrv b < 0
    · simp only [hneg, if_true] at h ⊢; exact h
    · simp only [hneg, if_false] at h ⊢
      exact rec_first_loop_mono _ _ ih _ _ _ _ _ h

/-- Once `rec_first` returns within a budget, every larger budget gives the
same result. -/
theorem rec_first_fuel_mono (fuel fuel1 : Nat) (hle : fuel ≤ fuel1) (b out : Board)
    (r : Bool × Board × Board) (h : rec_first fuel b out = some r) :
    rec_first fuel1 b out = some r := by
  induction fuel1 with
  | zero =>
    have : fuel = 0 := by omega
    subst this; exact h
  | succ n ih =>
    by_cases hn : fuel ≤ n
    · exact rec_first_succ n b out r (ih hn)
    · have : fuel = n + 1 := by omega
      subst this; exact h

/-! ## The uniqueness test `unique_solution` -/

/-- The test `unique_solution` always returns; when it returns true, the
counting search on the puzzle yields 1 and `out_solution` is a full grid that
keeps the filled cells of the puzzle and is consistent if the puzzle was. -/
theorem unique_solution_spec (p o : Board) :
    ∃ ok out1, unique_solution p o = some (ok, out1) ∧
      (ok = true → count_limit (NN + 1) p 2 = some (1, p) ∧ Extends p out1 ∧ Full out1 ∧
        (Consistent p → Consistent out1)) := by
  obtain ⟨f, b1, o1, hres, _, htrue⟩ := rec_first_total p o
  obtain ⟨n, hn⟩ := count_limit_total p 2
  unfold unique_solution
  rw [hres]
  cases f with
  | false => exact ⟨false, o1, rfl, fun h => by cases h⟩
  | true =>
    obtain ⟨ho, hext, hfull, hcons⟩ := htrue rfl
    simp only [hn]
    refine ⟨n == 1, o1, rfl, ?_⟩
    intro h1
    have hn1 : n = 1 := by simpa using h1
    rw [ho]
    exact ⟨by rw [hn1], hext, hfull, hcons⟩

/-- On a full grid `unique_solution` returns true. -/
theorem unique_solution_full (p o : Board) (hfull : Full p) :
    unique_solution p o = some (true, p) := by
  have hmrv := find_mrv_full p hfull
  have hr : rec_first (NN + 1) p o = some (true, p, p) := by
    unfold rec_first; simp [hmrv]
  have hc : count_limit (NN + 1) p 2 = some (1, p) := by
    unfold count_limit; simp [hmrv]
  unfold unique_solution
  rw [hr]
  simp only [hc]
  rfl

/-! ## The digger `remove_to_medium` -/

/-- Restoring the saved values undoes the tentative clear. -/
theorem restore_eq (grid : Board) (i j : Nat) :
    (if j ≠ i then
        Function.update
          (Function.update (if j ≠ i then Function.update (Function.update grid i 0) j 0
            else Function.update grid i 0) i (grid i)) j (grid j)
      else
        Function.update (if j ≠ i then Function.update (Function.update grid i 0) j 0
          else Function.update grid i 0) i (grid i)) = grid := by
  by_cases hji : j ≠ i
  · simp only [hji, if_true, ne_eq, not_false_eq_true]
    funext m
    by_cases h1 : m = j
    · subst h1; simp
    · by_cases h2 : m = i
      · subst h2
        simp [Function.update_noteq h1]
      · simp [Function.update_noteq h1, Function.update_noteq h2]
  · have hji2 : j = i := not_not.mp hji
    simp [hji2]

/-- The tentative clear only empties cells. -/
theorem cleared_cells (grid : Board) (i j : Nat) (m : Nat) :
    (if j ≠ i then Function.update (Function.update grid i 0) j 0
      else Function.update grid i 0) m = 0 ∨
    (if j ≠ i then Function.update (Function.update grid i 0) j 0
      else Function.update grid i 0) m = grid m := by
  by_cases hji : j ≠ i
  · simp only [hji, if_true, ne_eq, not_false_eq_true]
    by_cases h1 : m = j
    · subst h1; left; simp
    · by_cases h2 : m = i
      · subst h2; left; simp [Function.update_noteq h1]
      · right; simp [Function.update_noteq h1, Function.update_noteq h2]
  · simp only [hji, if_false]
    by_cases h2 : m = i
    · subst h2; left; simp
    · right; simp [Function.update_noteq h2]

/-- The tentative clear removes at most `delta` clues. -/
theorem cleared_count (grid : Board) (i j : Nat) :
    (clueCount grid : Int) ≤
      clueCount (if j ≠ i then Function.update (Function.update grid i 0) j 0
        else Function.update grid i 0) + (if j = i then 1 else 2) := by
  by_cases hji : j = i
  · have h := clueCount_update_zero grid i
    simp only [hji, ne_eq, not_true_eq_false, if_false, if_true]
    omega
  · have h1 := clueCount_update_zero grid i
    have h2 := clueCount_update_zero (Function.update grid i 0) j
    simp only [hji, ne_eq, not_false_eq_true, if_true, if_false]
    omega

theorem remove_loop_post (rnd : Nat → Nat) (scratch : Board) (pos : Nat → Nat) :
    ∀ (ks : List Nat) (grid : Board) (clues : Int) (s : Nat),
      RemovePost scratch grid clues (remove_loop rnd scratch pos ks grid clues s) := by
  intro ks
  induction ks with
  | nil =>
    intro grid clues s
    exact ⟨grid, rfl, fun m => Or.inr rfl, Or.inl rfl, fun h1 h2 => le_trans h2 h1⟩
  | cons k ks ih =>
    intro grid clues s
    unfold remove_loop
    simp only
    generalize hj : GAME_IDX (9 - 1 - pos k / 9) (9 - 1 - pos k % 9) = j
    by_cases hskip : grid (pos k) = 0 ∧ grid j = 0
    · rw [if_pos hskip]
      exact ih grid clues s
    · rw [if_neg hskip]
      obtain ⟨ok, out, hres, _⟩ := unique_solution_spec
        (if j ≠ pos k then Function.update (Function.update grid (pos k) 0) j 0
          else Function.update grid (pos k) 0) scratch
      rw [hres]
      simp only
      by_cases hrevert : (!ok || decide (clues - (if j = pos k then 1 else 2) < 32)) = true
      · rw [if_pos hrevert, restore_eq]
        exact ih grid clues s
      · rw [if_neg hrevert]
        have hok : ok = true := by
          cases ok
          · simp at hrevert
          · rfl
        have hmin : ¬ clues - (if j = pos k then 1 else 2) < 32 := by
          intro h
          apply hrevert
          simp [h]
        subst hok
        have hcells := cleared_cells grid (pos k) j
        have hcount := cleared_count grid (pos k) j
        -- the state after a committed removal
        have hcommit : ∀ res,
            RemovePost scratch
              (if j ≠ pos k then Function.update (Function.update grid (pos k) 0) j 0
                else Function.update grid (pos k) 0)
              (clues - (if j = pos k then 1 else 2)) res →
            RemovePost scratch grid clues res := by
          rintro res ⟨g, hg, hz, hu, hc⟩
          refine ⟨g, hg, ?_, ?_, ?_⟩
          · intro m
            rcases hz m with h | h
            · left; exact h
            · rw [h]; exact hcells m
          · right
            rcases hu with h | h
            · rw [h]; exact ⟨out, hres⟩
            · exact h
          · intro h1 _
            apply hc
            · omega
            · omega
        by_cases hmax : clues - (if j = pos k then 1 else 2) ≤ 38
        · rw [if_pos hmax]
          by_cases hstop : rnd s % 3 = 0
          · rw [if_pos hstop]
            apply hcommit
            exact ⟨_, rfl, fun m => Or.inr rfl, Or.inl rfl, fun h1 h2 => le_trans h2 h1⟩
          · rw [if_neg hstop]
            exact hcommit _ (ih _ _ _)
        · rw [if_neg hmax]
          exact hcommit _ (ih _ _ _)

/-- The digger `remove_to_medium` always returns, with the effect `RemovePost`. -/
theorem remove_to_medium_post (grid : Board) (rnd : Nat → Nat) (k : Nat) (scratch : Board) :
    RemovePost scratch grid 81 (remove_to_medium grid rnd k scratch) := by
  unfold remove_to_medium
  exact remove_loop_post rnd scratch _ _ grid 81 _

/-! ## Counting valid completions -/

theorem toBoard_ofBoard (b : Board) (i : Nat) (hi : i < 81) (h0 : 0 ≤ b i) (h9 : b i ≤ 9) :
    toBoard (ofBoard b) i = b i := by
  unfold toBoard ofBoard
  simp only [hi, dite_true]
  omega

theorem filling_ext (s t : Filling) (h : ∀ i, i < 81 → toBoard s i = toBoard t i) : s = t := by
  funext i
  have := h i.val i.isLt
  unfold toBoard at this
  simp only [i.isLt, dite_true] at this
  apply Fin.ext
  have h2 : ((s ⟨i.val, i.isLt⟩).val : Int) = ((t ⟨i.val, i.isLt⟩).val : Int) := this
  have h3 : (s ⟨i.val, i.isLt⟩).val = (t ⟨i.val, i.isLt⟩).val := by omega
  exact h3

theorem full_congr (s t : Board) (h : ∀ i, i < 81 → s i = t i) (hs : Full s) : Full t := by
  intro i hi
  rw [← h i hi]; exact hs i hi

theorem consistent_congr (s t : Board) (h : ∀ i, i < 81 → s i = t i) (hs : Consistent s) :
    Consistent t := by
  refine ⟨?_, ?_⟩
  · intro i hi; rw [← h i hi]; exact hs.1 i hi
  · intro i hi j hj hij hsame hnz
    rw [← h i hi] at hnz ⊢
    rw [← h j hj]
    exact hs.2 i hi j hj hij hsame hnz

/-- Being a completion only depends on the 81 cells of either grid. -/
theorem isCompletion_congr (b b1 s s1 : Board) (hb : ∀ i, i < 81 → b i = b1 i)
    (hs : ∀ i, i < 81 → s i = s1 i) (h : IsCompletion b s) : IsCompletion b1 s1 := by
  obtain ⟨hfull, hcons, hext⟩ := h
  refine ⟨full_congr s s1 hs hfull, consistent_congr s s1 hs hcons, ?_⟩
  intro i hi hnz
  rw [← hb i hi] at hnz ⊢
  rw [← hs i hi]
  exact hext i hi hnz

theorem mem_completions (b : Board) (s : Filling) :
    s ∈ completions b ↔ IsCompletion b (toBoard s) := Iff.rfl

theorem completions_finite (b : Board) : (completions b).Finite := Set.toFinite _

/-- The set of completions only depends on the 81 cells of the grid. -/
theorem completions_congr (b b1 : Board) (hb : ∀ i, i < 81 → b i = b1 i) :
    completions b = completions b1 := by
  ext s
  rw [mem_completions, mem_completions]
  exact ⟨isCompletion_congr b b1 _ _ hb (fun _ _ => rfl),
    isCompletion_congr b1 b _ _ (fun i hi => (hb i hi).symm) (fun _ _ => rfl)⟩

/-- A completion given as a grid is counted. -/
theorem ofBoard_mem_completions (b s : Board) (h : IsCompletion b s) :
    ofBoard s ∈ completions b := by
  rw [mem_completions]
  apply isCompletion_congr b b s _ (fun _ _ => rfl) _ h
  intro i hi
  have := h.2.1.1 i hi
  exact (toBoard_ofBoard s i hi this.1 this.2).symm

/-- The completions of `b` with value `v` in the empty cell `idx` are the
completions of `b` with `v` written into `idx`. -/
theorem mem_completions_update (b : Board) (idx : Nat) (v : Int) (hidx : idx < 81)
    (hz : b idx = 0) (hv : v ≠ 0) (s : Filling) :
    s ∈ completions (Function.update b idx v) ↔ s ∈ completions b ∧ toBoard s idx = v := by
  rw [mem_completions, mem_completions]
  constructor
  · rintro ⟨hfull, hcons, hext⟩
    refine ⟨⟨hfull, hcons, ?_⟩, ?_⟩
    · intro i hi hnz
      have hne : i ≠ idx := fun h => hnz (h ▸ hz)
      have := hext i hi (by rw [Function.update_noteq hne]; exact hnz)
      rw [this, Function.update_noteq hne]
    · have := hext idx hidx (by rw [Function.update_same]; exact hv)
      rw [this, Function.update_same]
  · rintro ⟨⟨hfull, hcons, hext⟩, hval⟩
    refine ⟨hfull, hcons, ?_⟩
    intro i hi hnz
    by_cases hne : i = idx
    · subst hne; rw [Function.update_same]; exact hval
    · rw [Function.update_noteq hne] at hnz ⊢
      exact hext i hi hnz

/-- In a completion of `b` the value of an empty cell is one of its candidates. -/
theorem completion_value_candidate (b : Board) (idx : Nat) (hidx : idx < 81) (hz : b idx = 0)
    (s : Board) (h : IsCompletion b s) :
    s idx ∈ candidates b (idx / 9) (idx % 9) := by
  obtain ⟨hfull, hcons, hext⟩ := h
  unfold candidates
  rw [List.mem_filter]
  have hr := hcons.1 idx hidx
  have hnz := hfull idx hidx
  refine ⟨mem_digits_of_range _ (by omega) hr.2, ?_⟩
  rw [can_place_local_iff b idx _ hidx]
  intro j hj hsame hbj
  have hne : idx ≠ j := by
    intro h; rw [← h, hz] at hbj; exact hnz hbj.symm
  have hbnz : b j ≠ 0 := by rw [hbj]; exact hnz
  have hsj := hext j hj hbnz
  exact hcons.2 idx hidx j hj hne hsame hnz (by rw [hsj, hbj])

theorem branch_sum_eq_ncard (b : Board) (idx : Nat) (hidx : idx < 81) (hz : b idx = 0) :
    ∀ (vs : List Int), vs.Nodup → (∀ v, v ∈ vs → v ≠ 0) →
      (vs.map (fun v => (completions (Function.update b idx v)).ncard)).sum
        = ({s | s ∈ completions b ∧ toBoard s idx ∈ vs} : Set Filling).ncard := by
  intro vs
  induction vs with
  | nil => intro _ _; simp
  | cons v vs ih =>
    intro hnd hnz
    have hnd2 := List.nodup_cons.mp hnd
    have hrest := ih hnd2.2 (fun w hw => hnz w (List.mem_cons_of_mem _ hw))
    have hsplit : ({s | s ∈ completions b ∧ toBoard s idx ∈ v :: vs} : Set Filling)
        = completions (Function.update b idx v) ∪
          {s | s ∈ completions b ∧ toBoard s idx ∈ vs} := by
      ext s
      simp only [Set.mem_setOf_eq, Set.mem_union, List.mem_cons]
      rw [mem_completions_update b idx v hidx hz (hnz v (List.mem_cons_self _ _))]
      tauto
    have hdisj : Disjoint (completions (Function.update b idx v))
        ({s | s ∈ completions b ∧ toBoard s idx ∈ vs} : Set Filling) := by
      rw [Set.disjoint_left]
      intro s hs hs2
      rw [mem_completions_update b idx v hidx hz (hnz v (List.mem_cons_self _ _))] at hs
      have h3 : toBoard s idx ∈ vs := hs2.2
      rw [hs.2] at h3
      exact hnd2.1 h3
    rw [hsplit, Set.ncard_union_eq hdisj (completions_finite _) (Set.toFinite _), ← hrest]
    simp

/-- Branching on an empty cell: the completions of `b` are counted by summing
over the candidates of the cell. -/
theorem ncard_completions_branch (b : Board) (idx : Nat) (hidx : idx < 81) (hz : b idx = 0) :
    (completions b).ncard =
      ((candidates b (idx / 9) (idx % 9)).map
        (fun v => (completions (Function.update b idx v)).ncard)).sum := by
  have hnd : (candidates b (idx / 9) (idx % 9)).Nodup := by
    unfold candidates
    exact List.Nodup.filter _ (by decide)
  have hnz : ∀ v, v ∈ candidates b (idx / 9) (idx % 9) → v ≠ 0 := by
    intro v hv
    have := digits_range v (candidates_mem b _ _ v hv).1
    omega
  rw [branch_sum_eq_ncard b idx hidx hz _ hnd hnz]
  congr 1
  ext s
  simp only [Set.mem_setOf_eq]
  constructor
  · intro hs
    exact ⟨hs, completion_value_candidate b idx hidx hz _ ((mem_completions b s).mp hs)⟩
  · intro hs
    exact hs.1

/-- A full consistent grid has exactly one completion, itself. -/
theorem ncard_completions_full (b : Board) (hfull : Full b) (hcons : Consistent b) :
    (completions b).ncard = 1 := by
  rw [Set.ncard_eq_one]
  refine ⟨ofBoard b, ?_⟩
  ext s
  rw [Set.mem_singleton_iff]
  constructor
  · intro hs
    have hc := (mem_completions b s).mp hs
    apply filling_ext
    intro i hi
    have hr := hcons.1 i hi
    rw [toBoard_ofBoard b i hi hr.1 hr.2]
    exact hc.2.2 i hi (hfull i hi)
  · intro hs
    subst hs
    exact ofBoard_mem_completions b b ⟨hfull, hcons, fun _ _ _ => rfl⟩

/-! ## The searches count and find completions -/

theorem update_update_zero (b : Board) (idx : Nat) (v : Int) (hz : b idx = 0) :
    Function.update (Function.update b idx v) idx 0 = b := by
  rw [Function.update_idem, ← hz, Function.update_eq_self]

theorem count_limit_loop_count (self : Board → Int → Option (Int × Board))
    (b : Board) (idx : Nat) (limit : Int) (hz : b idx = 0)
    (hself : ∀ v lim, v ∈ digits → can_place_local b (idx / 9) (idx % 9) v = true → 1 ≤ lim →
      self (Function.update b idx v) lim
        = some (min lim ((completions (Function.update b idx v)).ncard : Int),
            Function.update b idx v)) :
    ∀ (vs : List Int) (total : Int),
      (∀ v, v ∈ vs → v ∈ digits ∧ can_place_local b (idx / 9) (idx % 9) v = true) →
      0 ≤ total → total < limit →
      count_limit_loop self idx limit vs total b
        = some (min limit (total +
            ((vs.map (fun v => (completions (Function.update b idx v)).ncard)).sum : Nat)), b) := by
  intro vs
  induction vs with
  | nil =>
    intro total _ _ hlt
    unfold count_limit_loop
    simp only [List.map_nil, List.sum_nil, Nat.cast_zero, add_zero]
    rw [min_eq_right (le_of_lt hlt)]
  | cons v vs ih =>
    intro total hvs h0 hlt
    have hv := hvs v (List.mem_cons_self _ _)
    have hcall := hself v (limit - total) hv.1 hv.2 (by omega)
    unfold count_limit_loop
    rw [hcall]
    simp only [update_update_zero b idx v hz, List.map_cons, List.sum_cons, Nat.cast_add]
    rcases le_total (limit - total) ((completions (Function.update b idx v)).ncard : Int)
      with hle | hle
    · rw [min_eq_left hle]
      have hge : total + (limit - total) ≥ limit := by omega
      rw [if_pos hge]
      have h1 : total + (limit - total) = limit := by omega
      have h2 : limit ≤ total + (((completions (Function.update b idx v)).ncard : Int) +
          (((vs.map (fun v => (completions (Function.update b idx v)).ncard)).sum : Nat) : Int)) := by
        have : (0 : Int) ≤ (((vs.map (fun v => (completions (Function.update b idx v)).ncard)).sum
          : Nat) : Int) := Int.natCast_nonneg _
        omega
      rw [h1, min_eq_left h2]
    · rw [min_eq_right hle]
      by_cases hge : total + ((completions (Function.update b idx v)).ncard : Int) ≥ limit
      · rw [if_pos hge]
        have h1 : total + ((completions (Function.update b idx v)).ncard : Int) = limit := by omega
        have h2 : limit ≤ total + (((completions (Function.update b idx v)).ncard : Int) +
            (((vs.map (fun v => (completions (Function.update b idx v)).ncard)).sum : Nat)
              : Int)) := by
          have : (0 : Int) ≤ (((vs.map
            (fun v => (completions (Function.update b idx v)).ncard)).sum : Nat) : Int) :=
            Int.natCast_nonneg _
          omega
        rw [h1, min_eq_left h2]
      · rw [if_neg hge]
        have := ih (total + ((completions (Function.update b idx v)).ncard : Int))
          (fun w hw => hvs w (List.mem_cons_of_mem _ hw))
          (by have := Int.natCast_nonneg (completions (Function.update b idx v)).ncard; omega)
          (by omega)
        rw [this, add_assoc]

/-- The counting search is exact: on a consistent grid and for a limit of at
least 1, `count_limit` returns the number of valid completions, capped at the
limit, and restores the board. -/
theorem count_limit_count (fuel : Nat) :
    ∀ (b : Board) (limit : Int), emptyCount b < fuel → Consistent b → 1 ≤ limit →
      count_limit fuel b limit = some (min limit ((completions b).ncard : Int), b) := by
  induction fuel with
  | zero => intro b limit h; omega
  | succ fuel ih =>
    intro b limit hfuel hcons hlimit
    unfold count_limit
    by_cases hneg : find_mrv b < 0
    · simp only [hneg, if_true]
      rw [ncard_completions_full b (find_mrv_neg b hneg) hcons]
      have : min limit ((1 : Nat) : Int) = 1 := by
        rw [Nat.cast_one]; exact min_eq_right hlimit
      rw [this]
    · simp only [hneg, if_false]
      have hidx := find_mrv_nonneg b hneg
      have hloop := count_limit_loop_count (count_limit fuel) b (find_mrv b).toNat limit hidx.2
        (fun v lim hv hcan hlim => by
          apply ih _ _ _ (consistent_update b _ v hidx.1 hv hcan hcons) hlim
          have := emptyCount_update b _ v hidx.1 hidx.2 (by have := digits_range v hv; omega)
          omega)
        (candidates b ((find_mrv b).toNat / 9) ((find_mrv b).toNat % 9)) 0
        (fun v hv => candidates_mem b _ _ v hv) (le_refl 0) (by omega)
      rw [hloop, ← ncard_completions_branch b _ hidx.1 hidx.2, zero_add]

theorem rec_first_loop_none (self : Board → Board → Option (Bool × Board × Board))
    (b : Board) (idx : Nat) (hz : b idx = 0)
    (hpost : ∀ v out, v ∈ digits → RecFirstPost (Function.update b idx v) out
      (self (Function.update b idx v) out))
    (hempty : ∀ v out b1 o1, v ∈ digits → can_place_local b (idx / 9) (idx % 9) v = true →
      self (Function.update b idx v) out = some (false, b1, o1) →
      completions (Function.update b idx v) = ∅) :
    ∀ (vs : List Int) (out : Board),
      (∀ v, v ∈ vs → v ∈ digits ∧ can_place_local b (idx / 9) (idx % 9) v = true) →
      ∀ b1 o1, rec_first_loop self idx vs b out = some (false, b1, o1) →
      ∀ v, v ∈ vs → completions (Function.update b idx v) = ∅ := by
  intro vs
  induction vs with
  | nil => intro out _ b1 o1 _ v hv; cases hv
  | cons w vs ih =>
    intro out hvs b1 o1 hres v hv
    have hw := hvs w (List.mem_cons_self _ _)
    rcases hpost w out hw.1 with ⟨f, b2, o2, hcall, hfalse, _⟩
    unfold rec_first_loop at hres
    rw [hcall] at hres
    cases f with
    | true => simp at hres
    | false =>
      obtain ⟨hb2, ho2⟩ := hfalse rfl
      simp only [hb2, ho2, update_update_zero b idx w hz] at hres
      rcases List.mem_cons.mp hv with h | h
      · subst h
        rw [hb2, ho2] at hcall
        exact hempty v out _ _ hw.1 hw.2 hcall
      · exact ih out (fun u hu => hvs u (List.mem_cons_of_mem _ hu)) b1 o1 hres v h

/-- The first-solution search is complete: on a consistent grid `rec_first`
returns false only if the grid has no valid completion. -/
theorem rec_first_false_empty (fuel : Nat) :
    ∀ (b out : Board), emptyCount b < fuel → Consistent b →
      ∀ b1 o1, rec_first fuel b out = some (false, b1, o1) → completions b = ∅ := by
  induction fuel with
  | zero => intro b out h; omega
  | succ fuel ih =>
    intro b out hfuel hcons b1 o1 hres
    unfold rec_first at hres
    by_cases hneg : find_mrv b < 0
    · simp [hneg] at hres
    · simp only [hneg, if_false] at hres
      have hidx := find_mrv_nonneg b hneg
      have hlt : ∀ v, v ∈ digits → emptyCount (Function.update b (find_mrv b).toNat v) < fuel := by
        intro v hv
        have := emptyCount_update b _ v hidx.1 hidx.2 (by have := digits_range v hv; omega)
        omega
      have hnone := rec_first_loop_none (rec_first fuel) b (find_mrv b).toNat hidx.2
        (fun v out2 hv => rec_first_post fuel _ out2 (hlt v hv))
        (fun v out2 b2 o2 hv hcan hcall =>
          ih _ out2 (hlt v hv) (consistent_update b _ v hidx.1 hv hcan hcons) b2 o2 hcall)
        _ out (fun v hv => candidates_mem b _ _ v hv) b1 o1 hres
      ext s
      simp only [Set.mem_empty_iff_false, iff_false]
      intro hs
      have hcand := completion_value_candidate b _ hidx.1 hidx.2 _ ((mem_completions b s).mp hs)
      have hv0 : toBoard s (find_mrv b).toNat ≠ 0 := by
        have := digits_range _ (candidates_mem b _ _ _ hcand).1
        omega
      have hmem : s ∈ completions (Function.update b (find_mrv b).toNat
          (toBoard s (find_mrv b).toNat)) :=
        (mem_completions_update b _ _ hidx.1 hidx.2 hv0 s).mpr ⟨hs, rfl⟩
      rw [hnone _ hcand] at hmem
      exact hmem

/-- On a consistent puzzle `unique_solution` returns true exactly when the
puzzle has exactly one valid completion. -/
theorem unique_solution_iff (p o : Board) (hcons : Consistent p) :
    ∃ out, unique_solution p o = some (decide ((completions p).ncard = 1), out) := by
  have hfuel : emptyCount p < NN + 1 := by have := emptyCount_le p; simp only [NN]; omega
  obtain ⟨f, b1, o1, hres, _, htrue⟩ := rec_first_total p o
  have hcount := count_limit_count (NN + 1) p 2 hfuel hcons (by norm_num)
  unfold unique_solution
  rw [hres]
  cases f with
  | false =>
    have hempty := rec_first_false_empty (NN + 1) p o hfuel hcons b1 o1 hres
    refine ⟨o1, ?_⟩
    simp [hempty]
  | true =>
    obtain ⟨ho, hext, hfull, hc⟩ := htrue rfl
    simp only [hcount]
    refine ⟨o1, ?_⟩
    have hpos : 1 ≤ (completions p).ncard := by
      have hmem := ofBoard_mem_completions p b1 ⟨hfull, hc hcons, hext⟩
      exact Nat.one_le_iff_ne_zero.mpr
        (fun h0 => by
          rw [Set.ncard_eq_zero (completions_finite p)] at h0
          rw [h0] at hmem
          exact hmem)
    by_cases h1 : (completions p).ncard = 1
    · simp [h1]
    · have h2 : (2 : Int) ≤ ((completions p).ncard : Int) := by omega
      simp [h1, min_eq_left h2]

/-! ## Certified completion counts -/

theorem optAdd_some (x y : Option Nat) (n : Nat) (h : optAdd x y = some n) :
    ∃ a c, x = some a ∧ y = some c ∧ n = a + c := by
  cases x with
  | none => simp [optAdd] at h
  | some a =>
    cases y with
    | none => simp [optAdd] at h
    | some c =>
      simp only [optAdd, Option.some.injEq] at h
      exact ⟨a, c, rfl, rfl, h.symm⟩

theorem sum_map_filter (l : List Int) (p : Int → Bool) (f : Int → Nat) :
    ((l.filter p).map f).sum = (l.map (fun v => if p v then f v else 0)).sum := by
  induction l with
  | nil => rfl
  | cons a l ih =>
    by_cases ha : p a = true
    · simp [List.filter_cons, ha, ih]
    · simp [List.filter_cons, ha, ih]

theorem certStep_sound (b : Board) (idx : Nat) (v : Int) (k : Cert) (hidx : idx < 81)
    (hv : v ∈ digits) (hcons : Consistent b)
    (ih : ∀ (b1 : Board) (n : Nat), certCount k b1 = some n → Consistent b1 →
      (completions b1).ncard = n)
    (m : Nat) (h : certStep b idx v (certCount k) = some m) :
    (if can_place_local b (idx / 9) (idx % 9) v = true
      then (completions (Function.update b idx v)).ncard else 0) = m := by
  unfold certStep at h
  by_cases hcan : can_place_local b (idx / 9) (idx % 9) v = true
  · rw [if_pos hcan] at h ⊢
    exact ih _ _ h (consistent_update b idx v hidx hv hcan hcons)
  · rw [if_neg hcan] at h ⊢
    simpa using h

/-- A certificate that fits a consistent grid gives its number of completions. -/
theorem certCount_sound (c : Cert) :
    ∀ (b : Board) (n : Nat), certCount c b = some n → Consistent b →
      (completions b).ncard = n := by
  induction c with
  | full =>
    intro b n h hcons
    unfold certCount at h
    by_cases hall : (List.range 81).all (fun i => b i != 0) = true
    · rw [if_pos hall] at h
      have hfull : Full b := by
        intro i hi
        have := List.all_eq_true.mp hall i (List.mem_range.mpr hi)
        simpa using this
      rw [ncard_completions_full b hfull hcons]
      simpa using h
    · rw [if_neg hall] at h; cases h
  | skip => intro b n h _; cases h
  | node idx k1 k2 k3 k4 k5 k6 k7 k8 k9 ih1 ih2 ih3 ih4 ih5 ih6 ih7 ih8 ih9 =>
    intro b n h hcons
    unfold certCount at h
    by_cases hc : idx < 81 ∧ b idx = 0
    · rw [if_pos hc] at h
      obtain ⟨hidx, hz⟩ := hc
      obtain ⟨a1, r1, h1, hr1, e1⟩ := optAdd_some _ _ _ h
      obtain ⟨a2, r2, h2, hr2, e2⟩ := optAdd_some _ _ _ hr1
      obtain ⟨a3, r3, h3, hr3, e3⟩ := optAdd_some _ _ _ hr2
      obtain ⟨a4, r4, h4, hr4, e4⟩ := optAdd_some _ _ _ hr3
      obtain ⟨a5, r5, h5, hr5, e5⟩ := optAdd_some _ _ _ hr4
      obtain ⟨a6, r6, h6, hr6, e6⟩ := optAdd_some _ _ _ hr5
      obtain ⟨a7, r7, h7, hr7, e7⟩ := optAdd_some _ _ _ hr6
      obtain ⟨a8, a9, h8, h9, e8⟩ := optAdd_some _ _ _ hr7
      have s1 := certStep_sound b idx 1 k1 hidx (by decide) hcons ih1 a1 h1
      have s2 := certStep_sound b idx 2 k2 hidx (by decide) hcons ih2 a2 h2
      have s3 := certStep_sound b idx 3 k3 hidx (by decide) hcons ih3 a3 h3
      have s4 := certStep_sound b idx 4 k4 hidx (by decide) hcons ih4 a4 h4
      have s5 := certStep_sound b idx 5 k5 hidx (by decide) hcons ih5 a5 h5
      have s6 := certStep_sound b idx 6 k6 hidx (by decide) hcons ih6 a6 h6
      have s7 := certStep_sound b idx 7 k7 hidx (by decide) hcons ih7 a7 h7
      have s8 := certStep_sound b idx 8 k8 hidx (by decide) hcons ih8 a8 h8
      have s9 := certStep_sound b idx 9 k9 hidx (by decide) hcons ih9 a9 h9
      rw [ncard_completions_branch b idx hidx hz]
      unfold candidates
      rw [sum_map_filter]
      simp only [digits, List.map_cons, List.map_nil, List.sum_cons, List.sum_nil]
      rw [s1, s2, s3, s4, s5, s6, s7, s8, s9]
      omega
    · rw [if_neg hc] at h; cases h

/-- Two completions that differ in some cell make the count at least 2. -/
theorem two_le_ncard_completions (b s1 s2 : Board) (h1 : IsCompletion b s1)
    (h2 : IsCompletion b s2) (i : Nat) (hi : i < 81) (hne : s1 i ≠ s2 i) :
    2 ≤ (completions b).ncard := by
  have hne2 : ofBoard s1 ≠ ofBoard s2 := by
    intro heq
    apply hne
    have hr1 := h1.2.1.1 i hi
    have hr2 := h2.2.1.1 i hi
    rw [← toBoard_ofBoard s1 i hi hr1.1 hr1.2, ← toBoard_ofBoard s2 i hi hr2.1 hr2.2, heq]
  have := (Set.one_lt_ncard_iff (completions_finite b)).mpr
    ⟨ofBoard s1, ofBoard s2, ofBoard_mem_completions b s1 h1, ofBoard_mem_completions b s2 h2,
      hne2⟩
  omega

theorem extendsB_iff (b s : Board) : extendsB b s = true ↔ Extends b s := by
  unfold extendsB Extends
  simp only [List.all_eq_true, List.mem_range, Bool.or_eq_true, beq_iff_eq]
  constructor
  · intro h i hi hnz
    rcases h i hi with h0 | h0
    · exact absurd h0 hnz
    · exact h0
  · intro h i hi
    by_cases h0 : b i = 0
    · left; exact h0
    · right; exact h i hi h0

theorem allUnits_isUnit : ∀ u, u ∈ allUnits → IsUnit u := by decide

theorem allUnits_cover :
    (List.range 81).all (fun i => (List.range 81).all (fun j =>
      !decide (sameUnit i j) || allUnits.any (fun u => decide (i ∈ u) && decide (j ∈ u))))
      = true := by
  decide!

/-- A grid in which every unit contains every digit is full and consistent. -/
theorem latinB_sound (s : Board) (h : latinB s = true) : Full s ∧ Consistent s := by
  unfold latinB at h
  rw [List.all_eq_true] at h
  -- in every unit the values are the nine digits, each once
  have hunit : ∀ u, u ∈ allUnits →
      (∀ i, i ∈ u → s i ∈ digits) ∧ (∀ i, i ∈ u → ∀ j, j ∈ u → s i = s j → i = j) := by
    intro u hu
    have hU := allUnits_isUnit u hu
    have hsub : digits ⊆ u.map s := by
      intro v hv
      have := List.all_eq_true.mp (h u hu) v hv
      rw [List.any_eq_true] at this
      obtain ⟨i, hi, hiv⟩ := this
      exact List.mem_map.mpr ⟨i, hi, by simpa using hiv⟩
    have hperm : digits.Perm (u.map s) :=
      (List.subperm_of_subset (by decide) hsub).perm_of_length_le
        (by rw [List.length_map, hU.2.1]; decide)
    refine ⟨?_, ?_⟩
    · intro i hi
      exact hperm.mem_iff.mpr (List.mem_map.mpr ⟨i, hi, rfl⟩)
    · have hnd : (u.map s).Nodup := hperm.nodup_iff.mp (by decide)
      intro i hi j hj hij
      exact List.inj_on_of_nodup_map hnd hi hj hij
  have hcover : ∀ i, i < 81 → ∀ j, j < 81 → sameUnit i j →
      ∃ u, u ∈ allUnits ∧ i ∈ u ∧ j ∈ u := by
    intro i hi j hj hsame
    have h1 := List.all_eq_true.mp allUnits_cover i (List.mem_range.mpr hi)
    have h2 := List.all_eq_true.mp h1 j (List.mem_range.mpr hj)
    simp only [Bool.or_eq_true, Bool.not_eq_true', decide_eq_false_iff_not, List.any_eq_true,
      Bool.and_eq_true, decide_eq_true_eq] at h2
    rcases h2 with h3 | h3
    · exact absurd hsame h3
    · exact h3
  have hdig : ∀ i, i < 81 → s i ∈ digits := by
    intro i hi
    obtain ⟨u, hu, hiu, _⟩ := hcover i hi i hi (Or.inl rfl)
    exact (hunit u hu).1 i hiu
  refine ⟨?_, ?_, ?_⟩
  · intro i hi
    have := digits_range _ (hdig i hi)
    omega
  · intro i hi
    have := digits_range _ (hdig i hi)
    omega
  · intro i hi j hj hij hsame _ heq
    obtain ⟨u, hu, hiu, hju⟩ := hcover i hi j hj hsame
    exact hij ((hunit u hu).2 i hiu j hju heq)

/-! ## Masked grids -/

theorem mask_nil (g : Board) : mask g [] = g := by
  funext i
  simp [mask]

theorem mask_cells (g : Board) (removed : List Nat) (m : Nat) :
    mask g removed m = 0 ∨ mask g removed m = g m := by
  unfold mask
  by_cases h : m ∈ removed
  · left; rw [if_pos h]
  · right; rw [if_neg h]

/-- The tentative clear of the digger, on a masked grid. -/
theorem cleared_eq_mask (g : Board) (removed : List Nat) (i j : Nat) :
    (if j ≠ i then Function.update (Function.update (mask g removed) i 0) j 0
      else Function.update (mask g removed) i 0) = mask g (j :: i :: removed) := by
  funext m
  unfold mask
  by_cases hji : j ≠ i
  · rw [if_pos hji]
    by_cases h1 : m = j
    · subst h1; simp
    · by_cases h2 : m = i
      · subst h2; simp [Function.update_noteq h1]
      · simp [Function.update_noteq h1, Function.update_noteq h2, h1, h2]
  · have hji2 : j = i := not_not.mp hji
    rw [if_neg hji]
    subst hji2
    by_cases h2 : m = j
    · subst h2; simp
    · simp [Function.update_noteq h2, h2]

theorem mask_congr (g g1 : Board) (removed : List Nat) (h : ∀ m, m < 81 → g m = g1 m) :
    ∀ m, m < 81 → mask g removed m = mask g1 removed m := by
  intro m hm
  unfold mask
  rw [h m hm]

/-- A full consistent grid is a completion of each of its masked grids. -/
theorem isCompletion_mask (g : Board) (hfull : Full g) (hcons : Consistent g)
    (removed : List Nat) : IsCompletion (mask g removed) g := by
  refine ⟨hfull, hcons, ?_⟩
  intro m _ hnz
  rcases mask_cells g removed m with h | h
  · exact absurd h hnz
  · exact h.symm

/-- Removing fewer cells from a grid than a uniquely solvable masked grid
lacks keeps it uniquely solvable. -/
theorem ncard_mask_unique (g : Board) (hfull : Full g) (hcons : Consistent g)
    (removed all : List Nat) (hsub : ∀ m, m ∈ removed → m ∈ all)
    (huniq : (completions (mask g all)).ncard = 1) :
    (completions (mask g removed)).ncard = 1 := by
  have hle : (completions (mask g removed)).ncard ≤ (completions (mask g all)).ncard := by
    apply Set.ncard_le_ncard _ (completions_finite _)
    intro s hs
    obtain ⟨hf, hc, hext⟩ := (mem_completions _ s).mp hs
    refine (mem_completions _ s).mpr ⟨hf, hc, ?_⟩
    intro m hm hnz
    have hnot : m ∉ all := by
      intro hin
      apply hnz
      unfold mask
      rw [if_pos hin]
    have hnot2 : m ∉ removed := fun hin => hnot (hsub m hin)
    have h1 : mask g all m = g m := by unfold mask; rw [if_neg hnot]
    have h2 : mask g removed m = g m := by unfold mask; rw [if_neg hnot2]
    rw [h1]
    rw [h1] at hnz
    have := hext m hm (by rw [h2]; exact hnz)
    rw [this, h2]
  have hmem := ofBoard_mem_completions _ g (isCompletion_mask g hfull hcons removed)
  have hpos : 0 < (completions (mask g removed)).ncard :=
    (Set.ncard_pos (completions_finite _)).mpr ⟨_, hmem⟩
  omega

/-! ## Session creation `game_new` -/

/-- Emptying cells of a consistent grid keeps it consistent. -/
theorem consistent_of_cleared (grid g : Board) (hz : ∀ m, g m = 0 ∨ g m = grid m)
    (hgrid : Consistent grid) : Consistent g := by
  refine ⟨?_, ?_⟩
  · intro i hi
    rcases hz i with h | h
    · rw [h]; omega
    · rw [h]; exact hgrid.1 i hi
  · intro i hi j hj hij hsame hnz
    have hi2 : g i = grid i := by
      rcases hz i with h | h
      · exact absurd h hnz
      · exact h
    rcases hz j with h | h
    · rw [h]; exact hnz
    · rw [hi2, h]
      exact hgrid.2 i hi j hj hij hsame (by rw [← hi2]; exact hnz)

theorem clueCount_le (b : Board) : clueCount b ≤ 81 := by
  unfold clueCount
  exact (List.countP_le_length _).trans (by simp)

/-- A full grid has 81 clues. -/
theorem clueCount_full (b : Board) (hfull : Full b) : clueCount b = 81 := by
  unfold clueCount
  have h : (List.range 81).countP (fun i => b i != 0) = (List.range 81).length := by
    rw [List.countP_eq_length]
    intro i hi
    have := hfull i (List.mem_range.mp hi)
    simpa using this
  simpa using h

/-! ## Runs of the digger on masked grids -/

theorem mask_zero_mem (g : Board) (hfull : Full g) (removed : List Nat) (m : Nat)
    (hm : m < 81) (h : mask g removed m = 0) : m ∈ removed := by
  by_contra hnot
  unfold mask at h
  rw [if_neg hnot] at h
  exact hfull m hm h

theorem consistent_mask (g : Board) (hcons : Consistent g) (removed : List Nat) :
    Consistent (mask g removed) :=
  consistent_of_cleared g _ (mask_cells g removed) hcons

/-- While every visited position lies in a set `all` of cells whose removal
leaves a uniquely solvable grid, and the counter stays at 39 or more, the
digger commits every removal it tries and never draws a `rand()` value. -/
theorem dig_commits (rnd : Nat → Nat) (scratch : Board) (pos : Nat → Nat) (g : Board)
    (hfull : Full g) (hcons : Consistent g) (all : List Nat)
    (huniq : (completions (mask g all)).ncard = 1) :
    ∀ (ks : List Nat) (removed : List Nat) (clues : Int) (s : Nat),
      (∀ k, k ∈ ks → pos k < 81 ∧ pos k ∈ all ∧
        GAME_IDX (9 - 1 - pos k / 9) (9 - 1 - pos k % 9) ∈ all) →
      (∀ m, m ∈ removed → m ∈ all) → 39 + 2 * (ks.length : Int) ≤ clues →
      ∃ removed1 clues1, (∀ m, m ∈ removed1 → m ∈ all) ∧
        (∀ k, k ∈ ks → pos k ∈ removed1 ∧
          GAME_IDX (9 - 1 - pos k / 9) (9 - 1 - pos k % 9) ∈ removed1) ∧
        (∀ m, m ∈ removed → m ∈ removed1) ∧
        ∀ rest, remove_loop rnd scratch pos (ks ++ rest) (mask g removed) clues s
          = remove_loop rnd scratch pos rest (mask g removed1) clues1 s := by
  intro ks
  induction ks with
  | nil =>
    intro removed clues s _ hsub _
    exact ⟨removed, clues, hsub, fun k hk => (by cases hk), fun m hm => hm, fun rest => rfl⟩
  | cons k ks ih =>
    intro removed clues s hks hsub hclues
    obtain ⟨hlt, hi, hj⟩ := hks k (List.mem_cons_self _ _)
    have hks2 : ∀ k1, k1 ∈ ks → pos k1 < 81 ∧ pos k1 ∈ all ∧
        GAME_IDX (9 - 1 - pos k1 / 9) (9 - 1 - pos k1 % 9) ∈ all :=
      fun k1 hk1 => hks k1 (List.mem_cons_of_mem _ hk1)
    have hlen : ((k :: ks).length : Int) = (ks.length : Int) + 1 := by simp
    by_cases hskip : mask g removed (pos k) = 0 ∧
        mask g removed (GAME_IDX (9 - 1 - pos k / 9) (9 - 1 - pos k % 9)) = 0
    · obtain ⟨removed1, clues1, h1, h2, h3, h4⟩ := ih removed clues s hks2 hsub (by omega)
      have hjlt : GAME_IDX (9 - 1 - pos k / 9) (9 - 1 - pos k % 9) < 81 := by
        unfold GAME_IDX; omega
      refine ⟨removed1, clues1, h1, ?_, h3, ?_⟩
      · intro k1 hk1
        rcases List.mem_cons.mp hk1 with h | h
        · subst h
          exact ⟨h3 _ (mask_zero_mem g hfull removed _ hlt hskip.1),
            h3 _ (mask_zero_mem g hfull removed _ hjlt hskip.2)⟩
        · exact h2 k1 h
      · intro rest
        rw [List.cons_append]
        conv_lhs => unfold remove_loop
        simp only
        rw [if_pos hskip]
        exact h4 rest
    · have hsub2 : ∀ m, m ∈ GAME_IDX (9 - 1 - pos k / 9) (9 - 1 - pos k % 9) :: pos k :: removed →
          m ∈ all := by
        intro m hm
        rcases List.mem_cons.mp hm with h | h
        · rw [h]; exact hj
        · rcases List.mem_cons.mp h with h5 | h5
          · rw [h5]; exact hi
          · exact hsub m h5
      have hdelta : (if GAME_IDX (9 - 1 - pos k / 9) (9 - 1 - pos k % 9) = pos k
          then (1 : Int) else 2) ≤ 2 := by split <;> norm_num
      obtain ⟨removed1, clues1, h1, h2, h3, h4⟩ := ih
        (GAME_IDX (9 - 1 - pos k / 9) (9 - 1 - pos k % 9) :: pos k :: removed)
        (clues - (if GAME_IDX (9 - 1 - pos k / 9) (9 - 1 - pos k % 9) = pos k then 1 else 2)) s
        hks2 hsub2 (by omega)
      refine ⟨removed1, clues1, h1, ?_, ?_, ?_⟩
      · intro k1 hk1
        rcases List.mem_cons.mp hk1 with h | h
        · subst h
          exact ⟨h3 _ (List.mem_cons_of_mem _ (List.mem_cons_self _ _)),
            h3 _ (List.mem_cons_self _ _)⟩
        · exact h2 k1 h
      · intro m hm
        exact h3 m (List.mem_cons_of_mem _ (List.mem_cons_of_mem _ hm))
      · intro rest
        rw [List.cons_append]
        conv_lhs => unfold remove_loop
        simp only
        rw [if_neg hskip, cleared_eq_mask]
        have hu := ncard_mask_unique g hfull hcons _ all hsub2 huniq
        obtain ⟨out, hout⟩ := unique_solution_iff
          (mask g (GAME_IDX (9 - 1 - pos k / 9) (9 - 1 - pos k % 9) :: pos k :: removed)) scratch
          (consistent_mask g hcons _)
        rw [hout]
        simp only [hu, decide_True, Bool.not_true, Bool.false_or, decide_eq_true_eq]
        rw [if_neg (by omega), if_neg (by omega)]
        exact h4 rest

/-- Once every remaining visited position is either already empty together
with its partner, or its removal would leave at least two completions, the
digger leaves the grid as it is. -/
theorem dig_stuck (rnd : Nat → Nat) (scratch : Board) (pos : Nat → Nat) (g : Board)
    (hcons : Consistent g) (all : List Nat) :
    ∀ (ks : List Nat) (clues : Int) (s : Nat),
      (∀ k, k ∈ ks →
        (pos k ∈ all ∧ GAME_IDX (9 - 1 - pos k / 9) (9 - 1 - pos k % 9) ∈ all) ∨
        2 ≤ (completions (mask g
          (GAME_IDX (9 - 1 - pos k / 9) (9 - 1 - pos k % 9) :: pos k :: all))).ncard) →
      remove_loop rnd scratch pos ks (mask g all) clues s = some (mask g all) := by
  intro ks
  induction ks with
  | nil => intro clues s _; rfl
  | cons k ks ih =>
    intro clues s hks
    have hrest := ih clues s (fun k1 hk1 => hks k1 (List.mem_cons_of_mem _ hk1))
    unfold remove_loop
    simp only
    by_cases hskip : mask g all (pos k) = 0 ∧
        mask g all (GAME_IDX (9 - 1 - pos k / 9) (9 - 1 - pos k % 9)) = 0
    · rw [if_pos hskip]
      exact hrest
    · rw [if_neg hskip]
      rcases hks k (List.mem_cons_self _ _) with ⟨h1, h2⟩ | h2
      · exfalso
        apply hskip
        unfold mask
        rw [if_pos h1, if_pos h2]
        exact ⟨rfl, rfl⟩
      · have hrestore := restore_eq (mask g all) (pos k)
          (GAME_IDX (9 - 1 - pos k / 9) (9 - 1 - pos k % 9))
        rw [cleared_eq_mask] at hrestore ⊢
        obtain ⟨out, hout⟩ := unique_solution_iff
          (mask g (GAME_IDX (9 - 1 - pos k / 9) (9 - 1 - pos k % 9) :: pos k :: all)) scratch
          (consistent_mask g hcons _)
        rw [hout]
        have hne : ¬ (completions (mask g
            (GAME_IDX (9 - 1 - pos k / 9) (9 - 1 - pos k % 9) :: pos k :: all))).ncard = 1 := by
          omega
        simp only [hne, decide_False, Bool.not_false, Bool.true_or, if_true]
        rw [hrestore]
        exact hrest

/-- A successful `stuckAt` check on a grid `sol` that agrees with `g` justifies
the hypothesis of `dig_stuck` for cell `i`. -/
theorem stuckAt_sound (g sol : Board) (hg : ∀ m, m < 81 → g m = sol m) (hfull : Full g)
    (hcons : Consistent g) (all : List Nat) (alt : Nat → Board) (i : Nat) (hi : i < 81)
    (h : stuckAt sol all alt i = true) :
    (i ∈ all ∧ GAME_IDX (9 - 1 - i / 9) (9 - 1 - i % 9) ∈ all) ∨
      2 ≤ (completions (mask g (GAME_IDX (9 - 1 - i / 9) (9 - 1 - i % 9) :: i :: all))).ncard := by
  unfold stuckAt at h
  rw [Bool.or_eq_true] at h
  rcases h with h | h
  · left
    simpa using h
  · right
    simp only [Bool.and_eq_true, Bool.or_eq_true, bne_iff_ne, ne_eq] at h
    obtain ⟨⟨hlat, hext⟩, hdiff⟩ := h
    obtain ⟨hf, hc⟩ := latinB_sound _ hlat
    have hext2 : Extends (mask g (GAME_IDX (9 - 1 - i / 9) (9 - 1 - i % 9) :: i :: all)) (alt i) := by
      intro m hm hnz
      have hcg := mask_congr g sol (GAME_IDX (9 - 1 - i / 9) (9 - 1 - i % 9) :: i :: all) hg m hm
      rw [hcg] at hnz ⊢
      exact (extendsB_iff _ _).mp hext m hm hnz
    have hjlt : GAME_IDX (9 - 1 - i / 9) (9 - 1 - i % 9) < 81 := by
      unfold GAME_IDX; omega
    have hcomp1 := isCompletion_mask g hfull hcons
      (GAME_IDX (9 - 1 - i / 9) (9 - 1 - i % 9) :: i :: all)
    rcases hdiff with hd | hd
    · exact two_le_ncard_completions _ _ _ hcomp1 ⟨hf, hc, hext2⟩ i hi
        (by rw [hg i hi]; exact fun heq => hd heq.symm)
    · exact two_le_ncard_completions _ _ _ hcomp1 ⟨hf, hc, hext2⟩ _ hjlt
        (by rw [hg _ hjlt]; exact fun heq => hd heq.symm)

/-- The session built by `game_new`, for every stream of `rand()` values and
every content of the uninitialised arrays: the puzzle is the one left by the
digger, it passes `unique_solution` (so the fallback literal is not used), and
the stored solution is the grid found by `rec_first`. -/
theorem game_new_spec (rnd : Nat → Nat) (uninit : Board) :
    ∃ puzzle final_solution,
      game_new rnd uninit = some (fill_game puzzle final_solution) ∧
      remove_to_medium (make_solved rnd 0).1 rnd (make_solved rnd 0).2 uninit = some puzzle ∧
      unique_solution puzzle uninit = some (true, final_solution) ∧
      count_limit (NN + 1) puzzle 2 = some (1, puzzle) ∧
      Extends puzzle final_solution ∧ Full final_solution ∧ Consistent final_solution ∧
      (32 : Int) ≤ clueCount puzzle := by
  obtain ⟨hfullS, hconsS⟩ := make_solved_full_consistent rnd 0
  obtain ⟨g, hg, hz, hu, hc⟩ :=
    remove_to_medium_post (make_solved rnd 0).1 rnd (make_solved rnd 0).2 uninit
  have hun : ∃ out, unique_solution g uninit = some (true, out) := by
    rcases hu with h | h
    · exact ⟨g, by rw [h]; exact unique_solution_full _ _ hfullS⟩
    · exact h
  obtain ⟨out, hout⟩ := hun
  obtain ⟨ok, out1, hres, htrue⟩ := unique_solution_spec g uninit
  rw [hout] at hres
  have hok : ok = true := by
    have := congrArg (fun r => r.map Prod.fst) hres
    simpa using this.symm
  have hout1 : out1 = out := by
    have := congrArg (fun r => r.map Prod.snd) hres
    simpa using this.symm
  subst hok
  subst hout1
  obtain ⟨hcount, hext, hfull, hcons⟩ := htrue rfl
  refine ⟨g, out1, ?_, hg, hout, hcount, hext, hfull,
    hcons (consistent_of_cleared _ g hz hconsS), ?_⟩
  · unfold game_new
    simp only [hg, hout]
  · apply hc
    · rw [clueCount_full _ hfullS]; norm_num
    · norm_num

/-! ## A run of the digger that stops at 39 clues -/

theorem clueCount_congr (b b1 : Board) (h : ∀ i, i < 81 → b i = b1 i) :
    clueCount b = clueCount b1 := by
  unfold clueCount
  apply List.countP_congr
  intro i hi
  rw [h i (List.mem_range.mp hi)]

theorem make_solved_rnd39 : ∀ i, i < 81 → (make_solved rnd39 0).1 i = solved39 i := by
  decide!

theorem make_solved_rnd39_used : (make_solved rnd39 0).2 = 24 := by
  decide!

theorem shuffle_rnd39 : ∀ k, k < 81 → (shuffle (fun i => i) NN rnd39 24).1 k = order39 k := by
  decide!

theorem mask_solved39 : ∀ i, i < 81 → mask solved39 removed39 i = puzzle39 i := by
  decide!

theorem cert39_count : certCount cert39 puzzle39 = some 1 := by
  decide!

theorem order39_commits :
    ∀ k, k ∈ List.range 21 → order39 k < 81 ∧ order39 k ∈ removed39 ∧
      GAME_IDX (9 - 1 - order39 k / 9) (9 - 1 - order39 k % 9) ∈ removed39 := by
  decide!

theorem removed39_covered :
    ∀ m, m ∈ removed39 → ∃ k, k ∈ List.range 21 ∧
      (m = order39 k ∨ m = GAME_IDX (9 - 1 - order39 k / 9) (9 - 1 - order39 k % 9)) := by
  decide!

theorem order39_stuck :
    ∀ k, k ∈ List.range' 21 60 →
      order39 k < 81 ∧ stuckAt solved39 removed39 alt39 (order39 k) = true := by
  decide!

theorem clueCount_puzzle39 : clueCount puzzle39 = 39 := by
  decide!

/-- On the stream `rnd39` the digger returns the solved grid with exactly the
cells `removed39` emptied: it removes 21 pairs, bringing the counter from 81
to 39, and every further removal would leave two completions. -/
theorem remove_to_medium_rnd39 (scratch : Board) :
    remove_to_medium (make_solved rnd39 0).1 rnd39 (make_solved rnd39 0).2 scratch
      = some (mask (make_solved rnd39 0).1 removed39) := by
  obtain ⟨hfull, hcons⟩ := make_solved_full_consistent rnd39 0
  have hg := make_solved_rnd39
  have hpuz : ∀ m, m < 81 → mask (make_solved rnd39 0).1 removed39 m = puzzle39 m := by
    intro m hm
    rw [mask_congr _ solved39 removed39 hg m hm]
    exact mask_solved39 m hm
  have huniq : (completions (mask (make_solved rnd39 0).1 removed39)).ncard = 1 := by
    rw [completions_congr _ puzzle39 hpuz]
    exact certCount_sound cert39 puzzle39 1 cert39_count
      (consistent_congr _ _ hpuz (consistent_mask _ hcons removed39))
  unfold remove_to_medium
  simp only
  rw [make_solved_rnd39_used]
  have hpos := shuffle_rnd39
  have hrange : List.range NN = List.range 21 ++ List.range' 21 60 := by decide
  rw [hrange]
  conv_lhs => rw [← mask_nil (make_solved rnd39 0).1]
  obtain ⟨removed1, clues1, h1, h2, _, h4⟩ := dig_commits rnd39 scratch
    (shuffle (fun i => i) NN rnd39 24).1 (make_solved rnd39 0).1 hfull hcons removed39 huniq
    (List.range 21) [] 81 (shuffle (fun i : Nat => i) NN rnd39 24).2
    (fun k hk => by
      have hk81 : k < 81 := by have := List.mem_range.mp hk; omega
      rw [hpos k hk81]
      exact order39_commits k hk)
    (fun m hm => by cases hm) (by norm_num)
  rw [h4]
  have hmask : mask (make_solved rnd39 0).1 removed1 = mask (make_solved rnd39 0).1 removed39 := by
    funext m
    unfold mask
    by_cases hm : m ∈ removed39
    · have hm1 : m ∈ removed1 := by
        obtain ⟨k, hk, hor⟩ := removed39_covered m hm
        have hk81 : k < 81 := by have := List.mem_range.mp hk; omega
        have := h2 k hk
        rw [hpos k hk81] at this
        rcases hor with h | h
        · rw [h]; exact this.1
        · rw [h]; exact this.2
      rw [if_pos hm, if_pos hm1]
    · have hm1 : m ∉ removed1 := fun h => hm (h1 m h)
      rw [if_neg hm, if_neg hm1]
  rw [hmask]
  apply dig_stuck rnd39 scratch _ _ hcons removed39
  intro k hk
  have hk81 : k < 81 := by
    have := List.mem_range'.mp hk
    omega
  rw [hpos k hk81]
  have hst := order39_stuck k hk
  exact stuckAt_sound _ solved39 hg hfull hcons removed39 alt39 _ hst.1 hst.2

/-! ## Properties of a fresh session -/

/-- C1 (uniqueness): for every stream of `rand()` values, `game_new` returns
a session, and `count_limit` run on (a copy of) its puzzle with limit 2
returns 1, leaving that copy as it was; this holds for every recursion budget
of at least `NN + 1`. -/
theorem game_new_puzzle_unique (rnd : Nat → Nat) (uninit : Board) :
    ∃ g, game_new rnd uninit = some g ∧
      ∀ fuel, NN + 1 ≤ fuel → count_limit fuel g.puzzle 2 = some (1, g.puzzle) := by
  obtain ⟨puzzle, final, hnew, _, _, hcount, _⟩ := game_new_spec rnd uninit
  exact ⟨fill_game puzzle final, hnew,
    fun fuel hfuel => count_limit_fuel_mono _ fuel hfuel puzzle 2 _ hcount⟩

/-- C2 (Latin property): for every stream of `rand()` values, `game_new`
returns a session in whose `solution` every row, every column and every 3x3
box contains each of the values 1..9 exactly once. -/
theorem game_new_solution_latin (rnd : Nat → Nat) (uninit : Board) :
    ∃ g, game_new rnd uninit = some g ∧ Latin g.solution := by
  obtain ⟨puzzle, final, hnew, _, _, _, _, hfull, hcons, _⟩ := game_new_spec rnd uninit
  exact ⟨fill_game puzzle final, hnew, latin_of_full_consistent final hcons hfull⟩

/-- C3 (given/puzzle consistency): for every stream of `rand()` values and
every cell index i below 81, right after `game_new`: if `fixed[i]` is set then
`puzzle[i] == solution[i]` and `puzzle[i] != 0`; if `fixed[i]` is clear then
`puzzle[i] == 0`. -/
theorem game_new_fixed_consistent (rnd : Nat → Nat) (uninit : Board) :
    ∃ g, game_new rnd uninit = some g ∧
      ∀ i, i < 81 →
        (g.fixed i ≠ 0 → g.puzzle i = g.solution i ∧ g.puzzle i ≠ 0) ∧
        (g.fixed i = 0 → g.puzzle i = 0) := by
  obtain ⟨puzzle, final, hnew, _, _, _, hext, _⟩ := game_new_spec rnd uninit
  refine ⟨fill_game puzzle final, hnew, ?_⟩
  intro i hi
  simp only [fill_game]
  by_cases hp : puzzle i = 0
  · simp [hp]
  · have hfix : (if puzzle i ≠ 0 then 1 else 0 : Nat) = 1 := if_pos hp
    rw [hfix]
    exact ⟨fun _ => ⟨(hext i hi hp).symm, hp⟩, fun h => absurd h (by decide)⟩

/-- C4, as stated, fails (clue count in [32, 38], or 30 after the fallback):
for the stream `rnd39` the fresh puzzle has 39 non-zero cells. -/
theorem game_new_rnd39_clues :
    ∃ g, game_new rnd39 (fun _ => 0) = some g ∧ clueCount g.puzzle = 39 ∧
      ¬ ((32 ≤ clueCount g.puzzle ∧ clueCount g.puzzle ≤ 38) ∨ clueCount g.puzzle = 30) := by
  obtain ⟨puzzle, final, hnew, hdig, _⟩ := game_new_spec rnd39 (fun _ => 0)
  rw [remove_to_medium_rnd39] at hdig
  have hp : puzzle = mask (make_solved rnd39 0).1 removed39 := (Option.some.inj hdig).symm
  have hcount : clueCount puzzle = 39 := by
    rw [hp, clueCount_congr _ puzzle39, clueCount_puzzle39]
    intro i hi
    rw [mask_congr _ solved39 removed39 make_solved_rnd39 i hi]
    exact mask_solved39 i hi
  refine ⟨fill_game puzzle final, hnew, hcount, ?_⟩
  have h2 : clueCount (fill_game puzzle final).puzzle = 39 := hcount
  omega

/-! ## Session properties -/

/-- C5 (strict rejection): for r, c in 0..8 and v in 1..9, when
`can_place_local` is false on the puzzle, a strict `game_place` returns false
and leaves `puzzle[r*9+c]` as it was. -/
theorem game_place_strict_rejects (g : Game) (r c : Nat) (v : Int)
    (_hr : r < 9) (_hc : c < 9) (hv1 : 1 ≤ v) (_hv9 : v ≤ 9)
    (hcan : can_place_local g.puzzle r c v = false) :
    (game_place g r c v true).1 = false ∧
      (game_place g r c v true).2.puzzle (r * 9 + c) = g.puzzle (r * 9 + c) := by
  have hv0 : v ≠ 0 := by omega
  unfold game_place
  by_cases hf : g.fixed (GAME_IDX r c) ≠ 0
  · simp [hf]
  · simp [hf, hv0, hcan]

theorem game_place_strict_rejects_witness :
    can_place_local demoGame.puzzle 0 0 5 = false ∧
      (game_place demoGame 0 0 5 true).1 = false ∧
      (game_place demoGame 0 0 5 true).2.puzzle (0 * 9 + 0) = demoGame.puzzle (0 * 9 + 0) :=
  ⟨by decide,
    game_place_strict_rejects demoGame 0 0 5 (by decide) (by decide) (by decide) (by decide)
      (by decide)⟩

/-- C6 (free acceptance): on a non-fixed cell, for every v in 0..9, a
non-strict `game_place` returns true, stores v in `puzzle[r*9+c]` and clears
`notes[r*9+c]`, whatever conflicts v creates. -/
theorem game_place_free_accepts (g : Game) (r c : Nat) (v : Int)
    (_hr : r < 9) (_hc : c < 9) (_hv0 : 0 ≤ v) (_hv9 : v ≤ 9)
    (hfree : g.fixed (r * 9 + c) = 0) :
    (game_place g r c v false).1 = true ∧
      (game_place g r c v false).2.puzzle (r * 9 + c) = v ∧
      (game_place g r c v false).2.notes (r * 9 + c) = 0 := by
  unfold game_place
  simp only [GAME_IDX, hfree]
  by_cases hv : v = 0
  · simp [hv]
  · simp [hv]

theorem game_place_free_accepts_witness :
    demoGame.fixed (0 * 9 + 0) = 0 ∧ can_place_local demoGame.puzzle 0 0 5 = false ∧
      (game_place demoGame 0 0 5 false).1 = true ∧
      (game_place demoGame 0 0 5 false).2.puzzle (0 * 9 + 0) = 5 ∧
      (game_place demoGame 0 0 5 false).2.notes (0 * 9 + 0) = 0 :=
  ⟨by decide, by decide,
    game_place_free_accepts demoGame 0 0 5 (by decide) (by decide) (by decide) (by decide)
      (by decide)⟩

/-- C7 (hint correctness): whenever `game_give_hint` returns true, afterwards
`puzzle[r*9+c] == solution[r*9+c]` and `notes[r*9+c] == 0`; in particular,
after a wrong value was written to a non-fixed cell by a non-strict
`game_place`, the hint succeeds and overwrites it with the solution value. -/
theorem game_give_hint_correct (g : Game) (r c : Nat) (_hr : r < 9) (_hc : c < 9) :
    ((game_give_hint g r c).1 = true →
      (game_give_hint g r c).2.puzzle (r * 9 + c) = (game_give_hint g r c).2.solution (r * 9 + c) ∧
      (game_give_hint g r c).2.notes (r * 9 + c) = 0) ∧
    (∀ wrong : Int, g.fixed (r * 9 + c) = 0 → wrong ≠ g.solution (r * 9 + c) →
      (game_give_hint (game_place g r c wrong false).2 r c).1 = true ∧
      (game_give_hint (game_place g r c wrong false).2 r c).2.puzzle (r * 9 + c)
        = g.solution (r * 9 + c)) := by
  constructor
  · unfold game_give_hint
    simp only [GAME_IDX]
    by_cases hf : g.fixed (r * 9 + c) ≠ 0
    · simp [hf]
    · by_cases he : g.puzzle (r * 9 + c) = g.solution (r * 9 + c)
      · simp [hf, he]
      · simp [hf, he]
  · intro wrong hfree hwrong
    unfold game_give_hint game_place
    simp only [GAME_IDX, hfree]
    by_cases hv : wrong = 0
    · subst hv
      simp [hfree, hwrong]
    · simp [hv, hfree, hwrong]

theorem game_give_hint_correct_witness :
    ((game_give_hint demoGame 0 0).1 = true →
      (game_give_hint demoGame 0 0).2.puzzle (0 * 9 + 0)
        = (game_give_hint demoGame 0 0).2.solution (0 * 9 + 0) ∧
      (game_give_hint demoGame 0 0).2.notes (0 * 9 + 0) = 0) ∧
    (∀ wrong : Int, demoGame.fixed (0 * 9 + 0) = 0 → wrong ≠ demoGame.solution (0 * 9 + 0) →
      (game_give_hint (game_place demoGame 0 0 wrong false).2 0 0).1 = true ∧
      (game_give_hint (game_place demoGame 0 0 wrong false).2 0 0).2.puzzle (0 * 9 + 0)
        = demoGame.solution (0 * 9 + 0)) :=
  game_give_hint_correct demoGame 0 0 (by decide) (by decide)

/-- C8 (idempotent zero-write): on a non-fixed cell and for both values of
`strict`, `game_place` with value 0 returns true and leaves `puzzle[r*9+c]`
and `notes[r*9+c]` at 0; applied a second time it returns true again and the
session stays equal to the one after the first application. -/
theorem game_place_zero_idempotent (g : Game) (r c : Nat) (strict : Bool)
    (_hr : r < 9) (_hc : c < 9) (hfree : g.fixed (r * 9 + c) = 0) :
    (game_place g r c 0 strict).1 = true ∧
      (game_place g r c 0 strict).2.puzzle (r * 9 + c) = 0 ∧
      (game_place g r c 0 strict).2.notes (r * 9 + c) = 0 ∧
      game_place (game_place g r c 0 strict).2 r c 0 strict
        = (true, (game_place g r c 0 strict).2) := by
  unfold game_place
  simp [GAME_IDX, hfree]

theorem game_place_zero_idempotent_witness :
    demoGame.fixed (0 * 9 + 1) = 0 ∧ demoGame.puzzle (0 * 9 + 1) = 5 ∧
      (game_place demoGame 0 1 0 true).1 = true ∧
      (game_place demoGame 0 1 0 true).2.puzzle (0 * 9 + 1) = 0 ∧
      (game_place demoGame 0 1 0 true).2.notes (0 * 9 + 1) = 0 ∧
      game_place (game_place demoGame 0 1 0 true).2 0 1 0 true
        = (true, (game_place demoGame 0 1 0 true).2) :=
  ⟨by decide, by decide,
    game_place_zero_idempotent demoGame 0 1 true (by decide) (by decide) (by decide)⟩

/-- C9 (fixed cells reject, and the only failures): on a cell whose fixed
flag is set `game_place` returns false for every value and both values of
`strict`; conversely `game_place` returns false only if the cell is fixed, or
the value is non-zero, `strict` is true and `can_place_local` is false. -/
theorem game_place_false_iff (g : Game) (r c : Nat) (v : Int) (strict : Bool)
    (_hr : r < 9) (_hc : c < 9) :
    (g.fixed (r * 9 + c) ≠ 0 → (game_place g r c v strict).1 = false) ∧
    ((game_place g r c v strict).1 = false →
      g.fixed (r * 9 + c) ≠ 0 ∨
        (v ≠ 0 ∧ strict = true ∧ can_place_local g.puzzle r c v = false)) := by
  unfold game_place
  simp only [GAME_IDX]
  by_cases hf : g.fixed (r * 9 + c) = 0
  · by_cases hv : v = 0
    · simp [hf, hv]
    · cases strict <;> cases hcan : can_place_local g.puzzle r c v <;> simp [hf, hv, hcan]
  · simp [hf]

theorem game_place_false_iff_witness :
    (demoFixed.fixed (0 * 9 + 1) ≠ 0 → (game_place demoFixed 0 1 3 false).1 = false) ∧
    ((game_place demoFixed 0 1 3 false).1 = false →
      demoFixed.fixed (0 * 9 + 1) ≠ 0 ∨
        ((3 : Int) ≠ 0 ∧ false = true ∧ can_place_local demoFixed.puzzle 0 1 3 = false)) :=
  game_place_false_iff demoFixed 0 1 3 false (by decide) (by decide)

/-- C10 (strict mode blocks only rule violations): on a non-fixed cell, for v
in 1..9 with `can_place_local` true, a strict `game_place` returns true,
stores v in `puzzle[r*9+c]` and clears `notes[r*9+c]`; no hypothesis relates v
to `solution[r*9+c]`, so wrong-but-legal values are accepted too. -/
theorem game_place_strict_accepts_legal (g : Game) (r c : Nat) (v : Int)
    (_hr : r < 9) (_hc : c < 9) (hv1 : 1 ≤ v) (_hv9 : v ≤ 9)
    (hfree : g.fixed (r * 9 + c) = 0)
    (hcan : can_place_local g.puzzle r c v = true) :
    (game_place g r c v true).1 = true ∧
      (game_place g r c v true).2.puzzle (r * 9 + c) = v ∧
      (game_place g r c v true).2.notes (r * 9 + c) = 0 := by
  have hv0 : v ≠ 0 := by omega
  unfold game_place
  simp [GAME_IDX, hfree, hv0, hcan]

theorem game_place_strict_accepts_legal_witness :
    demoGame.fixed (0 * 9 + 0) = 0 ∧ can_place_local demoGame.puzzle 0 0 3 = true ∧
      (3 : Int) ≠ demoGame.solution (0 * 9 + 0) ∧
      (game_place demoGame 0 0 3 true).1 = true ∧
      (game_place demoGame 0 0 3 true).2.puzzle (0 * 9 + 0) = 3 ∧
      (game_place demoGame 0 0 3 true).2.notes (0 * 9 + 0) = 0 :=
  ⟨by decide, by decide, by decide,
    game_place_strict_accepts_legal demoGame 0 0 3 (by decide) (by decide) (by decide)
      (by decide) (by decide) (by decide)⟩

/-- C11 (hint failures): for r, c in 0..8, `game_give_hint` returns false if
and only if the cell is fixed or `puzzle[r*9+c]` already equals
`solution[r*9+c]`; consequently a second `game_give_hint` on the same cell
right after a successful one returns false. -/
theorem game_give_hint_false_iff (g : Game) (r c : Nat) (_hr : r < 9) (_hc : c < 9) :
    ((game_give_hint g r c).1 = false ↔
      (g.fixed (r * 9 + c) ≠ 0 ∨ g.puzzle (r * 9 + c) = g.solution (r * 9 + c))) ∧
    ((game_give_hint g r c).1 = true →
      (game_give_hint (game_give_hint g r c).2 r c).1 = false) := by
  unfold game_give_hint
  simp only [GAME_IDX]
  by_cases hf : g.fixed (r * 9 + c) = 0
  · by_cases he : g.puzzle (r * 9 + c) = g.solution (r * 9 + c)
    · simp [hf, he]
    · simp [hf, he]
  · simp [hf]

theorem game_give_hint_false_iff_witness :
    (game_give_hint demoGame 0 0).1 = true ∧
    ((game_give_hint demoGame 0 0).1 = false ↔
      (demoGame.fixed (0 * 9 + 0) ≠ 0 ∨
        demoGame.puzzle (0 * 9 + 0) = demoGame.solution (0 * 9 + 0))) ∧
    ((game_give_hint demoGame 0 0).1 = true →
      (game_give_hint (game_give_hint demoGame 0 0).2 0 0).1 = false) :=
  ⟨by decide, game_give_hint_false_iff demoGame 0 0 (by decide) (by decide)⟩

/-- C12 (solved test): `game_is_solved` is true if and only if for every index
i in 0..80 `puzzle[i] != 0` and `puzzle[i] == solution[i]`. -/
theorem game_is_solved_iff (g : Game) :
    game_is_solved g = true ↔
      ∀ i, i < 81 → g.puzzle i ≠ 0 ∧ g.puzzle i = g.solution i := by
  unfold game_is_solved
  simp [List.all_eq_true, NN]

/-- C13 (fails closed): for r, c in 0..8, whenever `game_place` returns false
the session after the call is the session before it, and likewise for
`game_give_hint`. -/
theorem session_fails_closed (g : Game) (r c : Nat) (v : Int) (strict : Bool)
    (_hr : r < 9) (_hc : c < 9) :
    ((game_place g r c v strict).1 = false → (game_place g r c v strict).2 = g) ∧
    ((game_give_hint g r c).1 = false → (game_give_hint g r c).2 = g) := by
  constructor
  · unfold game_place
    simp only [GAME_IDX]
    by_cases hf : g.fixed (r * 9 + c) = 0
    · by_cases hv : v = 0
      · simp [hf, hv]
      · cases strict <;> cases hcan : can_place_local g.puzzle r c v <;> simp [hf, hv, hcan]
    · simp [hf]
  · unfold game_give_hint
    simp only [GAME_IDX]
    by_cases hf : g.fixed (r * 9 + c) = 0
    · by_cases he : g.puzzle (r * 9 + c) = g.solution (r * 9 + c)
      · simp [hf, he]
      · simp [hf, he]
    · simp [hf]

theorem session_fails_closed_witness :
    (game_place demoGame 0 0 5 true).1 = false ∧ (game_give_hint demoGame 0 1).1 = false ∧
    ((game_place demoGame 0 0 5 true).1 = false → (game_place demoGame 0 0 5 true).2 = demoGame) ∧
    ((game_give_hint demoGame 0 0).1 = false → (game_give_hint demoGame 0 0).2 = demoGame) :=
  ⟨by decide, by decide, session_fails_closed demoGame 0 0 5 true (by decide) (by decide)⟩

/-- C14 (frame): for r, c in 0..8, `game_place` and `game_give_hint` leave
`solution` and `fixed` as they are and change no entry of `puzzle` or `notes`
other than the one at index r*9+c.  (`game_is_solved`, `game_has_conflict` and
`game_count_conflicts` take a `const Game *` and contain no store; their
embeddings return a value only.) -/
theorem session_frame (g : Game) (r c : Nat) (v : Int) (strict : Bool)
    (_hr : r < 9) (_hc : c < 9) :
    ((game_place g r c v strict).2.solution = g.solution ∧
      (game_place g r c v strict).2.fixed = g.fixed ∧
      ∀ i, i ≠ r * 9 + c →
        (game_place g r c v strict).2.puzzle i = g.puzzle i ∧
        (game_place g r c v strict).2.notes i = g.notes i) ∧
    ((game_give_hint g r c).2.solution = g.solution ∧
      (game_give_hint g r c).2.fixed = g.fixed ∧
      ∀ i, i ≠ r * 9 + c →
        (game_give_hint g r c).2.puzzle i = g.puzzle i ∧
        (game_give_hint g r c).2.notes i = g.notes i) := by
  constructor
  · unfold game_place
    simp only [GAME_IDX]
    by_cases hf : g.fixed (r * 9 + c) = 0
    · by_cases hv : v = 0
      · simp only [hf, hv, ne_eq, not_true_eq_false, if_false, if_true, true_and]
        intro i hi
        exact ⟨Function.update_noteq hi _ _, Function.update_noteq hi _ _⟩
      · by_cases hs : (strict && !can_place_local g.puzzle r c v) = true
        · simp [hf, hv, hs]
        · simp only [hf, hv, hs, ne_eq, not_true_eq_false, if_false, true_and, Bool.false_eq_true]
          intro i hi
          exact ⟨Function.update_noteq hi _ _, Function.update_noteq hi _ _⟩
    · simp [hf]
  · unfold game_give_hint
    simp only [GAME_IDX]
    by_cases hf : g.fixed (r * 9 + c) = 0
    · by_cases he : g.puzzle (r * 9 + c) = g.solution (r * 9 + c)
      · simp [hf, he]
      · simp only [hf, he, ne_eq, not_true_eq_false, if_false, true_and]
        intro i hi
        exact ⟨Function.update_noteq hi _ _, Function.update_noteq hi _ _⟩
    · simp [hf]

theorem session_frame_witness :
    (game_place demoGame 0 0 3 true).1 = true ∧ (game_give_hint demoGame 0 0).1 = true ∧
    ((game_place demoGame 0 0 3 true).2.solution = demoGame.solution ∧
      (game_place demoGame 0 0 3 true).2.fixed = demoGame.fixed ∧
      ∀ i, i ≠ 0 * 9 + 0 →
        (game_place demoGame 0 0 3 true).2.puzzle i = demoGame.puzzle i ∧
        (game_place demoGame 0 0 3 true).2.notes i = demoGame.notes i) ∧
    ((game_give_hint demoGame 0 0).2.solution = demoGame.solution ∧
      (game_give_hint demoGame 0 0).2.fixed = demoGame.fixed ∧
      ∀ i, i ≠ 0 * 9 + 0 →
        (game_give_hint demoGame 0 0).2.puzzle i = demoGame.puzzle i ∧
        (game_give_hint demoGame 0 0).2.notes i = demoGame.notes i) :=
  ⟨by decide, by decide, session_frame demoGame 0 0 3 true (by decide) (by decide)⟩

theorem fixedOK_place (g : Game) (r c : Nat) (v : Int) (strict : Bool) (h : FixedOK g) :
    FixedOK (game_place g r c v strict).2 := by
  unfold game_place
  simp only [GAME_IDX]
  by_cases hf : g.fixed (r * 9 + c) = 0
  · have hkeep : ∀ (x : Int) (n : Nat → Nat),
        FixedOK { g with puzzle := Function.update g.puzzle (r * 9 + c) x, notes := n } := by
      intro x n i hi hfix
      have hne : i ≠ r * 9 + c := fun heq => hfix (heq ▸ hf)
      have := h i hi hfix
      simp only [Function.update_noteq hne]
      exact this
    by_cases hv : v = 0
    · simp only [hf, hv, ne_eq, not_true_eq_false, if_false, if_true]
      exact hkeep 0 _
    · by_cases hs : (strict && !can_place_local g.puzzle r c v) = true
      · simp only [hf, hv, hs, ne_eq, not_true_eq_false, if_false, if_true]
        exact h
      · simp only [hf, hv, hs, ne_eq, not_true_eq_false, if_false, Bool.false_eq_true]
        exact hkeep v _
  · simp only [hf, ne_eq, not_false_eq_true, if_true]
    exact h

theorem fixedOK_hint (g : Game) (r c : Nat) (h : FixedOK g) :
    FixedOK (game_give_hint g r c).2 := by
  unfold game_give_hint
  simp only [GAME_IDX]
  by_cases hf : g.fixed (r * 9 + c) = 0
  · by_cases he : g.puzzle (r * 9 + c) = g.solution (r * 9 + c)
    · simp only [hf, he, ne_eq, not_true_eq_false, if_false, if_true]
      exact h
    · simp only [hf, he, ne_eq, not_true_eq_false, if_false]
      intro i hi hfix
      have hne : i ≠ r * 9 + c := fun heq => hfix (heq ▸ hf)
      have := h i hi hfix
      simp only [Function.update_noteq hne]
      exact this
  · simp only [hf, ne_eq, not_false_eq_true, if_true]
    exact h

theorem fixedOK_new (rnd : Nat → Nat) (uninit : Board) (g : Game)
    (hg : game_new rnd uninit = some g) : FixedOK g := by
  obtain ⟨puzzle, final, hnew, _, _, _, hext, _⟩ := game_new_spec rnd uninit
  rw [hnew] at hg
  have hgeq : g = fill_game puzzle final := (Option.some.inj hg).symm
  subst hgeq
  intro i hi hfix
  simp only [fill_game] at hfix ⊢
  have hp : puzzle i ≠ 0 := by
    intro h0
    apply hfix
    simp [h0]
  exact ⟨(hext i hi hp).symm, hp⟩

/-- C15 (invariant on givens): the predicate "for every i, `fixed[i]` set
implies `puzzle[i] == solution[i]` and `puzzle[i] != 0`" holds right after
`game_new`, is preserved by every `game_place` and every `game_give_hint` call
with r, c in 0..8, and hence holds in every session reachable in a play
session. -/
theorem fixed_invariant :
    (∀ (rnd : Nat → Nat) (uninit : Board), ∃ g, game_new rnd uninit = some g ∧ FixedOK g) ∧
    (∀ (g : Game) (r c : Nat) (v : Int) (strict : Bool), r < 9 → c < 9 → FixedOK g →
      FixedOK (game_place g r c v strict).2) ∧
    (∀ (g : Game) (r c : Nat), r < 9 → c < 9 → FixedOK g →
      FixedOK (game_give_hint g r c).2) ∧
    (∀ (rnd : Nat → Nat) (uninit : Board) (g : Game), Reachable rnd uninit g → FixedOK g) := by
  refine ⟨?_, ?_, ?_, ?_⟩
  · intro rnd uninit
    obtain ⟨puzzle, final, hnew, _⟩ := game_new_spec rnd uninit
    exact ⟨_, hnew, fixedOK_new rnd uninit _ hnew⟩
  · intro g r c v strict _ _ h
    exact fixedOK_place g r c v strict h
  · intro g r c _ _ h
    exact fixedOK_hint g r c h
  · intro rnd uninit g hreach
    induction hreach with
    | created g hg => exact fixedOK_new rnd uninit g hg
    | placed g r c v strict _ _ _ ih => exact fixedOK_place g r c v strict ih
    | hinted g r c _ _ _ ih => exact fixedOK_hint g r c ih

/-! ## Checker and conflict display -/

/-- C16, as stated, fails (true iff no other cell holds the value): in
`selfBoard` no cell other than (0,0) holds 5, yet `can_place_local` rejects 5
at (0,0), because the scan of the row includes the cell itself. -/
theorem can_place_local_self_counterexample :
    ¬ (can_place_local selfBoard 0 0 5 = true ↔
        ∀ j, j < 81 → j ≠ 0 * 9 + 0 → sameUnit (0 * 9 + 0) j → selfBoard j ≠ 5) := by
  intro h
  have h1 : can_place_local selfBoard 0 0 5 = true := by
    apply h.mpr
    intro j _ hj _
    have hj0 : j ≠ 0 := by simpa using hj
    simp [selfBoard, hj0]
  have h2 : can_place_local selfBoard 0 0 5 = false := by decide
  rw [h1] at h2
  cases h2

/-- C16, amended: for row, col in 0..8 and every value, `can_place_local` is
true if and only if the cell (row, col) itself does not hold the value and no
other cell of the same row, the same column or the containing 3x3 box holds
it. -/
theorem can_place_local_iff_others (b : Board) (row col : Nat) (v : Int)
    (hr : row < 9) (hc : col < 9) :
    can_place_local b row col v = true ↔
      b (row * 9 + col) ≠ v ∧
      ∀ j, j < 81 → j ≠ row * 9 + col → sameUnit (row * 9 + col) j → b j ≠ v := by
  have h1 : (row * 9 + col) / 9 = row := by omega
  have h2 : (row * 9 + col) % 9 = col := by omega
  have h := can_place_local_iff b (row * 9 + col) v (by omega)
  rw [h1, h2] at h
  rw [h]
  constructor
  · intro hall
    exact ⟨hall _ (by omega) (Or.inl rfl), fun j hj _ hs => hall j hj hs⟩
  · rintro ⟨hself, hothers⟩ j hj hs
    by_cases hji : j = row * 9 + col
    · rw [hji]; exact hself
    · exact hothers j hj hji hs

theorem can_place_local_iff_others_witness :
    can_place_local demoGame.puzzle 0 0 3 = true ∧
    (can_place_local demoGame.puzzle 0 0 3 = true ↔
      demoGame.puzzle (0 * 9 + 0) ≠ 3 ∧
      ∀ j, j < 81 → j ≠ 0 * 9 + 0 → sameUnit (0 * 9 + 0) j → demoGame.puzzle j ≠ 3) :=
  ⟨by decide, can_place_local_iff_others demoGame.puzzle 0 0 3 (by decide) (by decide)⟩

/-- The conflict test at cell `idx`, in terms of units. -/
theorem game_has_conflict_idx (g : Game) (idx : Nat) (v : Int) (hidx : idx < 81) :
    game_has_conflict g (idx / 9) (idx % 9) v = true ↔
      v ≠ 0 ∧ ∃ j, j < 81 ∧ j ≠ idx ∧ sameUnit idx j ∧ g.puzzle j = v := by
  unfold game_has_conflict
  by_cases hv : v = 0
  · simp [hv]
  · simp only [hv, if_false, GAME_IDX, ne_eq, not_false_eq_true, true_and]
    by_cases hrow : (List.range 9).any
        (fun c => c != idx % 9 && g.puzzle (idx / 9 * 9 + c) == v) = true
    · rw [if_pos hrow]
      simp only [List.any_eq_true, List.mem_range, Bool.and_eq_true, bne_iff_ne, ne_eq,
        beq_iff_eq] at hrow
      obtain ⟨c, hc, hne, hval⟩ := hrow
      simp only [true_iff]
      exact ⟨idx / 9 * 9 + c, by omega, by omega, Or.inl (by omega), hval⟩
    · rw [if_neg hrow]
      by_cases hcol : (List.range 9).any
          (fun r => r != idx / 9 && g.puzzle (r * 9 + idx % 9) == v) = true
      · rw [if_pos hcol]
        simp only [List.any_eq_true, List.mem_range, Bool.and_eq_true, bne_iff_ne, ne_eq,
          beq_iff_eq] at hcol
        obtain ⟨r, hr, hne, hval⟩ := hcol
        simp only [true_iff]
        exact ⟨r * 9 + idx % 9, by omega, by omega, Or.inr (Or.inl (by omega)), hval⟩
      · rw [if_neg hcol]
        simp only [List.any_eq_true, List.mem_range, Bool.and_eq_true, bne_iff_ne, ne_eq,
          beq_iff_eq, Bool.not_eq_true', Bool.and_eq_false_imp, not_exists, not_and] at hrow hcol
        simp only [List.any_eq_true, List.mem_range, Bool.and_eq_true, Bool.not_eq_true',
          Bool.and_eq_false_imp, beq_iff_eq, beq_eq_false_iff_ne, ne_eq]
        constructor
        · rintro ⟨rr, hrr, cc, hcc, hne, hval⟩
          refine ⟨(idx / 9 / 3 * 3 + rr) * 9 + (idx % 9 / 3 * 3 + cc), by omega, ?_,
            Or.inr (Or.inr ⟨by omega, by omega⟩), hval⟩
          intro heq
          have h1 : idx / 9 / 3 * 3 + rr = idx / 9 := by omega
          exact hne h1 (by omega)
        · rintro ⟨j, hj, hne, hsame, hval⟩
          rcases hsame with h | h | ⟨h1, h2⟩
          · exfalso
            apply hrow (j % 9) (by omega) (by omega)
            have : idx / 9 * 9 + j % 9 = j := by omega
            rw [this]; exact hval
          · exfalso
            apply hcol (j / 9) (by omega) (by omega)
            have : j / 9 * 9 + idx % 9 = j := by omega
            rw [this]; exact hval
          · refine ⟨j / 9 % 3, by omega, j % 9 % 3, by omega, ?_, ?_⟩
            · intro hr1 hc1
              apply hne
              omega
            · have : (idx / 9 / 3 * 3 + j / 9 % 3) * 9 + (idx % 9 / 3 * 3 + j % 9 % 3) = j := by
                omega
              rw [this]; exact hval

/-- C17 (conflict test): for row, col in 0..8, `game_has_conflict` is true if
and only if v is not 0 and some cell other than (row, col) in the same row,
the same column or the same 3x3 box of `puzzle` holds v; the content of cell
(row, col) itself never affects the result. -/
theorem game_has_conflict_iff (g : Game) (row col : Nat) (v : Int)
    (hr : row < 9) (hc : col < 9) :
    (game_has_conflict g row col v = true ↔
      v ≠ 0 ∧ ∃ j, j < 81 ∧ j ≠ row * 9 + col ∧ sameUnit (row * 9 + col) j ∧ g.puzzle j = v) ∧
    (∀ x : Int,
      game_has_conflict { g with puzzle := Function.update g.puzzle (row * 9 + col) x } row col v
        = game_has_conflict g row col v) := by
  have h1 : (row * 9 + col) / 9 = row := by omega
  have h2 : (row * 9 + col) % 9 = col := by omega
  have hiff : ∀ g1 : Game, game_has_conflict g1 row col v = true ↔
      v ≠ 0 ∧ ∃ j, j < 81 ∧ j ≠ row * 9 + col ∧ sameUnit (row * 9 + col) j ∧ g1.puzzle j = v := by
    intro g1
    have h := game_has_conflict_idx g1 (row * 9 + col) v (by omega)
    rw [h1, h2] at h
    exact h
  refine ⟨hiff g, ?_⟩
  intro x
  rw [Bool.eq_iff_iff, hiff, hiff]
  constructor
  · rintro ⟨hv, j, hj, hne, hs, hval⟩
    exact ⟨hv, j, hj, hne, hs, by simpa [Function.update_noteq hne] using hval⟩
  · rintro ⟨hv, j, hj, hne, hs, hval⟩
    exact ⟨hv, j, hj, hne, hs, by simpa [Function.update_noteq hne] using hval⟩

theorem game_has_conflict_iff_witness :
    game_has_conflict clashGame 0 0 5 = true ∧
    ((game_has_conflict clashGame 0 0 5 = true ↔
      (5 : Int) ≠ 0 ∧ ∃ j, j < 81 ∧ j ≠ 0 * 9 + 0 ∧ sameUnit (0 * 9 + 0) j ∧
        clashGame.puzzle j = 5) ∧
    (∀ x : Int,
      game_has_conflict
          { clashGame with puzzle := Function.update clashGame.puzzle (0 * 9 + 0) x } 0 0 5
        = game_has_conflict clashGame 0 0 5)) :=
  ⟨by decide, game_has_conflict_iff clashGame 0 0 5 (by decide) (by decide)⟩

theorem foldl_count_if {α : Type} (P : α → Prop) [DecidablePred P] (l : List α) :
    ∀ init : Int, l.foldl (fun cnt x => if P x then cnt + 1 else cnt) init
      = init + ((l.countP (fun x => decide (P x)) : Nat) : Int) := by
  induction l with
  | nil => intro init; simp
  | cons a l ih =>
    intro init
    rw [List.foldl_cons, ih, List.countP_cons]
    by_cases ha : P a
    · simp only [ha, if_true, decide_True, Nat.cast_add, Nat.cast_one]
      omega
    · simp only [ha, if_false, decide_False, Bool.false_eq_true, Nat.add_zero]

theorem foldl_add_map {α : Type} (f : α → Int) (l : List α) :
    ∀ init : Int, l.foldl (fun cnt x => cnt + f x) init = init + (l.map f).sum := by
  induction l with
  | nil => intro init; simp
  | cons a l ih =>
    intro init
    rw [List.foldl_cons, ih, List.map_cons, List.sum_cons]
    omega

theorem countP_flatMap_sum {α β : Type} (p : β → Bool) (f : α → List β) (l : List α) :
    ((l.flatMap f).countP p : Int) = (l.map (fun a => (((f a).countP p : Nat) : Int))).sum := by
  induction l with
  | nil => simp
  | cons a l ih =>
    rw [List.flatMap_cons, List.countP_append, List.map_cons, List.sum_cons, ← ih]
    push_cast
    rfl

theorem range81_by_rows :
    List.range 81 = (List.range 9).flatMap (fun r => (List.range 9).map (fun c => r * 9 + c)) := by
  decide

/-- The conflict counter counts the cells in conflict. -/
theorem game_count_conflicts_eq (g : Game) :
    game_count_conflicts g
      = (((List.range 81).countP (fun i => decide (InConflict g.puzzle i)) : Nat) : Int) := by
  unfold game_count_conflicts
  have hinner : ∀ (r : Nat) (cnt : Int),
      (List.range 9).foldl (fun cnt c =>
        if g.puzzle (GAME_IDX r c) ≠ 0 ∧
            game_has_conflict g r c (g.puzzle (GAME_IDX r c)) = true then cnt + 1 else cnt) cnt
        = cnt + (((List.range 9).countP (fun c => decide (g.puzzle (GAME_IDX r c) ≠ 0 ∧
            game_has_conflict g r c (g.puzzle (GAME_IDX r c)) = true)) : Nat) : Int) := by
    intro r cnt
    exact foldl_count_if (fun c => g.puzzle (GAME_IDX r c) ≠ 0 ∧
      game_has_conflict g r c (g.puzzle (GAME_IDX r c)) = true) _ cnt
  simp only [hinner]
  rw [foldl_add_map, zero_add, range81_by_rows, countP_flatMap_sum]
  apply congrArg
  apply List.map_congr_left
  intro r hr
  have hr9 : r < 9 := List.mem_range.mp hr
  rw [List.countP_map]
  apply congrArg
  apply List.countP_congr
  intro c hc
  have hc9 : c < 9 := List.mem_range.mp hc
  have h1 : (r * 9 + c) / 9 = r := by omega
  have h2 : (r * 9 + c) % 9 = c := by omega
  have h := game_has_conflict_idx g (r * 9 + c) (g.puzzle (r * 9 + c)) (by omega)
  rw [h1, h2] at h
  simp only [GAME_IDX, Function.comp_apply, decide_eq_true_eq, InConflict]
  rw [h]
  tauto

/-- C18 (conflict count): `game_count_conflicts` equals the number of cells
whose puzzle value is non-zero and also stands in another cell of the same
row, column or 3x3 box; it is 0 exactly when no two distinct filled cells that
share a row, column or box hold the same value, and it never exceeds 81. -/
theorem game_count_conflicts_spec (g : Game) :
    game_count_conflicts g
        = (((List.range 81).filter (fun i => decide (InConflict g.puzzle i))).length : Int) ∧
    (game_count_conflicts g = 0 ↔
      ∀ i, i < 81 → ∀ j, j < 81 → i ≠ j → sameUnit i j → g.puzzle i ≠ 0 →
        g.puzzle i ≠ g.puzzle j) ∧
    game_count_conflicts g ≤ 81 := by
  have heq := game_count_conflicts_eq g
  refine ⟨?_, ?_, ?_⟩
  · rw [heq, List.countP_eq_length_filter]
  · rw [heq]
    constructor
    · intro h0 i hi j hj hij hsame hnz hval
      have h1 : (List.range 81).countP (fun i => decide (InConflict g.puzzle i)) = 0 := by
        exact_mod_cast h0
      rw [List.countP_eq_zero] at h1
      have := h1 i (List.mem_range.mpr hi)
      apply this
      simp only [decide_eq_true_eq, InConflict]
      exact ⟨hnz, j, hj, fun h => hij h.symm, hsame, hval.symm⟩
    · intro hall
      have h1 : (List.range 81).countP (fun i => decide (InConflict g.puzzle i)) = 0 := by
        rw [List.countP_eq_zero]
        intro i hi hc
        simp only [decide_eq_true_eq, InConflict] at hc
        obtain ⟨hnz, j, hj, hne, hsame, hval⟩ := hc
        exact hall i (List.mem_range.mp hi) j hj (fun h => hne h.symm) hsame hnz hval.symm
      rw [h1]
      rfl
  · rw [heq]
    have : (List.range 81).countP (fun i => decide (InConflict g.puzzle i)) ≤ 81 :=
      (List.countP_le_length _).trans (by simp)
    exact_mod_cast this

/-! ## The first-solution search, as specified -/

theorem consistentB_iff (b : Board) : consistentB b = true ↔ Consistent b := by
  unfold consistentB Consistent
  simp only [Bool.and_eq_true, List.all_eq_true, List.mem_range, Bool.or_eq_true,
    decide_eq_true_eq, bne_iff_ne, ne_eq, beq_iff_eq, Bool.not_eq_true', decide_eq_false_iff_not]
  constructor
  · rintro ⟨h1, h2⟩
    refine ⟨h1, ?_⟩
    intro i hi j hj hij hsame hnz
    have := h2 i hi j hj
    tauto
  · rintro ⟨h1, h2⟩
    refine ⟨h1, ?_⟩
    intro i hi j hj
    have := h2 i hi j hj
    tauto

theorem mem_allUnits (u : List Nat) (hu : u ∈ allUnits) :
    (∃ r, r < 9 ∧ u = rowCells r) ∨ (∃ c, c < 9 ∧ u = colCells c) ∨
      (∃ br, br < 3 ∧ ∃ bc, bc < 3 ∧ u = boxCells br bc) := by
  unfold allUnits at hu
  simp only [List.mem_append, List.mem_map, List.mem_flatMap, List.mem_range] at hu
  rcases hu with (⟨r, hr, h⟩ | ⟨c, hc, h⟩) | ⟨br, hbr, bc, hbc, h⟩
  · exact Or.inl ⟨r, hr, h.symm⟩
  · exact Or.inr (Or.inl ⟨c, hc, h.symm⟩)
  · exact Or.inr (Or.inr ⟨br, hbr, bc, hbc, h.symm⟩)

/-- A grid with the Latin property is full and consistent. -/
theorem full_consistent_of_latin (s : Board) (h : Latin s) : Full s ∧ Consistent s := by
  apply latinB_sound
  unfold latinB
  rw [List.all_eq_true]
  intro u hu
  rw [List.all_eq_true]
  intro v hv
  have hocc : occurrences s u v = 1 := by
    rcases mem_allUnits u hu with ⟨r, hr, rfl⟩ | ⟨c, hc, rfl⟩ | ⟨br, hbr, bc, hbc, rfl⟩
    · exact h.1 r hr v hv
    · exact h.2.1 c hc v hv
    · exact h.2.2 br hbr bc hbc v hv
  unfold occurrences at hocc
  have hpos : 0 < u.countP (fun i => s i == v) := by omega
  rw [List.countP_pos_iff] at hpos
  rw [List.any_eq_true]
  exact hpos

/-- The grids the claims call valid completions are the members of `completions`. -/
theorem isCompletion_iff_latin (b s : Board) :
    IsCompletion b s ↔ Full s ∧ Extends b s ∧ Latin s := by
  constructor
  · rintro ⟨hf, hc, he⟩
    exact ⟨hf, he, latin_of_full_consistent s hc hf⟩
  · rintro ⟨hf, he, hl⟩
    exact ⟨hf, (full_consistent_of_latin s hl).2, he⟩

/-- What `rec_first` does on a consistent grid, at the budget of
`unique_solution`: it returns true exactly if a completion exists, and then
`out` holds one. -/
theorem rec_first_consistent (b out : Board) (hcons : Consistent b) :
    ∃ f b1 o1, rec_first (NN + 1) b out = some (f, b1, o1) ∧
      (f = false → b1 = b ∧ o1 = out ∧ ¬ ∃ s, Full s ∧ Extends b s ∧ Latin s) ∧
      (f = true → Full o1 ∧ Extends b o1 ∧ Latin o1) := by
  have hfuel : emptyCount b < NN + 1 := by have := emptyCount_le b; simp only [NN]; omega
  obtain ⟨f, b1, o1, hres, hfalse, htrue⟩ := rec_first_total b out
  refine ⟨f, b1, o1, hres, ?_, ?_⟩
  · intro hf
    subst hf
    obtain ⟨hb1, ho1⟩ := hfalse rfl
    refine ⟨hb1, ho1, ?_⟩
    rintro ⟨s, hs⟩
    have hempty := rec_first_false_empty (NN + 1) b out hfuel hcons b1 o1 hres
    have hmem := ofBoard_mem_completions b s ((isCompletion_iff_latin b s).mpr hs)
    rw [hempty] at hmem
    exact hmem
  · intro hf
    obtain ⟨ho, hext, hfull, hc⟩ := htrue hf
    rw [ho]
    exact ⟨hfull, hext, latin_of_full_consistent b1 (hc hcons) hfull⟩

/-- A grid with an empty cell that has no candidate has no completion. -/
theorem unsat_of_no_candidate (b : Board) (idx : Nat) (hidx : idx < 81) (hz : b idx = 0)
    (hnone : candidates b (idx / 9) (idx % 9) = []) :
    ¬ ∃ s, Full s ∧ Extends b s ∧ Latin s := by
  rintro ⟨s, hs⟩
  have := completion_value_candidate b idx hidx hz s ((isCompletion_iff_latin b s).mpr hs)
  rw [hnone] at this
  cases this

theorem onesBoard_unsat : ¬ ∃ s, Full s ∧ Extends onesBoard s ∧ Latin s := by
  rintro ⟨s, _, hext, hlat⟩
  have h := hlat.1 0 (by decide) 2 (by decide)
  unfold occurrences at h
  have h0 : (rowCells 0).countP (fun i => s i == 2) = 0 := by
    rw [List.countP_eq_zero]
    intro i hi
    have hi81 : i < 81 := (rowCells_isUnit 0 (by decide)).2.2.1 i hi
    have hsi : s i = 1 := hext i hi81 (by simp [onesBoard])
    simp [hsi]
  omega

/-- C19, as stated, fails (false on every unsatisfiable grid with entries in
0..9): `onesBoard` has all entries in 0..9 and no valid completion, yet
`rec_first` returns true on it, because a grid without empty cell is copied
to `out` unchecked. -/
theorem rec_first_ones_counterexample :
    (∀ i, i < 81 → 0 ≤ onesBoard i ∧ onesBoard i ≤ 9) ∧
    (¬ ∃ s, Full s ∧ Extends onesBoard s ∧ Latin s) ∧
    rec_first (NN + 1) onesBoard emptyBoard = some (true, onesBoard, onesBoard) := by
  refine ⟨fun i _ => by simp [onesBoard], onesBoard_unsat, ?_⟩
  have hfull : Full onesBoard := fun i _ => by simp [onesBoard]
  unfold rec_first
  simp [find_mrv_full onesBoard hfull]

/-- C19, amended: for every grid whose filled cells are consistent (entries in
0..9, no two equal filled cells in a row, column or box), `rec_first` returns
false, with board and `out` untouched, whenever there is no fully filled grid
that agrees with it on its non-zero cells and has each of 1..9 exactly once
in every row, column and box; this holds for every recursion budget of at
least `NN + 1`. -/
theorem rec_first_unsat_false (b out : Board) (hcons : Consistent b)
    (hunsat : ¬ ∃ s, Full s ∧ Extends b s ∧ Latin s) :
    ∀ fuel, NN + 1 ≤ fuel → rec_first fuel b out = some (false, b, out) := by
  intro fuel hfuel
  obtain ⟨f, b1, o1, hres, hfalse, htrue⟩ := rec_first_consistent b out hcons
  cases f with
  | true => exact absurd ⟨o1, htrue rfl⟩ hunsat
  | false =>
    obtain ⟨hb1, ho1, _⟩ := hfalse rfl
    rw [hb1, ho1] at hres
    exact rec_first_fuel_mono _ fuel hfuel b out _ hres

theorem deadBoard_consistent : Consistent deadBoard :=
  (consistentB_iff deadBoard).mp (by decide!)

theorem deadBoard_unsat : ¬ ∃ s, Full s ∧ Extends deadBoard s ∧ Latin s :=
  unsat_of_no_candidate deadBoard 8 (by decide) (by decide) (by decide)

theorem rec_first_unsat_false_witness :
    Consistent deadBoard ∧ (¬ ∃ s, Full s ∧ Extends deadBoard s ∧ Latin s) ∧
      ∀ fuel, NN + 1 ≤ fuel → rec_first fuel deadBoard emptyBoard
        = some (false, deadBoard, emptyBoard) :=
  ⟨deadBoard_consistent, deadBoard_unsat,
    rec_first_unsat_false deadBoard emptyBoard deadBoard_consistent deadBoard_unsat⟩

/-- C20 (first solution): for every grid whose filled cells are consistent,
`rec_first` returns, and it returns true if and only if a valid completion
exists; when it returns true the grid written to `out` has no empty cell,
agrees with the input on every filled cell, and has each of 1..9 exactly once
in every row, column and box.  This holds for every recursion budget of at
least `NN + 1`. -/
theorem rec_first_true_iff (b out : Board) (hcons : Consistent b) :
    ∃ f b1 o1, (∀ fuel, NN + 1 ≤ fuel → rec_first fuel b out = some (f, b1, o1)) ∧
      (f = true ↔ ∃ s, Full s ∧ Extends b s ∧ Latin s) ∧
      (f = true → Full o1 ∧ Extends b o1 ∧ Latin o1) := by
  obtain ⟨f, b1, o1, hres, hfalse, htrue⟩ := rec_first_consistent b out hcons
  refine ⟨f, b1, o1, fun fuel hfuel => rec_first_fuel_mono _ fuel hfuel b out _ hres, ?_, htrue⟩
  constructor
  · intro hf
    exact ⟨o1, htrue hf⟩
  · intro hex
    cases f with
    | true => rfl
    | false => exact absurd hex (hfalse rfl).2.2

theorem emptyBoard_consistent : Consistent emptyBoard :=
  ⟨fun i _ => by simp [emptyBoard], fun i _ j _ _ _ hnz => absurd rfl hnz⟩

theorem rec_first_true_iff_witness :
    Consistent emptyBoard ∧
    ∃ f b1 o1, (∀ fuel, NN + 1 ≤ fuel → rec_first fuel emptyBoard onesBoard = some (f, b1, o1)) ∧
      (f = true ↔ ∃ s, Full s ∧ Extends emptyBoard s ∧ Latin s) ∧
      (f = true → Full o1 ∧ Extends emptyBoard o1 ∧ Latin o1) :=
  ⟨emptyBoard_consistent, rec_first_true_iff emptyBoard onesBoard emptyBoard_consistent⟩

/-! ## Search contracts -/

/-- The filled cells of the fallback literal are consistent. -/
theorem safe_consistent : Consistent safe :=
  (consistentB_iff safe).mp (by decide!)

/-- Two completions of a grid with exactly one completion agree on the board. -/
theorem completion_eq_of_ncard_one (b s t : Board) (hs : IsCompletion b s)
    (ht : IsCompletion b t) (h1 : (completions b).ncard = 1) :
    ∀ i, i < 81 → t i = s i := by
  intro i hi
  by_contra hne
  have := two_le_ncard_completions b t s ht hs i hi hne
  omega

/-- A grid has exactly one completion if and only if some completion exists
and every completion agrees with it on the 81 cells. -/
theorem ncard_one_iff_unique (b : Board) :
    (completions b).ncard = 1 ↔
      ∃ s, IsCompletion b s ∧ ∀ t, IsCompletion b t → ∀ i, i < 81 → t i = s i := by
  constructor
  · intro h1
    obtain ⟨f, hf⟩ := Set.ncard_eq_one.mp h1
    have hmem : f ∈ completions b := by rw [hf]; exact Set.mem_singleton f
    have hs : IsCompletion b (toBoard f) := (mem_completions b f).mp hmem
    exact ⟨toBoard f, hs, fun t ht => completion_eq_of_ncard_one b _ t hs ht h1⟩
  · rintro ⟨s, hs, huniq⟩
    rw [Set.ncard_eq_one]
    refine ⟨ofBoard s, ?_⟩
    ext f
    rw [Set.mem_singleton_iff]
    constructor
    · intro hf
      have hfc : IsCompletion b (toBoard f) := (mem_completions b f).mp hf
      apply filling_ext
      intro i hi
      have hr := hs.2.1.1 i hi
      rw [toBoard_ofBoard s i hi hr.1 hr.2]
      exact huniq _ hfc i hi
    · intro hf
      rw [hf]
      exact ofBoard_mem_completions b s hs

/-- C21 (counting search): for every grid whose filled cells are consistent and
every limit of at least 1, `count_limit` returns the smaller of `limit` and the
number of valid completions of the grid, which never exceeds `limit`; the
result is stated without reference to the cell `find_mrv` picks.  This holds
for every recursion budget of at least `NN + 1`. -/
theorem count_limit_min (b : Board) (limit : Int) (fuel : Nat) (hcons : Consistent b)
    (hlimit : 1 ≤ limit) (hfuel : NN + 1 ≤ fuel) :
    count_limit fuel b limit = some (min limit ((completions b).ncard : Int), b) ∧
      min limit ((completions b).ncard : Int) ≤ limit := by
  have he : emptyCount b < fuel := by
    have := emptyCount_le b
    simp only [NN] at hfuel
    omega
  exact ⟨count_limit_count fuel b limit he hcons hlimit, min_le_left _ _⟩

theorem count_limit_min_witness :
    Consistent safe ∧
    (count_limit (NN + 1) safe 2 = some (min 2 ((completions safe).ncard : Int), safe) ∧
      min 2 ((completions safe).ncard : Int) ≤ 2) :=
  ⟨safe_consistent, count_limit_min safe 2 (NN + 1) safe_consistent (by decide) (le_refl _)⟩

/-- C22 (search frame): for every grid, every limit and every recursion budget
of at least `NN + 1`, `count_limit` returns with the board equal to the board
it was called with; `rec_first` returns, on false with board and `out` as they
were, on true with the board equal to the grid written to `out`, which has no
empty cell and keeps the filled cells of the input; and `unique_solution`
returns the outcome of the two searches, each run on the puzzle as passed. -/
theorem search_frame (b out : Board) (limit : Int) (fuel : Nat) (hfuel : NN + 1 ≤ fuel) :
    (∃ n, count_limit fuel b limit = some (n, b)) ∧
    (∃ f b1 o1, rec_first fuel b out = some (f, b1, o1) ∧
      (f = false → b1 = b ∧ o1 = out) ∧
      (f = true → b1 = o1 ∧ Full o1 ∧ Extends b o1)) ∧
    (∃ f b1 o1 n, rec_first (NN + 1) b out = some (f, b1, o1) ∧
      count_limit (NN + 1) b 2 = some (n, b) ∧
      unique_solution b out = some (f && n == 1, o1)) := by
  obtain ⟨n, hn⟩ := count_limit_total b limit
  obtain ⟨n2, hn2⟩ := count_limit_total b 2
  obtain ⟨f, b1, o1, hres, hfalse, htrue⟩ := rec_first_total b out
  refine ⟨⟨n, count_limit_fuel_mono _ fuel hfuel b limit _ hn⟩,
    ⟨f, b1, o1, rec_first_fuel_mono _ fuel hfuel b out _ hres, hfalse, ?_⟩,
    ⟨f, b1, o1, n2, hres, hn2, ?_⟩⟩
  · intro hf
    obtain ⟨ho, hext, hfull, _⟩ := htrue hf
    rw [ho]
    exact ⟨rfl, hfull, hext⟩
  · unfold unique_solution
    rw [hres]
    cases f with
    | false => rfl
    | true => simp only [hn2, Bool.true_and]

theorem search_frame_witness :
    NN + 1 ≤ 100 ∧
    ((∃ n, count_limit 100 deadBoard 2 = some (n, deadBoard)) ∧
    (∃ f b1 o1, rec_first 100 deadBoard emptyBoard = some (f, b1, o1) ∧
      (f = false → b1 = deadBoard ∧ o1 = emptyBoard) ∧
      (f = true → b1 = o1 ∧ Full o1 ∧ Extends deadBoard o1)) ∧
    (∃ f b1 o1 n, rec_first (NN + 1) deadBoard emptyBoard = some (f, b1, o1) ∧
      count_limit (NN + 1) deadBoard 2 = some (n, deadBoard) ∧
      unique_solution deadBoard emptyBoard = some (f && n == 1, o1))) :=
  ⟨by decide, search_frame deadBoard emptyBoard 2 100 (by decide)⟩

/-- C26 (uniqueness test): for every grid whose filled cells are consistent,
`unique_solution` returns, and it returns true if and only if the grid has
exactly one valid completion (one exists and every valid completion agrees
with it on all 81 cells); when it returns true, `out` holds that completion. -/
theorem unique_solution_true_iff (p o : Board) (hcons : Consistent p) :
    ∃ ok out1, unique_solution p o = some (ok, out1) ∧
      (ok = true ↔ (completions p).ncard = 1) ∧
      (ok = true ↔
        ∃ s, IsCompletion p s ∧ ∀ t, IsCompletion p t → ∀ i, i < 81 → t i = s i) ∧
      (ok = true → IsCompletion p out1 ∧
        ∀ t, IsCompletion p t → ∀ i, i < 81 → t i = out1 i) := by
  obtain ⟨out, hout⟩ := unique_solution_iff p o hcons
  obtain ⟨ok, out1, hres, htrue⟩ := unique_solution_spec p o
  have hiff : ok = true ↔ (completions p).ncard = 1 := by
    rw [hout] at hres
    have hok : decide ((completions p).ncard = 1) = ok := by
      have := congrArg (fun r => r.map Prod.fst) hres
      simpa using this
    rw [← hok]
    exact decide_eq_true_iff
  refine ⟨ok, out1, hres, hiff, hiff.trans (ncard_one_iff_unique p), ?_⟩
  intro hok
  obtain ⟨_, hext, hfull, hc⟩ := htrue hok
  have hcomp : IsCompletion p out1 := ⟨hfull, hc hcons, hext⟩
  exact ⟨hcomp, fun t ht => completion_eq_of_ncard_one p out1 t hcomp ht (hiff.mp hok)⟩

theorem unique_solution_true_iff_witness :
    Consistent safe ∧
    ∃ ok out1, unique_solution safe emptyBoard = some (ok, out1) ∧
      (ok = true ↔ (completions safe).ncard = 1) ∧
      (ok = true ↔
        ∃ s, IsCompletion safe s ∧ ∀ t, IsCompletion safe t → ∀ i, i < 81 → t i = s i) ∧
      (ok = true → IsCompletion safe out1 ∧
        ∀ t, IsCompletion safe t → ∀ i, i < 81 → t i = out1 i) :=
  ⟨safe_consistent, unique_solution_true_iff safe emptyBoard safe_consistent⟩

/-! ## Generator and digger contracts -/

/-- The grid `make_solved` writes has the Latin property. -/
theorem make_solved_latin (rnd : Nat → Nat) (k : Nat) : Latin (make_solved rnd k).1 :=
  latin_of_full_consistent _ (make_solved_full_consistent rnd k).2
    (make_solved_full_consistent rnd k).1

/-- What the digger leaves of a full consistent grid has exactly one
completion. -/
theorem remove_post_unique (scratch grid g : Board) (hfull : Full grid)
    (hcons : Consistent grid) (hz : ∀ m, g m = 0 ∨ g m = grid m)
    (hu : g = grid ∨ ∃ out, unique_solution g scratch = some (true, out)) :
    (completions g).ncard = 1 ∧ IsCompletion g grid := by
  have hgc : Consistent g := consistent_of_cleared grid g hz hcons
  have hcomp : IsCompletion g grid := by
    refine ⟨hfull, hcons, ?_⟩
    intro m _ hnz
    rcases hz m with h | h
    · exact absurd h hnz
    · exact h.symm
  refine ⟨?_, hcomp⟩
  rcases hu with h | ⟨out, hout⟩
  · rw [h]
    exact ncard_completions_full grid hfull hcons
  · obtain ⟨out1, hout1⟩ := unique_solution_iff g scratch hgc
    rw [hout] at hout1
    have hd : decide ((completions g).ncard = 1) = true := by
      have := congrArg (fun r => r.map Prod.fst) hout1
      simpa using this.symm
    exact decide_eq_true_iff.mp hd

/-- C24 (digger keeps uniqueness): for every grid with the Latin property and
every stream of `rand()` values, `remove_to_medium` returns a grid in which
every cell is 0 or holds its input value and which has exactly one valid
completion, the input grid. -/
theorem remove_to_medium_unique (grid : Board) (rnd : Nat → Nat) (k : Nat) (scratch : Board)
    (hlatin : Latin grid) :
    ∃ g, remove_to_medium grid rnd k scratch = some g ∧
      (∀ m, g m = 0 ∨ g m = grid m) ∧
      (completions g).ncard = 1 ∧ IsCompletion g grid ∧
      ∀ t, IsCompletion g t → ∀ i, i < 81 → t i = grid i := by
  obtain ⟨hfull, hcons⟩ := full_consistent_of_latin grid hlatin
  obtain ⟨g, hg, hz, hu, _⟩ := remove_to_medium_post grid rnd k scratch
  obtain ⟨h1, hcomp⟩ := remove_post_unique scratch grid g hfull hcons hz hu
  exact ⟨g, hg, hz, h1, hcomp,
    fun t ht => completion_eq_of_ncard_one g grid t hcomp ht h1⟩

theorem remove_to_medium_unique_witness :
    Latin (make_solved rnd39 0).1 ∧
    ∃ g, remove_to_medium (make_solved rnd39 0).1 rnd39 24 emptyBoard = some g ∧
      (∀ m, g m = 0 ∨ g m = (make_solved rnd39 0).1 m) ∧
      (completions g).ncard = 1 ∧ IsCompletion g (make_solved rnd39 0).1 ∧
      ∀ t, IsCompletion g t → ∀ i, i < 81 → t i = (make_solved rnd39 0).1 i :=
  ⟨make_solved_latin rnd39 0,
    remove_to_medium_unique (make_solved rnd39 0).1 rnd39 24 emptyBoard
      (make_solved_latin rnd39 0)⟩

/-- C27 (minimum clue count): for every grid without empty cell and every
stream of `rand()` values, `remove_to_medium` returns a grid with at least 32
non-zero cells. -/
theorem remove_to_medium_min_clues (grid : Board) (rnd : Nat → Nat) (k : Nat)
    (scratch : Board) (hfull : Full grid) :
    ∃ g, remove_to_medium grid rnd k scratch = some g ∧ 32 ≤ clueCount g := by
  obtain ⟨g, hg, _, _, hc⟩ := remove_to_medium_post grid rnd k scratch
  refine ⟨g, hg, ?_⟩
  have h32 : (32 : Int) ≤ clueCount g := by
    apply hc
    · rw [clueCount_full grid hfull]; norm_num
    · norm_num
  omega

theorem remove_to_medium_min_clues_witness :
    Full (make_solved rnd39 0).1 ∧
    ∃ g, remove_to_medium (make_solved rnd39 0).1 rnd39 24 emptyBoard = some g ∧
      32 ≤ clueCount g :=
  ⟨(make_solved_full_consistent rnd39 0).1,
    remove_to_medium_min_clues (make_solved rnd39 0).1 rnd39 24 emptyBoard
      (make_solved_full_consistent rnd39 0).1⟩

/-- C29 (fallback never taken): for every stream of `rand()` values, the
uniqueness test `game_new` runs on the grid left by `remove_to_medium` returns
true, so the session holds that grid as its puzzle and not the fallback
literal, and its `solution` equals the grid of `make_solved` in all 81 cells. -/
theorem game_new_no_fallback (rnd : Nat → Nat) (uninit : Board) :
    ∃ puzzle final_solution g,
      remove_to_medium (make_solved rnd 0).1 rnd (make_solved rnd 0).2 uninit = some puzzle ∧
      unique_solution puzzle uninit = some (true, final_solution) ∧
      game_new rnd uninit = some g ∧ g.puzzle = puzzle ∧ g.solution = final_solution ∧
      ∀ i, i < 81 → g.solution i = (make_solved rnd 0).1 i := by
  obtain ⟨puzzle, final, hnew, hdig, hun, _, hext, hfull, hcons, _⟩ := game_new_spec rnd uninit
  obtain ⟨hfullS, hconsS⟩ := make_solved_full_consistent rnd 0
  obtain ⟨g, hg, hz, hu, _⟩ :=
    remove_to_medium_post (make_solved rnd 0).1 rnd (make_solved rnd 0).2 uninit
  have hpg : puzzle = g := by
    rw [hdig] at hg
    exact Option.some.inj hg
  subst hpg
  obtain ⟨h1, hcomp⟩ := remove_post_unique uninit _ puzzle hfullS hconsS hz hu
  refine ⟨puzzle, final, fill_game puzzle final, hdig, hun, hnew, rfl, rfl, ?_⟩
  intro i hi
  exact completion_eq_of_ncard_one puzzle _ final hcomp ⟨hfull, hcons, hext⟩ h1 i hi

/-! ## Identity shuffles -/

theorem shuffle_loop_id {α : Type} (rnd : Nat → Nat) :
    ∀ (i : Nat) (a : Nat → α) (k : Nat),
      (∀ m, m < i → rnd (k + m) % (i + 1 - m) = i - m) →
      shuffle_loop rnd i a k = (a, k + i) := by
  intro i
  induction i with
  | zero => intro a k _; rfl
  | succ i ih =>
    intro a k h
    have h0 : rnd k % (i + 1 + 1) = i + 1 := by
      have := h 0 (by omega)
      simpa using this
    unfold shuffle_loop
    simp only [h0, Function.update_eq_self]
    rw [ih a (k + 1)]
    · congr 1
      omega
    · intro m hm
      have := h (m + 1) (by omega)
      have e1 : k + (m + 1) = k + 1 + m := by omega
      have e2 : i + 1 + 1 - (m + 1) = i + 1 - m := by omega
      have e3 : i + 1 - (m + 1) = i - m := by omega
      rw [e1, e2, e3] at this
      exact this

/-- A shuffle whose draws are identity draws leaves the array as it is. -/
theorem shuffle_id {α : Type} (rnd : Nat → Nat) (a : Nat → α) (n k : Nat)
    (h : IdentityDraws rnd k n) : shuffle a n rnd k = (a, k + (n - 1)) := by
  unfold shuffle
  apply shuffle_loop_id
  intro m hm
  have := h m (by omega)
  have e1 : n - 1 + 1 - m = n - m := by omega
  rw [e1]
  exact this

theorem fill_lines_id (rnd : Nat → Nat) (k : Nat) (h0 : IdentityDraws rnd k 3)
    (h1 : IdentityDraws rnd (k + 2) 3) (h2 : IdentityDraws rnd (k + 4) 3) :
    fill_lines rnd (fun i => i) [0, 1, 2] (fun b i => 3 * b + i) (fun i => i) 0 k
      = (fun i => i, k + 6) := by
  simp only [fill_lines]
  rw [shuffle_id rnd _ 3 k h0]
  simp only [Function.update_eq_self]
  rw [shuffle_id rnd _ 3 (k + (3 - 1)) h1]
  simp only [Function.update_eq_self]
  rw [shuffle_id rnd _ 3 (k + (3 - 1) + (3 - 1)) h2]
  simp only [Function.update_eq_self]

/-- With identity shuffles `make_solved` writes the base pattern and uses 24
values of `rand()`. -/
theorem make_solved_id (rnd : Nat → Nat) (k : Nat) (h : AllIdentity rnd k) :
    (make_solved rnd k).2 = k + 24 ∧
    ∀ idx, (make_solved rnd k).1 idx
      = (((3 * (idx / 9) + idx / 9 / 3 + idx % 9) % 9 : Nat) : Int) + 1 := by
  obtain ⟨h3, h9⟩ := h
  have e0 := h3 0 (by omega)
  have e1 := h3 1 (by omega)
  have e2 := h3 2 (by omega)
  have e3 := h3 3 (by omega)
  have e4 := h3 4 (by omega)
  have e5 := h3 5 (by omega)
  have e6 := h3 6 (by omega)
  have e7 := h3 7 (by omega)
  simp only [Nat.mul_zero, Nat.add_zero, Nat.mul_one] at e0 e1
  have hband : shuffle (fun i : Nat => i) 3 rnd k = (fun i => i, k + 2) := shuffle_id rnd _ 3 k e0
  have hrows := fill_lines_id rnd (k + 2) e1 (by simpa [Nat.add_assoc] using e2)
    (by simpa [Nat.add_assoc] using e3)
  have hstack : shuffle (fun i : Nat => i) 3 rnd (k + 2 + 6) = (fun i => i, k + 2 + 6 + 2) :=
    shuffle_id rnd _ 3 _ (by simpa [Nat.add_assoc] using e4)
  have hcols := fill_lines_id rnd (k + 2 + 6 + 2) (by simpa [Nat.add_assoc] using e5)
    (by simpa [Nat.add_assoc] using e6) (by simpa [Nat.add_assoc] using e7)
  have hnums : shuffle (fun i : Nat => (i : Int) + 1) 9 rnd (k + 2 + 6 + 2 + 6)
      = (fun i : Nat => (i : Int) + 1, k + 2 + 6 + 2 + 6 + 8) :=
    shuffle_id rnd _ 9 _ (by simpa [Nat.add_assoc] using h9)
  unfold make_solved
  simp only [hband, hrows, hstack, hcols, hnums]
  refine ⟨?_, ?_⟩
  · trivial
  intro idx
  have hmul : idx / 9 * 3 = 3 * (idx / 9) := by omega
  rw [hmul]

theorem rndId_draws (k n : Nat) (hn : n ≤ 10) : IdentityDraws rndId k n := by
  intro m hm
  show 2519 % (n - m) = n - 1 - m
  have h1 : n - m ≤ 10 := by omega
  have h2 : 2 ≤ n - m := by omega
  have h3 : n - 1 - m = n - m - 1 := by omega
  rw [h3]
  generalize n - m = d at h1 h2
  interval_cases d <;> rfl

theorem rndId_allIdentity (k : Nat) : AllIdentity rndId k :=
  ⟨fun _ _ => rndId_draws _ 3 (by omega), rndId_draws _ 9 (by omega)⟩


/-- C23 (generator): for every stream of `rand()` values, every cell of the
grid `make_solved` writes is in 1..9 and every row, column and 3x3 box holds
each of 1..9 exactly once; when all its shuffles are the identity, the grid is
the base pattern `(3*row + row/3 + col) mod 9 + 1`. -/
theorem make_solved_latin_base (rnd : Nat → Nat) (k : Nat) :
    (∀ i, i < 81 → 1 ≤ (make_solved rnd k).1 i ∧ (make_solved rnd k).1 i ≤ 9) ∧
    Latin (make_solved rnd k).1 ∧
    (AllIdentity rnd k → ∀ row, row < 9 → ∀ col, col < 9 →
      (make_solved rnd k).1 (GAME_IDX row col)
        = (((3 * row + row / 3 + col) % 9 : Nat) : Int) + 1) := by
  obtain ⟨hfull, hcons⟩ := make_solved_full_consistent rnd k
  refine ⟨?_, latin_of_full_consistent _ hcons hfull, ?_⟩
  · intro i hi
    have h1 := hcons.1 i hi
    have h2 := hfull i hi
    omega
  · intro hid row hrow col hcol
    rw [(make_solved_id rnd k hid).2]
    have e1 : GAME_IDX row col / 9 = row := by unfold GAME_IDX; omega
    have e2 : GAME_IDX row col % 9 = col := by unfold GAME_IDX; omega
    rw [e1, e2]

theorem make_solved_latin_base_witness :
    AllIdentity rndId 0 ∧
    ∀ row, row < 9 → ∀ col, col < 9 →
      (make_solved rndId 0).1 (GAME_IDX row col)
        = (((3 * row + row / 3 + col) % 9 : Nat) : Int) + 1 :=
  ⟨rndId_allIdentity 0, (make_solved_latin_base rndId 0).2.2 (rndId_allIdentity 0)⟩

/-! ## Visiting order and partner cell of the digger -/

/-- The partner cell `GAME_IDX(8 - r, 8 - c)` of cell `i` is cell `80 - i`. -/
theorem partner_eq (i : Nat) (hi : i < 81) :
    GAME_IDX (9 - 1 - i / 9) (9 - 1 - i % 9) = 80 - i := by
  unfold GAME_IDX
  omega

/-- The shuffled visiting order `pos` only holds cell indices. -/
theorem shuffle_pos_lt (rnd : Nat → Nat) (s : Nat) (k : Nat) (hk : k < 81) :
    (shuffle (fun i => i) NN rnd s).1 k < 81 := by
  obtain ⟨σ, hinj, hfix, heq⟩ := shuffle_isShuffleOf (fun i : Nat => i) NN (by decide) rnd s
  rw [heq]
  exact lt_of_injective_fix σ 81 hinj hfix k hk

/-- The digger loop keeps every property of the grid that clearing a visited
cell together with its partner keeps. -/
theorem remove_loop_invariant (rnd : Nat → Nat) (scratch : Board) (pos : Nat → Nat)
    (P : Board → Prop) :
    ∀ (ks : List Nat) (grid : Board) (clues : Int) (s : Nat),
      (∀ k, k ∈ ks → ∀ g : Board, P g →
        P (if GAME_IDX (9 - 1 - pos k / 9) (9 - 1 - pos k % 9) ≠ pos k then
            Function.update (Function.update g (pos k) 0)
              (GAME_IDX (9 - 1 - pos k / 9) (9 - 1 - pos k % 9)) 0
          else Function.update g (pos k) 0)) →
      P grid → ∃ g, remove_loop rnd scratch pos ks grid clues s = some g ∧ P g := by
  intro ks
  induction ks with
  | nil =>
    intro grid clues s _ hP
    exact ⟨grid, rfl, hP⟩
  | cons k ks ih =>
    intro grid clues s hstep hP
    have hstep1 : ∀ k1, k1 ∈ ks → ∀ g : Board, P g →
        P (if GAME_IDX (9 - 1 - pos k1 / 9) (9 - 1 - pos k1 % 9) ≠ pos k1 then
            Function.update (Function.update g (pos k1) 0)
              (GAME_IDX (9 - 1 - pos k1 / 9) (9 - 1 - pos k1 % 9)) 0
          else Function.update g (pos k1) 0) :=
      fun k1 hk1 => hstep k1 (List.mem_cons_of_mem k hk1)
    have hclear := hstep k (List.mem_cons_self k ks) grid hP
    unfold remove_loop
    simp only
    generalize hj : GAME_IDX (9 - 1 - pos k / 9) (9 - 1 - pos k % 9) = j at hclear
    by_cases hskip : grid (pos k) = 0 ∧ grid j = 0
    · rw [if_pos hskip]
      exact ih grid clues s hstep1 hP
    · rw [if_neg hskip]
      obtain ⟨ok, out, hres, _⟩ := unique_solution_spec
        (if j ≠ pos k then Function.update (Function.update grid (pos k) 0) j 0
          else Function.update grid (pos k) 0) scratch
      rw [hres]
      simp only
      by_cases hrevert : (!ok || decide (clues - (if j = pos k then 1 else 2) < 32)) = true
      · rw [if_pos hrevert, restore_eq]
        exact ih grid clues s hstep1 hP
      · rw [if_neg hrevert]
        by_cases hmax : clues - (if j = pos k then 1 else 2) ≤ 38
        · rw [if_pos hmax]
          by_cases hstop : rnd s % 3 = 0
          · rw [if_pos hstop]
            exact ⟨_, rfl, hclear⟩
          · rw [if_neg hstop]
            exact ih _ _ _ hstep1 hclear
        · rw [if_neg hmax]
          exact ih _ _ _ hstep1 hclear

/-- Clearing a cell together with its partner keeps the pattern symmetric. -/
theorem pointSymmetric_cleared (g : Board) (i : Nat) (hi : i < 81) (hs : PointSymmetric g) :
    PointSymmetric (if 80 - i ≠ i then Function.update (Function.update g i 0) (80 - i) 0
      else Function.update g i 0) := by
  intro m hm
  have hsm := hs m hm
  by_cases hji : 80 - i ≠ i
  · rw [if_pos hji]
    simp only [Function.update_apply]
    by_cases h1 : m = 80 - i
    · have h2 : 80 - m = i := by omega
      have hne : i ≠ 80 - i := fun h => hji h.symm
      rw [h2, h1]
      simp [hne]
    · by_cases h2 : m = i
      · have h3 : 80 - m = 80 - i := by omega
        simp [h2]
      · have h3 : 80 - m ≠ 80 - i := by omega
        have h4 : 80 - m ≠ i := by omega
        simp only [h1, h2, h3, h4, if_false]
        exact hsm
  · rw [if_neg hji]
    have hi40 : i = 40 := by omega
    subst hi40
    simp only [Function.update_apply]
    by_cases h2 : m = 40
    · subst h2
      simp
    · have h4 : 80 - m ≠ 40 := by omega
      simp only [h2, h4, if_false]
      exact hsm

/-- C28 (point symmetry): for every grid without empty cell and every stream
of `rand()` values, `remove_to_medium` returns a grid in which, for every cell
index i in 0..80, cell i is empty if and only if cell 80 - i is empty. -/
theorem remove_to_medium_symmetric (grid : Board) (rnd : Nat → Nat) (k : Nat)
    (scratch : Board) (hfull : Full grid) :
    ∃ g, remove_to_medium grid rnd k scratch = some g ∧
      ∀ i, i < 81 → (g i = 0 ↔ g (80 - i) = 0) := by
  unfold remove_to_medium
  apply remove_loop_invariant rnd scratch _ PointSymmetric
  · intro k1 hk1 g hg
    have hlt := shuffle_pos_lt rnd k k1 (by simpa [NN] using List.mem_range.mp hk1)
    rw [partner_eq _ hlt]
    exact pointSymmetric_cleared g _ hlt hg
  · intro i hi
    have h1 := hfull i hi
    have h2 := hfull (80 - i) (by omega)
    exact ⟨fun h => absurd h h1, fun h => absurd h h2⟩

theorem remove_to_medium_symmetric_witness :
    Full (make_solved rnd39 0).1 ∧
    ∃ g, remove_to_medium (make_solved rnd39 0).1 rnd39 24 emptyBoard = some g ∧
      ∀ i, i < 81 → (g i = 0 ↔ g (80 - i) = 0) :=
  ⟨(make_solved_full_consistent rnd39 0).1,
    remove_to_medium_symmetric (make_solved rnd39 0).1 rnd39 24 emptyBoard
      (make_solved_full_consistent rnd39 0).1⟩

/-! ## The first removal of the digger -/

/-- A completion that agrees with a full consistent grid on all other cells of
some unit through cell `x` agrees with it on `x` too. -/
theorem forced_in_unit (grid t : Board) (hfull : Full grid) (hcons : Consistent grid)
    (htfull : Full t) (htcons : Consistent t) (cells : List Nat) (hu : IsUnit cells)
    (x : Nat) (hx : x ∈ cells) (hagree : ∀ y, y ∈ cells → y ≠ x → t y = grid y) :
    t x = grid x := by
  have hx81 : x < 81 := hu.2.2.1 x hx
  have hr := htcons.1 x hx81
  have hnz := htfull x hx81
  have hv : t x ∈ digits := mem_digits_of_range _ (by omega) hr.2
  have hocc := occurrences_unit grid cells hu hcons hfull (t x) hv
  unfold occurrences at hocc
  have hpos : 0 < cells.countP (fun i => grid i == t x) := by omega
  rw [List.countP_pos_iff] at hpos
  obtain ⟨y, hy, hyv⟩ := hpos
  have hyv2 : grid y = t x := by simpa using hyv
  by_cases hyx : y = x
  · rw [← hyv2, hyx]
  · exfalso
    have h1 : t y = t x := by rw [hagree y hy hyx, hyv2]
    have hxy : x ≠ y := fun h => hyx h.symm
    exact htcons.2 x hx81 y (hu.2.2.1 y hy) hxy (hu.2.2.2 x hx y hy) hnz h1.symm

theorem mem_rowCells (x : Nat) : x ∈ rowCells (x / 9) := by
  unfold rowCells
  rw [List.mem_map]
  exact ⟨x % 9, List.mem_range.mpr (Nat.mod_lt _ (by decide)), by omega⟩

theorem mem_colCells (x : Nat) (hx : x < 81) : x ∈ colCells (x % 9) := by
  unfold colCells
  rw [List.mem_map]
  exact ⟨x / 9, List.mem_range.mpr (by omega), by omega⟩

theorem rowCells_div (r y : Nat) (hy : y ∈ rowCells r) : y / 9 = r := by
  unfold rowCells at hy
  rw [List.mem_map] at hy
  obtain ⟨c, hc, rfl⟩ := hy
  have := List.mem_range.mp hc
  omega

theorem colCells_mod (c y : Nat) (hy : y ∈ colCells c) (hc : c < 9) : y % 9 = c := by
  unfold colCells at hy
  rw [List.mem_map] at hy
  obtain ⟨r, _, rfl⟩ := hy
  omega

/-- Removing one cell and its partner from a full consistent grid leaves a grid
with exactly one completion: each of the two cells is alone in its row, or
alone in its column. -/
theorem pair_removal_unique (grid : Board) (hfull : Full grid) (hcons : Consistent grid)
    (i : Nat) (hi : i < 81) :
    (completions (if 80 - i ≠ i then Function.update (Function.update grid i 0) (80 - i) 0
      else Function.update grid i 0)).ncard = 1 := by
  have hmask := cleared_eq_mask grid [] i (80 - i)
  rw [mask_nil] at hmask
  rw [hmask, ncard_one_iff_unique]
  refine ⟨grid, isCompletion_mask grid hfull hcons _, ?_⟩
  rintro t ⟨htfull, htcons, htext⟩
  -- outside the two cleared cells the completion keeps the clue
  have hout : ∀ y, y < 81 → y ≠ i → y ≠ 80 - i → t y = grid y := by
    intro y hy h1 h2
    have hm : mask grid [80 - i, i] y = grid y := by
      unfold mask
      rw [if_neg (by simp [h1, h2])]
    rw [← hm]
    exact htext y hy (by rw [hm]; exact hfull y hy)
  -- a cleared cell is forced by its row if the rows differ, else by its column
  have hforce : ∀ x, x < 81 → ∀ z, z = 80 - x → (x = i ∨ x = 80 - i) → (z = i ∨ z = 80 - i) →
      t x = grid x := by
    intro x hx z hz hxi hzi
    by_cases hrow : x / 9 = 4
    · apply forced_in_unit grid t hfull hcons htfull htcons (colCells (x % 9))
        (colCells_isUnit _ (Nat.mod_lt _ (by decide))) x (mem_colCells x hx)
      intro y hy hyx
      have hmod := colCells_mod _ y hy (Nat.mod_lt _ (by decide))
      have hy81 : y < 81 := (colCells_isUnit _ (Nat.mod_lt x (by decide : 0 < 9))).2.2.1 y hy
      apply hout y hy81
      · rcases hxi with h | h <;> omega
      · rcases hxi with h | h <;> omega
    · apply forced_in_unit grid t hfull hcons htfull htcons (rowCells (x / 9))
        (rowCells_isUnit _ (by omega)) x (mem_rowCells x)
      intro y hy hyx
      have hdiv := rowCells_div _ y hy
      have hy81 : y < 81 := (rowCells_isUnit (x / 9) (by omega)).2.2.1 y hy
      apply hout y hy81
      · rcases hxi with h | h <;> omega
      · rcases hxi with h | h <;> omega
  intro m hm
  by_cases h1 : m = i
  · exact hforce m hm (80 - m) rfl (Or.inl h1) (Or.inr (by rw [h1]))
  · by_cases h2 : m = 80 - i
    · exact hforce m hm (80 - m) rfl (Or.inr h2) (Or.inl (by omega))
    · exact hout m hm h1 h2

/-- From a full consistent grid with the counter at 81, the digger commits the
first removal it tries: the first visited cell is empty in the grid it leaves. -/
theorem remove_loop_first_commit (rnd : Nat → Nat) (scratch : Board) (pos : Nat → Nat)
    (k : Nat) (ks : List Nat) (grid : Board) (s : Nat) (hfull : Full grid)
    (hcons : Consistent grid) (hk : pos k < 81) :
    ∃ g, remove_loop rnd scratch pos (k :: ks) grid 81 s = some g ∧ g (pos k) = 0 := by
  have huniq := pair_removal_unique grid hfull hcons (pos k) hk
  have hzero : (if 80 - pos k ≠ pos k then
      Function.update (Function.update grid (pos k) 0) (80 - pos k) 0
      else Function.update grid (pos k) 0) (pos k) = 0 := by
    by_cases hji : 80 - pos k ≠ pos k
    · rw [if_pos hji, Function.update_noteq (fun h => hji h.symm), Function.update_same]
    · rw [if_neg hji, Function.update_same]
  have hc2 := consistent_of_cleared grid _ (cleared_cells grid (pos k) (80 - pos k)) hcons
  obtain ⟨out, hout⟩ := unique_solution_iff _ scratch hc2
  rw [huniq] at hout
  unfold remove_loop
  simp only
  rw [partner_eq _ hk]
  have hskip : ¬ (grid (pos k) = 0 ∧ grid (80 - pos k) = 0) := fun h => hfull _ hk h.1
  rw [if_neg hskip, hout]
  simp only [decide_True, Bool.not_true, Bool.false_or]
  have hdelta : ¬ ((81 : Int) - (if 80 - pos k = pos k then 1 else 2) < 32) := by
    split_ifs <;> omega
  have hmax : ¬ ((81 : Int) - (if 80 - pos k = pos k then 1 else 2) ≤ 38) := by
    split_ifs <;> omega
  rw [if_neg (by simpa using hdelta), if_neg hmax]
  obtain ⟨g, hg, hz, _⟩ := remove_loop_post rnd scratch pos ks
    (if 80 - pos k ≠ pos k then
      Function.update (Function.update grid (pos k) 0) (80 - pos k) 0
      else Function.update grid (pos k) 0)
    (81 - (if 80 - pos k = pos k then 1 else 2)) s
  refine ⟨g, hg, ?_⟩
  rcases hz (pos k) with h | h
  · exact h
  · rw [h]; exact hzero

/-- C25 (fresh game is not solved): for every stream of `rand()` values,
`game_new` returns a session with a cell that is empty and not fixed, and
`game_is_solved` returns false on it. -/
theorem game_new_not_solved (rnd : Nat → Nat) (uninit : Board) :
    ∃ g, game_new rnd uninit = some g ∧
      (∃ i, i < 81 ∧ g.puzzle i = 0 ∧ g.fixed i = 0) ∧ game_is_solved g = false := by
  obtain ⟨puzzle, final, hnew, hdig, _⟩ := game_new_spec rnd uninit
  obtain ⟨hfullS, hconsS⟩ := make_solved_full_consistent rnd 0
  have hrange : List.range NN = 0 :: List.range' 1 80 := by decide
  have hlt := shuffle_pos_lt rnd (make_solved rnd 0).2 0 (by decide)
  obtain ⟨g, hg, hz⟩ := remove_loop_first_commit rnd uninit
    (shuffle (fun i => i) NN rnd (make_solved rnd 0).2).1 0 (List.range' 1 80)
    (make_solved rnd 0).1 (shuffle (fun i : Nat => i) NN rnd (make_solved rnd 0).2).2
    hfullS hconsS hlt
  unfold remove_to_medium at hdig
  simp only [hrange] at hdig
  rw [hg] at hdig
  have hpg : g = puzzle := Option.some.inj hdig
  subst hpg
  refine ⟨fill_game g final, hnew, ⟨_, hlt, hz, ?_⟩, ?_⟩
  · simp only [fill_game]
    rw [if_neg (by simpa using hz)]
  · cases hsolved : game_is_solved (fill_game g final) with
    | false => rfl
    | true =>
      exfalso
      unfold game_is_solved at hsolved
      rw [List.all_eq_true] at hsolved
      have := hsolved _ (List.mem_range.mpr (show _ < NN from hlt))
      simp only [fill_game] at this
      rw [hz] at this
      simp at this

/-! ## The fallback literal -/

theorem certSafe_count : certCount certSafe safe = some 1 := by
  decide!

theorem safe_clues : clueCount safe = 30 := by
  decide!

/-- C30 (fallback literal): the literal `safe` of `game_new` has exactly 30
non-zero cells and its filled cells are consistent; `count_limit` with limit 2
returns 1 on it, for every recursion budget of at least `NN + 1`, and
`unique_solution` returns true on it, writing a grid that keeps the clues and
has each of 1..9 exactly once in every row, column and box. -/
theorem safe_known_good (o : Board) :
    clueCount safe = 30 ∧ Consistent safe ∧
    (∀ fuel, NN + 1 ≤ fuel → count_limit fuel safe 2 = some (1, safe)) ∧
    ∃ out, unique_solution safe o = some (true, out) ∧ Extends safe out ∧ Latin out := by
  have h1 : (completions safe).ncard = 1 :=
    certCount_sound certSafe safe 1 certSafe_count safe_consistent
  obtain ⟨out, hout⟩ := unique_solution_iff safe o safe_consistent
  rw [h1] at hout
  obtain ⟨ok, out1, hres, htrue⟩ := unique_solution_spec safe o
  rw [hout] at hres
  have hok : ok = true := by
    have := congrArg (fun r => r.map Prod.fst) hres
    simpa using this.symm
  have hout1 : out1 = out := by
    have := congrArg (fun r => r.map Prod.snd) hres
    simpa using this.symm
  subst hok
  subst hout1
  obtain ⟨hcount, hext, hfull, hc⟩ := htrue rfl
  refine ⟨safe_clues, safe_consistent,
    fun fuel hfuel => count_limit_fuel_mono _ fuel hfuel safe 2 _ hcount,
    out1, by simpa using hout, hext, latin_of_full_consistent out1 (hc safe_consistent) hfull⟩

/-! ## The shuffle as a permutation of indices -/

theorem shuffle_loop_snd {α : Type} (rnd : Nat → Nat) :
    ∀ (i : Nat) (a : Nat → α) (k : Nat), (shuffle_loop rnd i a k).2 = k + i := by
  intro i
  induction i with
  | zero => intro a k; rfl
  | succ i ih =>
    intro a k
    unfold shuffle_loop
    simp only
    rw [ih]
    omega

/-- Shuffling commutes with reading the entries through a map: which entries
are swapped does not depend on their values. -/
theorem shuffle_loop_map {α β : Type} (rnd : Nat → Nat) (f : β → α) :
    ∀ (i : Nat) (b : Nat → β) (k : Nat),
      (shuffle_loop rnd i (f ∘ b) k).1 = f ∘ (shuffle_loop rnd i b k).1 := by
  intro i
  induction i with
  | zero => intro b k; rfl
  | succ i ih =>
    intro b k
    have h1 : shuffle_loop rnd (i + 1) (f ∘ b) k
        = shuffle_loop rnd i (f ∘ Function.update
            (Function.update b (i + 1) (b (rnd k % (i + 1 + 1))))
            (rnd k % (i + 1 + 1)) (b (i + 1))) (k + 1) := by
      conv_lhs => unfold shuffle_loop
      simp only [Function.comp_update, Function.comp_apply]
    have h2 : shuffle_loop rnd (i + 1) b k
        = shuffle_loop rnd i (Function.update
            (Function.update b (i + 1) (b (rnd k % (i + 1 + 1))))
            (rnd k % (i + 1 + 1)) (b (i + 1))) (k + 1) := by
      conv_lhs => unfold shuffle_loop
    rw [h1, h2, ih]

/-- The shuffle of any array is the array read through the shuffle of the
identity array. -/
theorem shuffle_loop_comp {α : Type} (rnd : Nat → Nat) (i : Nat) (a : Nat → α) (k : Nat) :
    (shuffle_loop rnd i a k).1 = a ∘ (shuffle_loop rnd i (fun m => m) k).1 :=
  shuffle_loop_map rnd a i (fun m => m) k

/-- The values of a list of distinct indices below `n`, read through an
injective map into the indices below `n`, are a rearrangement. -/
theorem map_perm_of_injective {α : Type} (a : Nat → α) (σ : Nat → Nat) (n : Nat)
    (hinj : Function.Injective σ) (hlt : ∀ m, m < n → σ m < n) :
    ((List.range n).map (a ∘ σ)).Perm ((List.range n).map a) := by
  have hnd : ((List.range n).map σ).Nodup := (List.nodup_range n).map hinj
  have hsub : (List.range n).map σ ⊆ List.range n := by
    intro x hx
    rcases List.mem_map.mp hx with ⟨m, hm, rfl⟩
    exact List.mem_range.mpr (hlt m (List.mem_range.mp hm))
  have hperm : ((List.range n).map σ).Perm (List.range n) :=
    (List.subperm_of_subset hnd hsub).perm_of_length_le (by simp)
  have := hperm.map a
  rwa [List.map_map] at this

/-- C31 (shuffle): for every integer array, every length n and every stream of
`rand()` values, `shuffle` rearranges the first n entries by a permutation of
the indices 0..n-1 that does not depend on the entries: entry m of the result
is entry σ(m) of the input with σ(m) below n, entries from n on stay as they
are, the first n entries are the same multiset as before, and for n at most 1
nothing changes.  The shuffle uses n - 1 values of `rand()`. -/
theorem shuffle_permutes (a : Nat → Int) (n : Nat) (rnd : Nat → Nat) (k : Nat) :
    (∃ σ : Nat → Nat, Function.Injective σ ∧ (∀ m, m < n → σ m < n) ∧
      (∀ m, n ≤ m → σ m = m) ∧ ∀ b : Nat → Int, (shuffle b n rnd k).1 = b ∘ σ) ∧
    ((List.range n).map (shuffle a n rnd k).1).Perm ((List.range n).map a) ∧
    (∀ m, n ≤ m → (shuffle a n rnd k).1 m = a m) ∧
    (n ≤ 1 → (shuffle a n rnd k).1 = a) ∧
    (shuffle a n rnd k).2 = k + (n - 1) := by
  have hσ : ∃ σ : Nat → Nat, Function.Injective σ ∧ (∀ m, m < n → σ m < n) ∧
      (∀ m, n ≤ m → σ m = m) ∧ ∀ b : Nat → Int, (shuffle b n rnd k).1 = b ∘ σ := by
    by_cases hn : n = 0
    · subst hn
      exact ⟨id, Function.injective_id, fun m hm => by omega, fun _ _ => rfl, fun b => rfl⟩
    · obtain ⟨σ, hinj, hfix, heq⟩ :=
        shuffle_isShuffleOf (fun m : Nat => m) n (by omega) rnd k
      have hσ : σ = (shuffle (fun m : Nat => m) n rnd k).1 := by rw [heq]; rfl
      refine ⟨σ, hinj, lt_of_injective_fix σ n hinj hfix, hfix, ?_⟩
      intro b
      rw [hσ]
      exact shuffle_loop_comp rnd (n - 1) b k
  obtain ⟨σ, hinj, hlt, hfix, heq⟩ := hσ
  refine ⟨⟨σ, hinj, hlt, hfix, heq⟩, ?_, ?_, ?_, ?_⟩
  · rw [heq a]
    exact map_perm_of_injective a σ n hinj hlt
  · intro m hm
    rw [heq a, Function.comp_apply, hfix m hm]
  · intro hn
    have h0 : n - 1 = 0 := by omega
    unfold shuffle
    rw [h0]
    rfl
  · exact shuffle_loop_snd rnd (n - 1) a k

theorem shuffle_permutes_witness :
    1 ≤ 1 ∧ (shuffle (fun i : Nat => (i : Int)) 1 rnd39 0).1 = (fun i : Nat => (i : Int)) :=
  ⟨le_refl 1, (shuffle_permutes (fun i : Nat => (i : Int)) 1 rnd39 0).2.2.2.1 (le_refl 1)⟩

/-! ## The cell `find_mrv` selects -/

/-- What the scan over the cells `s, s+1, .., s+n-1` returns: the incoming
`best` if no empty cell there has fewer than `best_count` candidates, else an
empty cell `k` with fewer candidates than `best_count` and than every empty
cell before it, and, unless it has exactly one candidate, with no more
candidates than any empty cell after it. -/
theorem find_mrv_loop_spec (board : Board) :
    ∀ (n s : Nat) (best : Int) (bc : Nat),
      (find_mrv_loop board (List.range' s n) best bc = best ∧
        ∀ i, s ≤ i → i < s + n → board i = 0 →
          bc ≤ (candidates board (i / 9) (i % 9)).length) ∨
      (∃ k, s ≤ k ∧ k < s + n ∧ find_mrv_loop board (List.range' s n) best bc = (k : Int) ∧
        board k = 0 ∧ (candidates board (k / 9) (k % 9)).length < bc ∧
        (∀ i, s ≤ i → i < k → board i = 0 →
          (candidates board (k / 9) (k % 9)).length
            < (candidates board (i / 9) (i % 9)).length) ∧
        ((candidates board (k / 9) (k % 9)).length ≠ 1 →
          ∀ i, k < i → i < s + n → board i = 0 →
            (candidates board (k / 9) (k % 9)).length
              ≤ (candidates board (i / 9) (i % 9)).length)) := by
  intro n
  induction n with
  | zero =>
    intro s best bc
    left
    exact ⟨rfl, fun i h1 h2 => by omega⟩
  | succ n ih =>
    intro s best bc
    rw [List.range'_succ]
    unfold find_mrv_loop
    by_cases hne : board s ≠ 0
    · rw [if_pos hne]
      rcases ih (s + 1) best bc with ⟨hres, hall⟩ | ⟨k, hk1, hk2, hres, hz, hlt, hpre, hpost⟩
      · left
        refine ⟨hres, ?_⟩
        intro i h1 h2 hzi
        by_cases his : i = s
        · rw [his] at hzi; exact absurd hzi hne
        · exact hall i (by omega) (by omega) hzi
      · right
        refine ⟨k, by omega, by omega, hres, hz, hlt, ?_, ?_⟩
        · intro i h1 h2 hzi
          by_cases his : i = s
          · rw [his] at hzi; exact absurd hzi hne
          · exact hpre i (by omega) h2 hzi
        · intro h1 i h2 h3 hzi
          exact hpost h1 i h2 (by omega) hzi
    · have hz : board s = 0 := not_not.mp hne
      rw [if_neg hne]
      simp only
      by_cases hlt : (candidates board (s / 9) (s % 9)).length < bc
      · rw [if_pos hlt]
        by_cases h1 : (candidates board (s / 9) (s % 9)).length = 1
        · rw [if_pos h1]
          right
          exact ⟨s, le_refl s, by omega, rfl, hz, hlt, fun i h2 h3 => by omega,
            fun h => absurd h1 h⟩
        · rw [if_neg h1]
          rcases ih (s + 1) (s : Int) (candidates board (s / 9) (s % 9)).length with
            ⟨hres, hall⟩ | ⟨k, hk1, hk2, hres, hzk, hltk, hpre, hpost⟩
          · right
            refine ⟨s, le_refl s, by omega, hres, hz, hlt, fun i h2 h3 => by omega, ?_⟩
            intro _ i h2 h3 hzi
            exact hall i (by omega) (by omega) hzi
          · right
            refine ⟨k, by omega, by omega, hres, hzk, by omega, ?_, ?_⟩
            · intro i h2 h3 hzi
              by_cases his : i = s
              · rw [his]; exact hltk
              · exact hpre i (by omega) h3 hzi
            · intro h2 i h3 h4 hzi
              exact hpost h2 i h3 (by omega) hzi
      · rw [if_neg hlt]
        rcases ih (s + 1) best bc with ⟨hres, hall⟩ | ⟨k, hk1, hk2, hres, hzk, hltk, hpre, hpost⟩
        · left
          refine ⟨hres, ?_⟩
          intro i h2 h3 hzi
          by_cases his : i = s
          · rw [his]; omega
          · exact hall i (by omega) (by omega) hzi
        · right
          refine ⟨k, by omega, by omega, hres, hzk, hltk, ?_, ?_⟩
          · intro i h2 h3 hzi
            by_cases his : i = s
            · rw [his]; omega
            · exact hpre i (by omega) h3 hzi
          · intro h2 i h3 h4 hzi
            exact hpost h2 i h3 (by omega) hzi

/-- On a grid with an empty cell `find_mrv` returns the first empty cell with
the fewest candidates, or the first empty cell with exactly one candidate if
no cell before it has fewer. -/
theorem find_mrv_spec (board : Board) (hex : ∃ i, i < 81 ∧ board i = 0) :
    ∃ k : Nat, k < 81 ∧ find_mrv board = (k : Int) ∧ board k = 0 ∧
      (∀ i, i < k → board i = 0 →
        (candidates board (k / 9) (k % 9)).length
          < (candidates board (i / 9) (i % 9)).length) ∧
      ((candidates board (k / 9) (k % 9)).length ≠ 1 →
        ∀ i, k < i → i < 81 → board i = 0 →
          (candidates board (k / 9) (k % 9)).length
            ≤ (candidates board (i / 9) (i % 9)).length) := by
  unfold find_mrv
  have hrange : List.range NN = List.range' 0 81 := by
    rw [List.range_eq_range']
    rfl
  rw [hrange]
  rcases find_mrv_loop_spec board 81 0 (-1) 10 with
    ⟨_, hall⟩ | ⟨k, _, hk2, hres, hzk, _, hpre, hpost⟩
  · obtain ⟨i, hi, hz⟩ := hex
    have h1 := hall i (by omega) (by omega) hz
    have h2 := candidates_length_le board (i / 9) (i % 9)
    omega
  · refine ⟨k, by omega, hres, hzk, ?_, ?_⟩
    · intro i h1 hzi
      exact hpre i (by omega) h1 hzi
    · intro h1 i h2 h3 hzi
      exact hpost h1 i h2 (by omega) hzi

/-- C33 (cell choice): on every board with an empty cell, `find_mrv` returns
the index k of an empty cell such that every empty cell before k has strictly
more candidates than k and, unless k has exactly one candidate, every empty
cell after k has at least as many candidates as k; on a board without empty
cell it returns -1. -/
theorem find_mrv_minimal (board : Board) :
    ((∃ i, i < 81 ∧ board i = 0) →
      ∃ k : Nat, k < 81 ∧ find_mrv board = (k : Int) ∧ board k = 0 ∧
        (∀ i, i < k → board i = 0 →
          (candidates board (k / 9) (k % 9)).length
            < (candidates board (i / 9) (i % 9)).length) ∧
        ((candidates board (k / 9) (k % 9)).length ≠ 1 →
          ∀ i, k < i → i < 81 → board i = 0 →
            (candidates board (k / 9) (k % 9)).length
              ≤ (candidates board (i / 9) (i % 9)).length)) ∧
    ((∀ i, i < 81 → board i ≠ 0) → find_mrv board = -1) :=
  ⟨find_mrv_spec board, find_mrv_full board⟩

theorem find_mrv_minimal_witness :
    (∃ i, i < 81 ∧ deadBoard i = 0) ∧
    ∃ k : Nat, k < 81 ∧ find_mrv deadBoard = (k : Int) ∧ deadBoard k = 0 ∧
      (∀ i, i < k → deadBoard i = 0 →
        (candidates deadBoard (k / 9) (k % 9)).length
          < (candidates deadBoard (i / 9) (i % 9)).length) ∧
      ((candidates deadBoard (k / 9) (k % 9)).length ≠ 1 →
        ∀ i, k < i → i < 81 → deadBoard i = 0 →
          (candidates deadBoard (k / 9) (k % 9)).length
            ≤ (candidates deadBoard (i / 9) (i % 9)).length) :=
  ⟨⟨8, by decide, by decide⟩, (find_mrv_minimal deadBoard).1 ⟨8, by decide, by decide⟩⟩

/-! ## Dead ends of the search -/

/-- C32, as stated, fails (a cell without candidate is selected whenever there
is one): on `mrvBoard` the empty cell 80 has no candidate, yet `find_mrv`
returns cell 0, which has one candidate, so the search node branches. -/
theorem find_mrv_single_first_counterexample :
    mrvBoard 80 = 0 ∧ candidates mrvBoard (80 / 9) (80 % 9) = [] ∧
    find_mrv mrvBoard = 0 ∧ candidates mrvBoard (0 / 9) (0 % 9) = [9] ∧
    ¬ ((candidates mrvBoard ((find_mrv mrvBoard).toNat / 9)
        ((find_mrv mrvBoard).toNat % 9)).length = 0) := by
  decide

/-- C32, amended (dead end): if some empty cell has no candidate and no empty
cell before it in row-major order has exactly one candidate, `find_mrv`
returns an empty cell without candidate, and the search node built on it has
no branch: `rec_first` returns false and `count_limit` returns 0, both with
the board (and `out`) as they were, for every recursion budget of at least 1. -/
theorem find_mrv_dead_end (board out : Board) (limit : Int) (z : Nat) (hz : z < 81)
    (hempty : board z = 0) (hnone : candidates board (z / 9) (z % 9) = [])
    (hone : ∀ i, i < z → board i = 0 → (candidates board (i / 9) (i % 9)).length ≠ 1) :
    ∃ k : Nat, k < 81 ∧ find_mrv board = (k : Int) ∧ board k = 0 ∧
      candidates board (k / 9) (k % 9) = [] ∧
      ∀ fuel, 1 ≤ fuel →
        rec_first fuel board out = some (false, board, out) ∧
        count_limit fuel board limit = some (0, board) := by
  obtain ⟨k, hk, hres, hzk, hpre, hpost⟩ := find_mrv_spec board ⟨z, hz, hempty⟩
  have hz0 : (candidates board (z / 9) (z % 9)).length = 0 := by rw [hnone]; rfl
  have hk0 : (candidates board (k / 9) (k % 9)).length = 0 := by
    rcases Nat.lt_trichotomy k z with h | h | h
    · have h1 := hpost (hone k h hzk) z h hz hempty
      omega
    · rw [h]; exact hz0
    · have h1 := hpre z h hempty
      omega
  have hnil : candidates board (k / 9) (k % 9) = [] := List.length_eq_zero.mp hk0
  refine ⟨k, hk, hres, hzk, hnil, ?_⟩
  intro fuel hfuel
  obtain ⟨f, rfl⟩ : ∃ f, fuel = f + 1 := ⟨fuel - 1, by omega⟩
  have hneg : ¬ ((k : Int) < 0) := by omega
  constructor
  · unfold rec_first
    simp only [hres, hneg, if_false, Int.toNat_ofNat, hnil]
    rfl
  · unfold count_limit
    simp only [hres, hneg, if_false, Int.toNat_ofNat, hnil]
    rfl

theorem find_mrv_dead_end_witness :
    deadBoard 8 = 0 ∧ candidates deadBoard (8 / 9) (8 % 9) = [] ∧
    ∃ k : Nat, k < 81 ∧ find_mrv deadBoard = (k : Int) ∧ deadBoard k = 0 ∧
      candidates deadBoard (k / 9) (k % 9) = [] ∧
      ∀ fuel, 1 ≤ fuel →
        rec_first fuel deadBoard emptyBoard = some (false, deadBoard, emptyBoard) ∧
        count_limit fuel deadBoard 2 = some (0, deadBoard) :=
  ⟨by decide, by decide,
    find_mrv_dead_end deadBoard emptyBoard 2 8 (by decide) (by decide) (by decide)
      (by decide)⟩

/-- C34 (termination): on every grid, with every `out` and limit, `rec_first`
and `count_limit` return as soon as the recursion budget exceeds the number of
empty cells of the grid, which is at most 81; and every grid passed to a
recursive call (the selected empty cell filled with one of its candidates) has
strictly fewer empty cells than the grid of its caller. -/
theorem search_terminates (b out : Board) (limit : Int) (fuel : Nat)
    (hfuel : emptyCount b < fuel) :
    emptyCount b ≤ 81 ∧
    (∃ r, rec_first fuel b out = some r) ∧ (∃ r, count_limit fuel b limit = some r) ∧
    (¬ find_mrv b < 0 →
      ∀ v, v ∈ candidates b ((find_mrv b).toNat / 9) ((find_mrv b).toNat % 9) →
        emptyCount (Function.update b (find_mrv b).toNat v) < emptyCount b) := by
  refine ⟨emptyCount_le b, ?_, ?_, ?_⟩
  · obtain ⟨f, b1, o1, hres, _⟩ := rec_first_post fuel b out hfuel
    exact ⟨_, hres⟩
  · obtain ⟨n, hres⟩ := count_limit_post fuel b limit hfuel
    exact ⟨_, hres⟩
  · intro hneg v hv
    obtain ⟨hidx, hz⟩ := find_mrv_nonneg b hneg
    have hd := (candidates_mem b _ _ v hv).1
    have hr := digits_range v hd
    have := emptyCount_update b _ v hidx hz (by omega)
    omega

theorem search_terminates_witness :
    emptyCount deadBoard < 82 ∧
    (emptyCount deadBoard ≤ 81 ∧
    (∃ r, rec_first 82 deadBoard emptyBoard = some r) ∧
    (∃ r, count_limit 82 deadBoard 2 = some r) ∧
    (¬ find_mrv deadBoard < 0 →
      ∀ v, v ∈ candidates deadBoard ((find_mrv deadBoard).toNat / 9)
          ((find_mrv deadBoard).toNat % 9) →
        emptyCount (Function.update deadBoard (find_mrv deadBoard).toNat v)
          < emptyCount deadBoard)) :=
  ⟨Nat.lt_succ_of_le (emptyCount_le deadBoard),
    search_terminates deadBoard emptyBoard 2 82 (Nat.lt_succ_of_le (emptyCount_le deadBoard))⟩

/-! ## Conflicts and strict placement -/

theorem game_idx_div (r c : Nat) (hc : c < 9) : GAME_IDX r c / 9 = r := by
  unfold GAME_IDX; omega

theorem game_idx_mod (r c : Nat) (hc : c < 9) : GAME_IDX r c % 9 = c := by
  unfold GAME_IDX; omega

theorem game_idx_lt (r c : Nat) (hr : r < 9) (hc : c < 9) : GAME_IDX r c < 81 := by
  unfold GAME_IDX; omega

/-- The conflict test at `(r, c)`, in terms of units. -/
theorem game_has_conflict_rc (g : Game) (r c : Nat) (v : Int) (hr : r < 9) (hc : c < 9) :
    game_has_conflict g r c v = true ↔
      v ≠ 0 ∧ ∃ j, j < 81 ∧ j ≠ GAME_IDX r c ∧ sameUnit (GAME_IDX r c) j ∧ g.puzzle j = v := by
  have h := game_has_conflict_idx g (GAME_IDX r c) v (game_idx_lt r c hr hc)
  rw [game_idx_div r c hc, game_idx_mod r c hc] at h
  exact h

/-- The legality test at `(r, c)`, in terms of units. -/
theorem can_place_local_rc (b : Board) (r c : Nat) (v : Int) (hr : r < 9) (hc : c < 9) :
    can_place_local b r c v = true ↔
      ∀ j, j < 81 → sameUnit (GAME_IDX r c) j → b j ≠ v := by
  have h := can_place_local_iff b (GAME_IDX r c) v (game_idx_lt r c hr hc)
  rw [game_idx_div r c hc, game_idx_mod r c hc] at h
  exact h

theorem sameUnit_refl (i : Nat) : sameUnit i i := Or.inl rfl

/-- C35 (mirror): for r, c in 0..8 and v in 1..9, `game_has_conflict` is true
exactly when `can_place_local` is false on the puzzle with cell (r, c) set to
0; on an empty cell it equals the negation of `can_place_local` on the puzzle. -/
theorem game_has_conflict_mirror (g : Game) (r c : Nat) (v : Int) (hr : r < 9) (hc : c < 9)
    (hv1 : 1 ≤ v) (_hv9 : v ≤ 9) :
    (game_has_conflict g r c v = true ↔
      can_place_local (Function.update g.puzzle (GAME_IDX r c) 0) r c v = false) ∧
    (g.puzzle (GAME_IDX r c) = 0 →
      game_has_conflict g r c v = !can_place_local g.puzzle r c v) := by
  have hv0 : v ≠ 0 := by omega
  have hiff : game_has_conflict g r c v = true ↔
      can_place_local (Function.update g.puzzle (GAME_IDX r c) 0) r c v = false := by
    rw [game_has_conflict_rc g r c v hr hc, ← Bool.not_eq_true,
      can_place_local_rc _ r c v hr hc]
    constructor
    · rintro ⟨_, j, hj, hne, hsame, hval⟩ hall
      apply hall j hj hsame
      rw [Function.update_noteq hne]
      exact hval
    · intro hnot
      refine ⟨hv0, ?_⟩
      by_contra hno
      apply hnot
      intro j hj hsame hval
      by_cases hji : j = GAME_IDX r c
      · rw [hji, Function.update_same] at hval
        exact hv0 hval.symm
      · rw [Function.update_noteq hji] at hval
        exact hno ⟨j, hj, hji, hsame, hval⟩
  refine ⟨hiff, ?_⟩
  intro hz
  have hupd : Function.update g.puzzle (GAME_IDX r c) 0 = g.puzzle := by
    rw [← hz]
    exact Function.update_eq_self _ _
  rw [hupd] at hiff
  cases hcan : can_place_local g.puzzle r c v with
  | false => exact hiff.mpr hcan
  | true =>
    cases hh : game_has_conflict g r c v with
    | false => rfl
    | true =>
      have := hiff.mp hh
      rw [hcan] at this
      cases this

theorem game_has_conflict_mirror_witness :
    (game_has_conflict demoGame 0 0 5 = true ↔
      can_place_local (Function.update demoGame.puzzle (GAME_IDX 0 0) 0) 0 0 5 = false) ∧
    (demoGame.puzzle (GAME_IDX 0 0) = 0 →
      game_has_conflict demoGame 0 0 5 = !can_place_local demoGame.puzzle 0 0 5) :=
  game_has_conflict_mirror demoGame 0 0 5 (by decide) (by decide) (by decide) (by decide)

/-- C40 (re-entering a value): for r, c in 0..8, on a cell that is not fixed
and holds the value v in 1..9, a strict `game_place` of v returns false and
leaves the session as it was, whatever the other cells hold. -/
theorem game_place_strict_same_value (g : Game) (r c : Nat) (v : Int) (hr : r < 9)
    (hc : c < 9) (hfix : g.fixed (GAME_IDX r c) = 0) (hv1 : 1 ≤ v) (_hv9 : v ≤ 9)
    (hcur : g.puzzle (GAME_IDX r c) = v) :
    game_place g r c v true = (false, g) ∧ can_place_local g.puzzle r c v = false := by
  have hv0 : v ≠ 0 := by omega
  have hcan : can_place_local g.puzzle r c v = false := by
    rw [← Bool.not_eq_true, can_place_local_rc _ r c v hr hc]
    intro hall
    exact hall (GAME_IDX r c) (game_idx_lt r c hr hc) (sameUnit_refl _) hcur
  refine ⟨?_, hcan⟩
  unfold game_place
  simp [hfix, hv0, hcan]

theorem game_place_strict_same_value_witness :
    game_place demoGame 0 1 5 true = (false, demoGame) ∧
      can_place_local demoGame.puzzle 0 1 5 = false :=
  game_place_strict_same_value demoGame 0 1 5 (by decide) (by decide) (by decide) (by decide)
    (by decide) (by decide)

/-- The conflict counter is 0 exactly if no cell is in conflict. -/
theorem game_count_conflicts_zero (g : Game) :
    game_count_conflicts g = 0 ↔ ∀ i, i < 81 → ¬ InConflict g.puzzle i := by
  rw [game_count_conflicts_eq]
  constructor
  · intro h i hi hin
    have h0 : (List.range 81).countP (fun i => decide (InConflict g.puzzle i)) = 0 := by
      omega
    rw [List.countP_eq_zero] at h0
    have := h0 i (List.mem_range.mpr hi)
    simp only [decide_eq_true_eq] at this
    exact this hin
  · intro h
    have h0 : (List.range 81).countP (fun i => decide (InConflict g.puzzle i)) = 0 := by
      rw [List.countP_eq_zero]
      intro i hi
      simp only [decide_eq_true_eq]
      exact h i (List.mem_range.mp hi)
    rw [h0]
    rfl

/-- C38 (strict placement keeps the board conflict-free): for r, c in 0..8 and
every value v, if the session has no conflict and a strict `game_place`
returns true, the session after the call has no conflict. -/
theorem game_place_strict_no_conflict (g : Game) (r c : Nat) (v : Int) (hr : r < 9)
    (hc : c < 9) (hconf : game_count_conflicts g = 0)
    (hret : (game_place g r c v true).1 = true) :
    game_count_conflicts (game_place g r c v true).2 = 0 := by
  rw [game_count_conflicts_zero] at hconf ⊢
  unfold game_place at hret ⊢
  by_cases hf : g.fixed (GAME_IDX r c) ≠ 0
  · simp [hf] at hret
  · rw [if_neg hf] at hret ⊢
    by_cases hv : v = 0
    · rw [if_pos hv]
      simp only
      intro i hi ⟨hnz, j, hj, hji, hsame, hval⟩
      have hi2 : i ≠ GAME_IDX r c := by
        intro h
        rw [h, Function.update_same] at hnz
        exact hnz rfl
      rw [Function.update_noteq hi2] at hnz hval
      have hj2 : j ≠ GAME_IDX r c := by
        intro h
        rw [h, Function.update_same] at hval
        exact hnz hval.symm
      rw [Function.update_noteq hj2] at hval
      exact hconf i hi ⟨hnz, j, hj, hji, hsame, hval⟩
    · rw [if_neg hv] at hret ⊢
      by_cases hs : (true && !can_place_local g.puzzle r c v) = true
      · rw [if_pos hs] at hret
        cases hret
      · rw [if_neg hs]
        simp only
        have hcan : can_place_local g.puzzle r c v = true := by
          cases h : can_place_local g.puzzle r c v with
          | true => rfl
          | false => rw [h] at hs; exact absurd rfl hs
        rw [can_place_local_rc _ r c v hr hc] at hcan
        intro i hi ⟨hnz, j, hj, hji, hsame, hval⟩
        by_cases hi2 : i = GAME_IDX r c
        · rw [hi2] at hji hsame hval
          rw [Function.update_same, Function.update_noteq hji] at hval
          exact hcan j hj hsame hval
        · rw [Function.update_noteq hi2] at hnz hval
          by_cases hj2 : j = GAME_IDX r c
          · rw [hj2, Function.update_same] at hval
            rw [hj2] at hsame
            exact hcan i hi (sameUnit_symm _ _ hsame) hval.symm
          · rw [Function.update_noteq hj2] at hval
            exact hconf i hi ⟨hnz, j, hj, hji, hsame, hval⟩

theorem game_place_strict_no_conflict_witness :
    game_count_conflicts demoGame = 0 ∧ (game_place demoGame 0 0 3 true).1 = true ∧
      game_count_conflicts (game_place demoGame 0 0 3 true).2 = 0 :=
  ⟨by decide, by decide,
    game_place_strict_no_conflict demoGame 0 0 3 (by decide) (by decide) (by decide)
      (by decide)⟩

/-- C39 (conflicts come in groups): for every session, `game_count_conflicts`
is never 1: a cell in conflict duplicates another cell of one of its units,
and that cell is in conflict too. -/
theorem game_count_conflicts_ne_one (g : Game) :
    game_count_conflicts g ≠ 1 ∧
    ∀ i, i < 81 → InConflict g.puzzle i →
      ∃ j, j < 81 ∧ j ≠ i ∧ sameUnit i j ∧ InConflict g.puzzle j := by
  have hpair : ∀ i, i < 81 → InConflict g.puzzle i →
      ∃ j, j < 81 ∧ j ≠ i ∧ sameUnit i j ∧ InConflict g.puzzle j := by
    intro i hi ⟨hnz, j, hj, hji, hsame, hval⟩
    refine ⟨j, hj, hji, hsame, ?_, i, hi, fun h => hji h.symm, sameUnit_symm _ _ hsame, ?_⟩
    · rw [hval]; exact hnz
    · exact hval.symm
  refine ⟨?_, hpair⟩
  rw [game_count_conflicts_eq]
  intro h1
  have h : (List.range 81).countP (fun i => decide (InConflict g.puzzle i)) = 1 := by
    omega
  have hpos : 0 < (List.range 81).countP (fun i => decide (InConflict g.puzzle i)) := by
    omega
  rw [List.countP_pos_iff] at hpos
  obtain ⟨i, hi, hin⟩ := hpos
  have hin2 : InConflict g.puzzle i := by simpa using hin
  obtain ⟨j, hj, hji, _, hjn⟩ := hpair i (List.mem_range.mp hi) hin2
  have hsub : [i, j] ⊆ (List.range 81).filter (fun i => decide (InConflict g.puzzle i)) := by
    intro x hx
    rw [List.mem_filter]
    simp only [List.mem_cons, List.mem_singleton, List.not_mem_nil, or_false] at hx
    rcases hx with rfl | rfl
    · exact ⟨hi, hin⟩
    · exact ⟨List.mem_range.mpr hj, by simpa using hjn⟩
  have hnd : [i, j].Nodup := by
    simp only [List.nodup_cons, List.mem_singleton, List.not_mem_nil, not_false_eq_true,
      List.nodup_nil, and_true]
    exact fun h => hji h.symm
  have hlen := (List.subperm_of_subset hnd hsub).length_le
  rw [← List.countP_eq_length_filter, h] at hlen
  simp at hlen

/-! ## The two copies of the generator -/

/-- C36, as stated, fails (the two cores produce the same solved grid on every
stream): on the stream `rndSdl` cell 0 of the solved grid is 2 in
`sudokura_sdl.c` and 5 in `core/game.c`. -/
theorem sdl_make_solved_differs :
    (sdl_make_solved rndSdl 0).1 0 = 2 ∧ (make_solved rndSdl 0).1 0 = 5 ∧
      (sdl_make_solved rndSdl 0).1 ≠ (make_solved rndSdl 0).1 := by
  have h1 : (sdl_make_solved rndSdl 0).1 0 = 2 := by decide
  have h2 : (make_solved rndSdl 0).1 0 = 5 := by decide
  refine ⟨h1, h2, ?_⟩
  intro h
  rw [h, h2] at h1
  exact absurd h1 (by decide)

/-- While the bands come in their initial order, appending the lines group by
group while shuffling gives what shuffling all groups first gives. -/
theorem fill_lines_eq_sdl (rnd : Nat → Nat) (rin : Nat → Nat → Nat) (rows : Nat → Nat)
    (k : Nat) :
    fill_lines rnd (fun i => i) [0, 1, 2] rin rows 0 k
      = (sdl_fill_lines (fun i => i) (sdl_shuffle_groups rnd [0, 1, 2] rin k).1 [0, 1, 2]
          rows 0, (sdl_shuffle_groups rnd [0, 1, 2] rin k).2) := by
  simp only [fill_lines, sdl_fill_lines, sdl_shuffle_groups]
  have h10 : (1 : Nat) ≠ 0 := by decide
  have h20 : (2 : Nat) ≠ 0 := by decide
  have h21 : (2 : Nat) ≠ 1 := by decide
  have h01 : (0 : Nat) ≠ 1 := by decide
  have h02 : (0 : Nat) ≠ 2 := by decide
  have h12 : (1 : Nat) ≠ 2 := by decide
  simp only [Function.update_same, Function.update_noteq h10, Function.update_noteq h20,
    Function.update_noteq h21, Function.update_noteq h01, Function.update_noteq h02,
    Function.update_noteq h12]

/-- C36, amended (duplicate core): for every stream of `rand()` values on which
the shuffles of `band` and `stack_` are the identity, `make_solved` of
`sudokura_sdl.c` writes the same grid and uses the same number of values as
`make_solved` of `core/game.c`, and `new_game` produces the same session as
`game_new`. -/
theorem sdl_core_agree (rnd : Nat → Nat) (uninit : Board)
    (hband : IdentityDraws rnd 0 3) (hstack : IdentityDraws rnd 8 3) :
    sdl_make_solved rnd 0 = make_solved rnd 0 ∧ sdl_new_game rnd uninit = game_new rnd uninit := by
  have hb : shuffle (fun i : Nat => i) 3 rnd 0 = (fun i => i, 0 + (3 - 1)) :=
    shuffle_id rnd _ 3 0 hband
  have hms : sdl_make_solved rnd 0 = make_solved rnd 0 := by
    unfold sdl_make_solved make_solved
    simp only [hb, fill_lines_eq_sdl]
    have h8 : (sdl_shuffle_groups rnd [0, 1, 2] (fun b i => 3 * b + i) (0 + (3 - 1))).2 = 8 := by
      simp only [sdl_shuffle_groups, shuffle, shuffle_loop_snd]
    have hs : shuffle (fun i : Nat => i) 3 rnd 8 = (fun i => i, 8 + (3 - 1)) :=
      shuffle_id rnd _ 3 8 hstack
    simp only [h8, hs, fill_lines_eq_sdl]
  refine ⟨hms, ?_⟩
  unfold sdl_new_game game_new
  rw [hms]

theorem sdl_core_agree_witness :
    IdentityDraws rndId 0 3 ∧ IdentityDraws rndId 8 3 ∧
    sdl_make_solved rndId 0 = make_solved rndId 0 ∧
      sdl_new_game rndId emptyBoard = game_new rndId emptyBoard :=
  ⟨rndId_draws 0 3 (by decide), rndId_draws 8 3 (by decide),
    sdl_core_agree rndId emptyBoard (rndId_draws 0 3 (by decide)) (rndId_draws 8 3 (by decide))⟩

/-! ## A full board without conflict -/

/-- A session whose puzzle has every cell in 1..9 and no conflict holds a full
consistent grid that keeps the givens. -/
theorem puzzle_completes_givens (g : Game)
    (hfull : ∀ i, i < 81 → 1 ≤ g.puzzle i ∧ g.puzzle i ≤ 9)
    (hconf : game_count_conflicts g = 0) : IsCompletion (givens g) g.puzzle := by
  rw [game_count_conflicts_zero] at hconf
  refine ⟨?_, ⟨?_, ?_⟩, ?_⟩
  · intro i hi
    have := hfull i hi
    omega
  · intro i hi
    have := hfull i hi
    omega
  · intro i hi j hj hij hsame hnz heq
    exact hconf i hi ⟨hnz, j, hj, fun h => hij h.symm, hsame, heq.symm⟩
  · intro i _ hnz
    unfold givens at hnz ⊢
    by_cases hf : g.fixed i ≠ 0
    · rw [if_pos hf]
    · rw [if_neg hf] at hnz
      exact absurd rfl hnz

/-- C37 (full and conflict-free means solved): for every session in which
`solution` is the only valid completion of the givens, the fixed cells hold
their solution value, every puzzle cell is in 1..9 and `game_count_conflicts`
is 0, `game_is_solved` returns true. -/
theorem game_is_solved_of_no_conflict (g : Game)
    (_hsol : IsCompletion (givens g) g.solution)
    (huniq : ∀ t, IsCompletion (givens g) t → ∀ i, i < 81 → t i = g.solution i)
    (_hfixed : FixedOK g)
    (hfull : ∀ i, i < 81 → 1 ≤ g.puzzle i ∧ g.puzzle i ≤ 9)
    (hconf : game_count_conflicts g = 0) :
    game_is_solved g = true := by
  have heq := huniq g.puzzle (puzzle_completes_givens g hfull hconf)
  unfold game_is_solved
  rw [List.all_eq_true]
  intro i hi
  have hi81 : i < 81 := by simpa [NN] using List.mem_range.mp hi
  have h1 := hfull i hi81
  have hnz : g.puzzle i ≠ 0 := by omega
  rw [← heq i hi81]
  simp [hnz]

theorem solved39_full_consistent : Full solved39 ∧ Consistent solved39 :=
  latinB_sound solved39 (by decide!)

theorem solvedGame_givens : givens solvedGame = solved39 := by
  funext i
  simp [givens, solvedGame]

theorem solvedGame_conflicts : game_count_conflicts solvedGame = 0 := by
  rw [game_count_conflicts_zero]
  rintro i hi ⟨hnz, j, hj, hji, hsame, hval⟩
  exact solved39_full_consistent.2.2 i hi j hj (fun h => hji h.symm) hsame hnz hval.symm

theorem game_is_solved_of_no_conflict_witness : game_is_solved solvedGame = true :=
  game_is_solved_of_no_conflict solvedGame
    (by
      rw [solvedGame_givens]
      exact ⟨solved39_full_consistent.1, solved39_full_consistent.2, fun _ _ _ => rfl⟩)
    (by
      rw [solvedGame_givens]
      intro t ht i hi
      exact ht.2.2 i hi (solved39_full_consistent.1 i hi))
    (fun i hi _ => ⟨rfl, solved39_full_consistent.1 i hi⟩)
    (fun i hi => by
      have h1 := solved39_full_consistent.2.1 i hi
      have h2 := solved39_full_consistent.1 i hi
      have h3 : solvedGame.puzzle i = solved39 i := rfl
      rw [h3]
      omega)
    solvedGame_conflicts

/-! ## Where the digger stops -/

/-- Emptying a filled cell removes exactly one clue. -/
theorem clueCount_update_filled (b : Board) (idx : Nat) (hidx : idx < 81) (hnz : b idx ≠ 0) :
    clueCount (Function.update b idx 0) + 1 = clueCount b := by
  unfold clueCount
  apply countP_succ_of_switch _ _ idx _ (List.nodup_range 81) (List.mem_range.mpr hidx)
  · simp [hnz]
  · simp
  · intro i hi
    simp [Function.update_noteq hi]

/-- The tentative clear of two filled cells removes `delta` clues. -/
theorem cleared_count_filled (grid : Board) (i j : Nat) (hi : i < 81) (hj : j < 81)
    (hgi : grid i ≠ 0) (hgj : grid j ≠ 0) :
    (clueCount (if j ≠ i then Function.update (Function.update grid i 0) j 0
        else Function.update grid i 0) : Int) + (if j = i then 1 else 2)
      = clueCount grid := by
  have h1 := clueCount_update_filled grid i hi hgi
  by_cases hji : j = i
  · simp only [hji, ne_eq, not_true_eq_false, if_false, if_true]
    omega
  · have h2 := clueCount_update_filled (Function.update grid i 0) j hj
      (by rw [Function.update_noteq hji]; exact hgj)
    simp only [hji, ne_eq, not_false_eq_true, if_true, if_false]
    omega

/-- A full consistent grid is a completion of every grid cut from it. -/
theorem isCompletion_of_cleared (S b : Board) (hfull : Full S) (hcons : Consistent S)
    (hb : ∀ m, b m = 0 ∨ b m = S m) : IsCompletion b S := by
  refine ⟨hfull, hcons, ?_⟩
  intro m _ hnz
  rcases hb m with h | h
  · exact absurd h hnz
  · exact h.symm

/-- Emptying cells of a grid can only add completions. -/
theorem completions_subset_of_cleared (b b1 : Board) (h : ∀ m, b1 m = 0 ∨ b1 m = b m) :
    completions b ⊆ completions b1 := by
  intro s hs
  obtain ⟨hf, hc, hext⟩ := (mem_completions _ s).mp hs
  refine (mem_completions _ s).mpr ⟨hf, hc, ?_⟩
  intro m hm hnz
  rcases h m with h0 | h1
  · exact absurd h0 hnz
  · rw [h1] at hnz ⊢
    exact hext m hm hnz

/-- The tentative clear of a grid with fewer clues has fewer clues. -/
theorem cleared_mono (b b1 : Board) (h : ∀ m, b1 m = 0 ∨ b1 m = b m) (i j : Nat) (m : Nat) :
    (if j ≠ i then Function.update (Function.update b1 i 0) j 0
      else Function.update b1 i 0) m = 0 ∨
    (if j ≠ i then Function.update (Function.update b1 i 0) j 0
      else Function.update b1 i 0) m
      = (if j ≠ i then Function.update (Function.update b i 0) j 0
        else Function.update b i 0) m := by
  by_cases hji : j ≠ i
  · simp only [hji, if_true, ne_eq, not_false_eq_true]
    by_cases h1 : m = j
    · subst h1; left; simp
    · by_cases h2 : m = i
      · subst h2; left; simp [Function.update_noteq h1]
      · simp only [Function.update_noteq h1, Function.update_noteq h2]
        exact h m
  · simp only [hji, if_false]
    by_cases h2 : m = i
    · subst h2; left; simp
    · simp only [Function.update_noteq h2]
      exact h m

/-- A pair the digger cannot remove stays so when more cells are emptied. -/
theorem pairStuck_mono (S b b1 : Board) (hfull : Full S) (hcons : Consistent S)
    (hb : ∀ m, b m = 0 ∨ b m = S m) (hb1 : ∀ m, b1 m = 0 ∨ b1 m = b m) (p : Nat)
    (h : PairStuck b p) : PairStuck b1 p := by
  rcases h with ⟨h1, h2⟩ | h
  · left
    constructor
    · rcases hb1 p with h | h
      · exact h
      · rw [h]; exact h1
    · rcases hb1 (80 - p) with h | h
      · exact h
      · rw [h]; exact h2
  · right
    have hcS : ∀ m, (if 80 - p ≠ p then Function.update (Function.update b p 0) (80 - p) 0
        else Function.update b p 0) m = 0 ∨
        (if 80 - p ≠ p then Function.update (Function.update b p 0) (80 - p) 0
        else Function.update b p 0) m = S m := by
      intro m
      rcases cleared_cells b p (80 - p) m with h0 | h0
      · left; exact h0
      · rw [h0]; exact hb m
    have hmem := ofBoard_mem_completions _ S (isCompletion_of_cleared S _ hfull hcons hcS)
    have hpos := (Set.ncard_pos (completions_finite _)).mpr ⟨_, hmem⟩
    have hle := Set.ncard_le_ncard
      (completions_subset_of_cleared _ _ (cleared_mono b b1 hb1 p (80 - p)))
      (completions_finite _)
    omega

/-- The invariant of the digger loop on a grid cut from a full consistent grid
`S` with a point-symmetric clue pattern: the counter bounds the number of
clues, and once the loop ends either at most 38 clues are left or every
visited pair is one the digger cannot remove. -/
theorem remove_loop_stuck (rnd : Nat → Nat) (scratch : Board) (pos : Nat → Nat) (S : Board)
    (hfull : Full S) (hcons : Consistent S) :
    ∀ (ks : List Nat) (grid : Board) (clues : Int) (s : Nat) (V : Nat → Prop),
      (∀ k, k ∈ ks → pos k < 81) →
      (∀ m, grid m = 0 ∨ grid m = S m) →
      PointSymmetric grid →
      (clueCount grid : Int) ≤ clues →
      (clueCount grid ≤ 38 ∨ ∀ p, V p → PairStuck grid p) →
      ∃ g, remove_loop rnd scratch pos ks grid clues s = some g ∧
        (clueCount g ≤ 38 ∨ ∀ p, (V p ∨ ∃ k, k ∈ ks ∧ p = pos k) → PairStuck g p) := by
  intro ks
  induction ks with
  | nil =>
    intro grid clues s V _ _ _ _ hV
    refine ⟨grid, rfl, ?_⟩
    rcases hV with h | h
    · left; exact h
    · right
      rintro p (hp | ⟨k, hk, _⟩)
      · exact h p hp
      · cases hk
  | cons k ks ih =>
    intro grid clues s V hpos hz hsym hcl hV
    have hk : pos k < 81 := hpos k (List.mem_cons_self k ks)
    have hpos1 : ∀ k1, k1 ∈ ks → pos k1 < 81 := fun k1 h => hpos k1 (List.mem_cons_of_mem k h)
    -- what the recursive call on the rest yields is what is asked for
    have hfinish : ∀ (res : Option Board),
        (∃ g, res = some g ∧ (clueCount g ≤ 38 ∨
          ∀ p, ((V p ∨ p = pos k) ∨ ∃ k1, k1 ∈ ks ∧ p = pos k1) → PairStuck g p)) →
        ∃ g, res = some g ∧ (clueCount g ≤ 38 ∨
          ∀ p, (V p ∨ ∃ k1, k1 ∈ k :: ks ∧ p = pos k1) → PairStuck g p) := by
      rintro res ⟨g, hg, hor⟩
      refine ⟨g, hg, ?_⟩
      rcases hor with h | h
      · left; exact h
      · right
        rintro p (hp | ⟨k1, hk1, hpk⟩)
        · exact h p (Or.inl (Or.inl hp))
        · rcases List.mem_cons.mp hk1 with h1 | h1
          · exact h p (Or.inl (Or.inr (by rw [hpk, h1])))
          · exact h p (Or.inr ⟨k1, h1, hpk⟩)
    unfold remove_loop
    simp only
    rw [partner_eq _ hk]
    by_cases hskip : grid (pos k) = 0 ∧ grid (80 - pos k) = 0
    · rw [if_pos hskip]
      apply hfinish
      apply ih grid clues s (fun p => V p ∨ p = pos k) hpos1 hz hsym hcl
      rcases hV with h | h
      · left; exact h
      · right
        rintro p (hp | hp)
        · exact h p hp
        · rw [hp]; exact Or.inl hskip
    · rw [if_neg hskip]
      have hgi : grid (pos k) ≠ 0 := fun h0 => hskip ⟨h0, (hsym _ hk).mp h0⟩
      have hgj : grid (80 - pos k) ≠ 0 := fun h0 => hgi ((hsym _ hk).mpr h0)
      have hz2 : ∀ m, (if 80 - pos k ≠ pos k then
          Function.update (Function.update grid (pos k) 0) (80 - pos k) 0
          else Function.update grid (pos k) 0) m = 0 ∨
          (if 80 - pos k ≠ pos k then
          Function.update (Function.update grid (pos k) 0) (80 - pos k) 0
          else Function.update grid (pos k) 0) m = S m := by
        intro m
        rcases cleared_cells grid (pos k) (80 - pos k) m with h0 | h0
        · left; exact h0
        · rw [h0]; exact hz m
      obtain ⟨out, hout⟩ := unique_solution_iff _ scratch (consistent_of_cleared S _ hz2 hcons)
      have hcount := cleared_count_filled grid (pos k) (80 - pos k) hk (by omega) hgi hgj
      rw [hout]
      simp only
      by_cases hrevert : (!decide ((completions (if 80 - pos k ≠ pos k then
          Function.update (Function.update grid (pos k) 0) (80 - pos k) 0
          else Function.update grid (pos k) 0)).ncard = 1) ||
          decide (clues - (if 80 - pos k = pos k then 1 else 2) < 32)) = true
      · rw [if_pos hrevert, restore_eq]
        apply hfinish
        apply ih grid clues s (fun p => V p ∨ p = pos k) hpos1 hz hsym hcl
        by_cases huniq : (completions (if 80 - pos k ≠ pos k then
            Function.update (Function.update grid (pos k) 0) (80 - pos k) 0
            else Function.update grid (pos k) 0)).ncard = 1
        · left
          have hlow : clues - (if 80 - pos k = pos k then 1 else 2) < 32 := by
            rcases (Bool.or_eq_true _ _).mp hrevert with h | h
            · rw [Bool.not_eq_true', decide_eq_false_iff_not] at h
              exact absurd huniq h
            · exact of_decide_eq_true h
          have hd : (if 80 - pos k = pos k then (1 : Int) else 2) ≤ 2 := by
            split_ifs <;> omega
          omega
        · rcases hV with h | h
          · left; exact h
          · right
            rintro p (hp | hp)
            · exact h p hp
            · rw [hp]; exact Or.inr huniq
      · rw [if_neg hrevert]
        have hsym2 := pointSymmetric_cleared grid (pos k) hk hsym
        have hd : (1 : Int) ≤ (if 80 - pos k = pos k then (1 : Int) else 2) := by
          split_ifs <;> omega
        have hV2 : clueCount (if 80 - pos k ≠ pos k then
            Function.update (Function.update grid (pos k) 0) (80 - pos k) 0
            else Function.update grid (pos k) 0) ≤ 38 ∨
            ∀ p, (V p ∨ p = pos k) → PairStuck (if 80 - pos k ≠ pos k then
              Function.update (Function.update grid (pos k) 0) (80 - pos k) 0
              else Function.update grid (pos k) 0) p := by
          rcases hV with h | h
          · left; omega
          · right
            rintro p (hp | hp)
            · exact pairStuck_mono S grid _ hfull hcons hz
                (cleared_cells grid (pos k) (80 - pos k)) p (h p hp)
            · rw [hp]
              left
              by_cases hji : 80 - pos k ≠ pos k
              · rw [if_pos hji]
                exact ⟨by rw [Function.update_noteq (fun h => hji h.symm),
                  Function.update_same], Function.update_same _ _ _⟩
              · rw [if_neg hji]
                have hji2 : 80 - pos k = pos k := not_not.mp hji
                rw [hji2]
                exact ⟨Function.update_same _ _ _, Function.update_same _ _ _⟩
        by_cases hmax : clues - (if 80 - pos k = pos k then 1 else 2) ≤ 38
        · rw [if_pos hmax]
          by_cases hstop : rnd s % 3 = 0
          · rw [if_pos hstop]
            exact ⟨_, rfl, Or.inl (by omega)⟩
          · rw [if_neg hstop]
            apply hfinish
            exact ih _ _ _ _ hpos1 hz2 hsym2 (by omega) hV2
        · rw [if_neg hmax]
          apply hfinish
          exact ih _ _ _ _ hpos1 hz2 hsym2 (by omega) hV2

/-- The shuffled visiting order `pos` visits every cell. -/
theorem shuffle_pos_surj (rnd : Nat → Nat) (s : Nat) (i : Nat) (hi : i < 81) :
    ∃ k, k < 81 ∧ (shuffle (fun i => i) NN rnd s).1 k = i := by
  obtain ⟨σ, hinj, hfix, heq⟩ := shuffle_isShuffleOf (fun i : Nat => i) NN (by decide) rnd s
  have hperm := map_perm_of_injective (fun i : Nat => i) σ 81 hinj
    (lt_of_injective_fix σ 81 hinj hfix)
  have hmem : i ∈ (List.range 81).map (fun i : Nat => i) := by
    rw [List.mem_map]
    exact ⟨i, List.mem_range.mpr hi, rfl⟩
  have hmem2 := hperm.symm.subset hmem
  rw [List.mem_map] at hmem2
  obtain ⟨k, hk, hki⟩ := hmem2
  refine ⟨k, List.mem_range.mp hk, ?_⟩
  rw [heq]
  exact hki

/-- A grid with an empty cell has at most 80 clues. -/
theorem clueCount_le_of_empty (b : Board) (i : Nat) (hi : i < 81) (hz : b i = 0) :
    clueCount b ≤ 80 := by
  have h := clueCount_update_zero (Function.update b i 1) i
  have h1 := clueCount_update_filled (Function.update b i 1) i hi (by simp)
  have h2 : Function.update (Function.update b i 1) i 0 = b := by
    rw [Function.update_idem, ← hz]
    exact Function.update_eq_self _ _
  rw [h2] at h1
  have h3 := clueCount_le (Function.update b i 1)
  omega

/-- The tentative clear written as two stores. -/
theorem cleared_eq_updates (g : Board) (i j : Nat) :
    (if j ≠ i then Function.update (Function.update g i 0) j 0 else Function.update g i 0)
      = Function.update (Function.update g i 0) j 0 := by
  by_cases hji : j ≠ i
  · rw [if_pos hji]
  · rw [if_neg hji, not_not.mp hji, Function.update_idem]

/-- C4, amended (clue count bounds): for every stream of `rand()` values,
`game_new` returns a session whose puzzle has at least 32 and at most 80
non-zero cells, and the count lies in [32, 38] unless the digger ran out of
removable pairs: if more than 38 cells are non-zero, then for every non-zero
cell i the puzzle with the cells i and 80 - i cleared has at least two valid
completions. -/
theorem game_new_clue_bounds (rnd : Nat → Nat) (uninit : Board) :
    ∃ g, game_new rnd uninit = some g ∧
      32 ≤ clueCount g.puzzle ∧ clueCount g.puzzle ≤ 80 ∧
      ((32 ≤ clueCount g.puzzle ∧ clueCount g.puzzle ≤ 38) ∨
        ∀ i, i < 81 → g.puzzle i ≠ 0 →
          2 ≤ (completions
            (Function.update (Function.update g.puzzle i 0) (80 - i) 0)).ncard) := by
  obtain ⟨puzzle, final, hnew, hdig, _, _, _, _, _, hclues⟩ := game_new_spec rnd uninit
  obtain ⟨hfullS, hconsS⟩ := make_solved_full_consistent rnd 0
  have h32 : 32 ≤ clueCount puzzle := by omega
  -- the grid is cut from the solved grid
  have hzP : ∀ m, puzzle m = 0 ∨ puzzle m = (make_solved rnd 0).1 m := by
    obtain ⟨g, hg, hz, _⟩ :=
      remove_to_medium_post (make_solved rnd 0).1 rnd (make_solved rnd 0).2 uninit
    rw [hdig] at hg
    rw [Option.some.inj hg]
    exact hz
  -- the first visited cell is empty
  have hrange : List.range NN = 0 :: List.range' 1 80 := by decide
  have hlt := shuffle_pos_lt rnd (make_solved rnd 0).2 0 (by decide)
  have h80 : clueCount puzzle ≤ 80 := by
    obtain ⟨g, hg, hz⟩ := remove_loop_first_commit rnd uninit
      (shuffle (fun i => i) NN rnd (make_solved rnd 0).2).1 0 (List.range' 1 80)
      (make_solved rnd 0).1 (shuffle (fun i : Nat => i) NN rnd (make_solved rnd 0).2).2
      hfullS hconsS hlt
    have hdig1 := hdig
    unfold remove_to_medium at hdig1
    simp only [hrange] at hdig1
    rw [hg] at hdig1
    rw [← Option.some.inj hdig1]
    exact clueCount_le_of_empty g _ hlt hz
  -- at most 38 clues, or every pair is stuck
  obtain ⟨g, hg, hor⟩ := remove_loop_stuck rnd uninit
    (shuffle (fun i => i) NN rnd (make_solved rnd 0).2).1 (make_solved rnd 0).1 hfullS hconsS
    (List.range NN) (make_solved rnd 0).1 81
    (shuffle (fun i : Nat => i) NN rnd (make_solved rnd 0).2).2 (fun _ => False)
    (fun k hk => shuffle_pos_lt rnd _ k (by simpa [NN] using List.mem_range.mp hk))
    (fun m => Or.inr rfl)
    (fun i hi => ⟨fun h => absurd h (hfullS i hi), fun h => absurd h (hfullS (80 - i) (by omega))⟩)
    (by rw [clueCount_full _ hfullS]; norm_num)
    (Or.inr (fun p hp => hp.elim))
  have hpg : g = puzzle := by
    have hdig1 := hdig
    unfold remove_to_medium at hdig1
    rw [hg] at hdig1
    exact Option.some.inj hdig1
  subst hpg
  refine ⟨fill_game g final, hnew, h32, h80, ?_⟩
  rcases hor with h | h
  · exact Or.inl ⟨h32, h⟩
  · right
    intro i hi hnz
    obtain ⟨k, hk, hki⟩ := shuffle_pos_surj rnd (make_solved rnd 0).2 i hi
    have hst := h i (Or.inr ⟨k, List.mem_range.mpr (show k < NN from hk), hki.symm⟩)
    rcases hst with ⟨h0, _⟩ | hne
    · exact absurd h0 hnz
    · rw [cleared_eq_updates] at hne
      have hc : ∀ m, Function.update (Function.update g i 0) (80 - i) 0 m = 0 ∨
          Function.update (Function.update g i 0) (80 - i) 0 m = (make_solved rnd 0).1 m := by
        intro m
        have := cleared_cells g i (80 - i) m
        rw [cleared_eq_updates] at this
        rcases this with h0 | h0
        · left; exact h0
        · rw [h0]; exact hzP m
      have hmem := ofBoard_mem_completions _ _
        (isCompletion_of_cleared (make_solved rnd 0).1 _ hfullS hconsS hc)
      have hpos := (Set.ncard_pos (completions_finite _)).mpr ⟨_, hmem⟩
      show 2 ≤ (completions (Function.update (Function.update g i 0) (80 - i) 0)).ncard
      omega

end Sudokura
